/-
Verification of the markdown-editor repository against its specification.

Shallow embedding of the relevant modules:
  * `Diff`    — src/js/modules/diff.js   (line diff via LCS, rendering)
  * `History` — src/js/modules/history.js (snapshots, timers, restore)
  * `Storage` — src/js/modules/storage.js (localStorage-fallback data path)
  * `Parser`  — the markdown parser module (block/inline passes, sanitize)

Strings are modelled with Lean `String`/`List Char`; JavaScript's
`text.split('\n')` and array `join` are embedded explicitly below.
-/
import Mathlib

namespace MdDiff

/-- Embeds JS `text.split('\n')` on the character list: splitting at every
newline, with `"" ↦ [""]` and empty segments preserved. -/
def splitNlChars : List Char → List (List Char)
  | [] => [[]]
  | c :: rest =>
    if c = '\n' then [] :: splitNlChars rest
    else
      match splitNlChars rest with
      | [] => [[c]]
      | h :: t => (c :: h) :: t

/-- JS `oldText.split('\n')` producing the line strings. -/
def splitNl (s : String) : List String :=
  (splitNlChars s.data).map String.mk

/-- Joining lines with a newline separator (JS `lines.join('\n')`),
character-list level. -/
def joinNlChars : List (List Char) → List Char
  | [] => []
  | [l] => l
  | l :: ls => l ++ '\n' :: joinNlChars ls

/-- Joining line strings with newline. -/
def joinNl (lines : List String) : String :=
  ⟨joinNlChars (lines.map String.data)⟩

/-- Diff operations, src/js/modules/diff.js: `{type: EQUAL|INSERT|DELETE,
line, oldLine?, newLine?}` (1-based indices as in the source). -/
inductive DiffOp where
  | equal (line : String) (oldLine newLine : Nat)
  | insert (line : String) (newLine : Nat)
  | delete (line : String) (oldLine : Nat)
  deriving DecidableEq, Repr

/-- One inner step of the `computeLCS` fill loop: given the previous row
(suffix starting at column `j-1`) and the entry to the left, produce the rest
of the current row.  `matrix[i][j] = if a[i-1]===b[j-1] then matrix[i-1][j-1]+1
else max(matrix[i-1][j], matrix[i][j-1])`. -/
def buildRowGo (ai : String) : List String → List Nat → Nat → List Nat
  | [], _, _ => []
  | bj :: bs, prev, left =>
    let diag := prev.headD 0
    let up := (prev.drop 1).headD 0
    let v := if ai = bj then diag + 1 else max up left
    v :: buildRowGo ai bs (prev.drop 1) v

/-- All rows `1..m` of the LCS matrix, given row `i-1`. -/
def lcsRows (b : List String) : List String → List Nat → List (List Nat)
  | [], _ => []
  | ai :: arest, prev =>
    let row := 0 :: buildRowGo ai b prev 0
    row :: lcsRows b arest row

/-- `Diff.computeLCS(a, b)`: the `(m+1)×(n+1)` dynamic-programming matrix. -/
def computeLCS (a b : List String) : List (List Nat) :=
  let firstRow := List.replicate (b.length + 1) 0
  firstRow :: lcsRows b a firstRow

/-- Entry `lcs[i][j]` of the matrix (out-of-range reads default to 0; the
source never reads out of range). -/
def entry (lcs : List (List Nat)) (i j : Nat) : Nat :=
  (lcs.getD i []).getD j 0

/-- The backtracking loop of `Diff.buildDiffFromLCS`, with explicit fuel; the
source's `while (i > 0 || j > 0)` executes at most `i + j` iterations, each
decreasing `i + j` by one.  `unshift` builds the list front-first, so the op
produced at `(i, j)` is appended after the recursive result. -/
def backtrackF (a b : List String) (lcs : List (List Nat)) :
    Nat → Nat → Nat → List DiffOp
  | 0, _, _ => []
  | fuel + 1, i, j =>
    if i = 0 ∧ j = 0 then []
    else if 0 < i ∧ 0 < j ∧ a.getD (i - 1) "" = b.getD (j - 1) "" then
      backtrackF a b lcs fuel (i - 1) (j - 1) ++
        [.equal (a.getD (i - 1) "") i j]
    else if 0 < j ∧ (i = 0 ∨ entry lcs i (j - 1) ≥ entry lcs (i - 1) j) then
      backtrackF a b lcs fuel i (j - 1) ++
        [.insert (b.getD (j - 1) "") j]
    else if 0 < i then
      backtrackF a b lcs fuel (i - 1) j ++
        [.delete (a.getD (i - 1) "") i]
    else []

/-- `Diff.buildDiffFromLCS(oldLines, newLines, lcs)`. -/
def buildDiffFromLCS (oldLines newLines : List String)
    (lcs : List (List Nat)) : List DiffOp :=
  backtrackF oldLines newLines lcs (oldLines.length + newLines.length)
    oldLines.length newLines.length

/-- `Diff.computeDiff(oldText, newText)`. -/
def computeDiff (oldText newText : String) : List DiffOp :=
  let oldLines := splitNl oldText
  let newLines := splitNl newText
  let lcs := computeLCS oldLines newLines
  buildDiffFromLCS oldLines newLines lcs

/-- The line carried for the new text: `Insert` and `Equal` operations. -/
def newPart : DiffOp → Option String
  | .equal l _ _ => some l
  | .insert l _ => some l
  | .delete _ _ => none

/-- The line carried for the old text: `Delete` and `Equal` operations. -/
def oldPart : DiffOp → Option String
  | .equal l _ _ => some l
  | .insert _ _ => none
  | .delete l _ => some l

theorem splitNlChars_ne_nil (l : List Char) : splitNlChars l ≠ [] := by
  cases l with
  | nil => simp [splitNlChars]
  | cons c rest =>
    simp only [splitNlChars]
    split
    · simp
    · cases h : splitNlChars rest <;> simp

theorem joinNlChars_cons (l : List Char) (ls : List (List Char))
    (h : ls ≠ []) : joinNlChars (l :: ls) = l ++ '\n' :: joinNlChars ls := by
  cases ls with
  | nil => exact absurd rfl h
  | cons a t => rfl

theorem joinNlChars_splitNlChars (l : List Char) :
    joinNlChars (splitNlChars l) = l := by
  induction l with
  | nil => rfl
  | cons c rest ih =>
    simp only [splitNlChars]
    split
    · rename_i hc
      rw [joinNlChars_cons _ _ (splitNlChars_ne_nil rest), ih, hc]
      rfl
    · cases h : splitNlChars rest with
      | nil => exact absurd h (splitNlChars_ne_nil rest)
      | cons a t =>
        rw [h] at ih
        cases t with
        | nil => simpa [joinNlChars] using ih
        | cons a' t' =>
          rw [joinNlChars_cons _ _ (by simp), List.cons_append,
            ← joinNlChars_cons _ _ (by simp), ih]

theorem joinNl_splitNl (s : String) : joinNl (splitNl s) = s := by
  cases s with
  | mk data =>
    simp only [joinNl, splitNl, List.map_map]
    have : (String.data ∘ String.mk) = id := rfl
    rw [this, List.map_id, joinNlChars_splitNlChars]

theorem take_succ_getD {α : Type} (l : List α) (i : Nat) (d : α)
    (h : i < l.length) : l.take (i + 1) = l.take i ++ [l.getD i d] := by
  rw [List.getD_eq_getElem l d h, List.take_succ, List.getElem?_eq_getElem h]
  rfl

/-- Backtracking from `(i, j)` emits op lines whose Insert+Equal part is
`b.take j` and whose Delete+Equal part is `a.take i`, for sufficient fuel. -/
theorem backtrackF_parts (a b : List String) (lcs : List (List Nat)) :
    ∀ fuel i j, i + j ≤ fuel → i ≤ a.length → j ≤ b.length →
      (backtrackF a b lcs fuel i j).filterMap newPart = b.take j ∧
      (backtrackF a b lcs fuel i j).filterMap oldPart = a.take i := by
  intro fuel
  induction fuel with
  | zero =>
    intro i j hf hi hj
    have : i = 0 ∧ j = 0 := by omega
    simp [backtrackF, this.1, this.2]
  | succ fuel ih =>
    intro i j hf hi hj
    simp only [backtrackF]
    split
    · rename_i h0
      simp [h0.1, h0.2]
    · split
      · rename_i hne heq
        obtain ⟨hi0, hj0, hab⟩ := heq
        obtain ⟨h1, h2⟩ := ih (i - 1) (j - 1) (by omega) (by omega) (by omega)
        constructor
        · rw [List.filterMap_append, h1]
          have : b.take j = b.take (j - 1) ++ [b.getD (j - 1) ""] := by
            have := take_succ_getD b (j - 1) "" (by omega)
            rwa [Nat.sub_add_cancel hj0] at this
          rw [this, hab]
          rfl
        · rw [List.filterMap_append, h2]
          have : a.take i = a.take (i - 1) ++ [a.getD (i - 1) ""] := by
            have := take_succ_getD a (i - 1) "" (by omega)
            rwa [Nat.sub_add_cancel hi0] at this
          rw [this]
          rfl
      · split
        · rename_i hins
          obtain ⟨hj0, _⟩ := hins
          obtain ⟨h1, h2⟩ := ih i (j - 1) (by omega) hi (by omega)
          constructor
          · rw [List.filterMap_append, h1]
            have : b.take j = b.take (j - 1) ++ [b.getD (j - 1) ""] := by
              have := take_succ_getD b (j - 1) "" (by omega)
              rwa [Nat.sub_add_cancel hj0] at this
            rw [this]
            rfl
          · rw [List.filterMap_append, h2]
            simp [oldPart]
        · split
          · rename_i hnot0 hnoteq hnotins hi0
            obtain ⟨h1, h2⟩ := ih (i - 1) j (by omega) (by omega) hj
            constructor
            · rw [List.filterMap_append, h1]
              simp [newPart]
            · rw [List.filterMap_append, h2]
              have : a.take i = a.take (i - 1) ++ [a.getD (i - 1) ""] := by
                have := take_succ_getD a (i - 1) "" (by omega)
                rwa [Nat.sub_add_cancel hi0] at this
              rw [this]
              rfl
          · rename_i hnot0 hnoteq hnotins hnoti
            exfalso
            rcases Nat.eq_zero_or_pos i with hi' | hi'
            · rcases Nat.eq_zero_or_pos j with hj' | hj'
              · exact hnot0 ⟨hi', hj'⟩
              · exact hnotins ⟨hj', Or.inl hi'⟩
            · exact hnoti hi'

theorem splitNl_length_map (s : String) :
    (splitNl s).map String.data = splitNlChars s.data := by
  simp only [splitNl, List.map_map]
  have : (String.data ∘ String.mk) = id := rfl
  rw [this, List.map_id]

/-- C2 core: the computed diff's Insert+Equal lines are exactly the new text's
lines, and its Delete+Equal lines are exactly the old text's lines. -/
theorem computeDiff_parts (oldText newText : String) :
    (computeDiff oldText newText).filterMap newPart = splitNl newText ∧
    (computeDiff oldText newText).filterMap oldPart = splitNl oldText := by
  have h := backtrackF_parts (splitNl oldText) (splitNl newText)
    (computeLCS (splitNl oldText) (splitNl newText))
    ((splitNl oldText).length + (splitNl newText).length)
    (splitNl oldText).length (splitNl newText).length
    (le_refl _) (le_refl _) (le_refl _)
  simpa [computeDiff, buildDiffFromLCS, List.take_length] using h

/-- C2: For every pair of strings, joining with newline the `line` fields of
the Insert and Equal operations of `computeDiff oldText newText`, in sequence
order, yields exactly `newText`, and joining the Delete and Equal lines yields
exactly `oldText`. -/
theorem computeDiff_reconstructs_both (oldText newText : String) :
    joinNl ((computeDiff oldText newText).filterMap newPart) = newText ∧
    joinNl ((computeDiff oldText newText).filterMap oldPart) = oldText := by
  obtain ⟨h1, h2⟩ := computeDiff_parts oldText newText
  rw [h1, h2, joinNl_splitNl, joinNl_splitNl]
  exact ⟨rfl, rfl⟩

/-- Does a diff operation have type DELETE? -/
def isDeleteOp : DiffOp → Bool
  | .delete _ _ => true
  | _ => false

/-- Does a diff operation have type INSERT? -/
def isInsertOp : DiffOp → Bool
  | .insert _ _ => true
  | _ => false

/-- Does a diff operation have type EQUAL? -/
def isEqualOp : DiffOp → Bool
  | .equal _ _ _ => true
  | _ => false

/-- C8 counterexample: `computeDiff("", "x\ny")` does contain a Delete
operation (splitting `""` on newline yields `[""]`, and the empty old line is
emitted as a Delete), so the claimed "no Delete operations" is false. -/
theorem computeDiff_empty_to_two_lines_contains_delete :
    (computeDiff "" "x\ny").any isDeleteOp = true := by decide

/-- C8 amended: `computeDiff("", "x\ny")` returns exactly three operations: a
Delete of the empty line `""` (at old line 1) followed by Insert `"x"` and
Insert `"y"`; it contains two Inserts, no Equal, and one Delete. -/
theorem computeDiff_empty_to_two_lines_value :
    computeDiff "" "x\ny" =
      [.delete "" 1, .insert "x" 1, .insert "y" 2] := by decide

/-- The recurrence satisfied by the entries of the `computeLCS` matrix:
`lcsVal a b i j` is what the source stores in `matrix[i][j]`. -/
def lcsVal (a b : List String) : Nat → Nat → Nat
  | 0, _ => 0
  | _ + 1, 0 => 0
  | i + 1, j + 1 =>
    if a.getD i "" = b.getD j "" then lcsVal a b i j + 1
    else max (lcsVal a b i (j + 1)) (lcsVal a b (i + 1) j)

theorem getD_drop {α : Type} (l : List α) (m n : Nat) (d : α) :
    (l.drop m).getD n d = l.getD (m + n) d := by
  rw [List.getD_eq_getD_get?, List.getD_eq_getD_get?, List.get?_eq_getElem?,
    List.get?_eq_getElem?, List.getElem?_drop]

theorem getD_zero_headD {α : Type} (l : List α) (d : α) :
    l.getD 0 d = l.headD d := by
  cases l <;> rfl

theorem replicate_getD (m j : Nat) :
    (List.replicate m (0 : Nat)).getD j 0 = 0 := by
  induction m generalizing j with
  | zero => rfl
  | succ m ih =>
    cases j with
    | zero => rfl
    | succ j => exact ih j

/-- Pointwise specification of the inner fill loop of `computeLCS`. -/
theorem buildRowGo_getD (ai : String) :
    ∀ (bs : List String) (prev : List Nat) (left : Nat) (j : Nat),
      j < bs.length →
      (buildRowGo ai bs prev left).getD j 0 =
        if ai = bs.getD j "" then prev.getD j 0 + 1
        else max (prev.getD (j + 1) 0)
          (match j with
           | 0 => left
           | j' + 1 => (buildRowGo ai bs prev left).getD j' 0) := by
  intro bs
  induction bs with
  | nil => intro prev left j h; simp at h
  | cons bj bs ih =>
    intro prev left j h
    cases j with
    | zero =>
      show (if ai = bj then prev.headD 0 + 1
        else max ((prev.drop 1).headD 0) left) = _
      rw [← getD_zero_headD prev 0, ← getD_zero_headD (prev.drop 1) 0,
        getD_drop prev 1 0 0]
      rfl
    | succ j' =>
      have h' : j' < bs.length := by simpa using h
      show (buildRowGo ai bs (prev.drop 1) _).getD j' 0 = _
      rw [ih (prev.drop 1) _ j' h']
      have e1 : (prev.drop 1).getD j' 0 = prev.getD (j' + 1) 0 := by
        rw [getD_drop]; congr 1; omega
      have e2 : (prev.drop 1).getD (j' + 1) 0 = prev.getD (j' + 2) 0 := by
        rw [getD_drop]; congr 1; omega
      rw [e1, e2]
      have e3 : (bj :: bs).getD (j' + 1) "" = bs.getD j' "" := rfl
      rw [e3]
      cases j' with
      | zero => rfl
      | succ k => rfl

/-- Row `i+1` of the matrix is built from row `i` by the fill loop. -/
theorem computeLCS_rows_succ_aux (b : List String) :
    ∀ (as : List String) (prev : List Nat) (i : Nat), i < as.length →
      (prev :: lcsRows b as prev).getD (i + 1) [] =
        0 :: buildRowGo (as.getD i "") b
          ((prev :: lcsRows b as prev).getD i []) 0 := by
  intro as
  induction as with
  | nil => intro prev i h; simp at h
  | cons ai arest ih =>
    intro prev i h
    cases i with
    | zero => rfl
    | succ i' =>
      have h' : i' < arest.length := by simpa using h
      have := ih (0 :: buildRowGo ai b prev 0) i' h'
      exact this

theorem computeLCS_getD_zero (a b : List String) :
    (computeLCS a b).getD 0 [] = List.replicate (b.length + 1) 0 := rfl

theorem computeLCS_rows_succ (a b : List String) (i : Nat)
    (h : i < a.length) :
    (computeLCS a b).getD (i + 1) [] =
      0 :: buildRowGo (a.getD i "") b ((computeLCS a b).getD i []) 0 :=
  computeLCS_rows_succ_aux b a (List.replicate (b.length + 1) 0) i h

/-- Pointwise: row `i+1` (as built by the fill loop from a correct row `i`)
matches the recurrence. -/
theorem row_succ_getD (a b : List String) (i : Nat)
    (hprev : ∀ k, k ≤ b.length →
      ((computeLCS a b).getD i []).getD k 0 = lcsVal a b i k) :
    ∀ j, j ≤ b.length →
      (0 :: buildRowGo (a.getD i "") b
        ((computeLCS a b).getD i []) 0).getD j 0 = lcsVal a b (i + 1) j := by
  intro j
  induction j with
  | zero => intro _; simp [lcsVal]
  | succ j' ih =>
    intro hj
    have hj' : j' < b.length := by omega
    show (buildRowGo (a.getD i "") b _ 0).getD j' 0 = _
    rw [buildRowGo_getD _ b _ 0 j' hj']
    rw [hprev j' (by omega), hprev (j' + 1) (by omega)]
    cases j' with
    | zero =>
      simp only [lcsVal]
    | succ k =>
      have hk : (buildRowGo (a.getD i "") b
          ((computeLCS a b).getD i []) 0).getD k 0 =
          lcsVal a b (i + 1) (k + 1) := ih (by omega)
      have hred : (match k + 1 with
          | 0 => (0 : Nat)
          | j' + 1 => (buildRowGo (a.getD i "") b
              ((computeLCS a b).getD i []) 0).getD j' 0) =
          (buildRowGo (a.getD i "") b
            ((computeLCS a b).getD i []) 0).getD k 0 := rfl
      rw [hred, hk]
      conv_rhs => rw [lcsVal]

/-- The matrix invariant (spec §3): `matrix[i][j]` equals the recurrence value
`lcsVal a b i j` for all in-range `i`, `j`. -/
theorem entry_computeLCS (a b : List String) :
    ∀ i, i ≤ a.length → ∀ j, j ≤ b.length →
      entry (computeLCS a b) i j = lcsVal a b i j := by
  intro i
  induction i with
  | zero =>
    intro _ j _
    show (List.replicate (b.length + 1) 0).getD j 0 = _
    rw [replicate_getD]
    simp [lcsVal]
  | succ i ih =>
    intro hi j hj
    have hrow := computeLCS_rows_succ a b i (by omega)
    show ((computeLCS a b).getD (i + 1) []).getD j 0 = _
    rw [hrow]
    exact row_succ_getD a b i (fun k hk => ih (by omega) k hk) j hj

theorem take_sublist_take_succ {α : Type} (l : List α) (i : Nat) :
    (l.take i).Sublist (l.take (i + 1)) := by
  have h1 : l.take i = (l.take (i + 1)).take i := by
    rw [List.take_take]
    congr 1
    omega
  rw [h1]
  exact List.take_sublist i _

/-- Achievability: `lcsVal a b i j` is the length of some common sublist of
the prefixes. -/
theorem lcsVal_achieved (a b : List String) :
    ∀ i j, i ≤ a.length → j ≤ b.length →
      ∃ w : List String, w.Sublist (a.take i) ∧ w.Sublist (b.take j) ∧
        w.length = lcsVal a b i j := by
  intro i
  induction i with
  | zero =>
    intro j _ _
    exact ⟨[], by simp, by simp, by simp [lcsVal]⟩
  | succ i ihi =>
    intro j
    induction j with
    | zero =>
      intro _ _
      exact ⟨[], by simp, by simp, by simp [lcsVal]⟩
    | succ j ihj =>
      intro hi hj
      by_cases heq : a.getD i "" = b.getD j ""
      · obtain ⟨w, hwa, hwb, hwl⟩ := ihi j (by omega) (by omega)
        refine ⟨w ++ [a.getD i ""], ?_, ?_, ?_⟩
        · rw [take_succ_getD a i "" (by omega)]
          exact hwa.append (List.Sublist.refl _)
        · rw [take_succ_getD b j "" (by omega), heq]
          exact hwb.append (List.Sublist.refl _)
        · simp only [lcsVal, if_pos heq, List.length_append, hwl]
          rfl
      · rcases Nat.le_total (lcsVal a b i (j + 1)) (lcsVal a b (i + 1) j) with
          hle | hle
        · obtain ⟨w, hwa, hwb, hwl⟩ := ihj (by omega) (by omega)
          refine ⟨w, hwa, hwb.trans (take_sublist_take_succ b j), ?_⟩
          simp only [lcsVal, if_neg heq]
          omega
        · obtain ⟨w, hwa, hwb, hwl⟩ := ihi (j + 1) (by omega) (by omega)
          refine ⟨w, hwa.trans (take_sublist_take_succ a i), hwb, ?_⟩
          simp only [lcsVal, if_neg heq]
          omega

/-- Maximality: no common sublist of the prefixes is longer than `lcsVal`. -/
theorem lcsVal_bound (a b : List String) :
    ∀ n i j, i + j ≤ n → i ≤ a.length → j ≤ b.length →
      ∀ l : List String, l.Sublist (a.take i) → l.Sublist (b.take j) →
        l.length ≤ lcsVal a b i j := by
  intro n
  induction n with
  | zero =>
    intro i j hn hi hj l hla hlb
    have : i = 0 := by omega
    subst this
    simp only [List.take_zero, List.sublist_nil] at hla
    simp [hla]
  | succ n ihn =>
    intro i j hn hi hj l hla hlb
    match i, j with
    | 0, j =>
      simp only [List.take_zero, List.sublist_nil] at hla
      simp [hla]
    | i + 1, 0 =>
      simp only [List.take_zero, List.sublist_nil] at hlb
      simp [hlb]
    | i + 1, j + 1 =>
      have hla0 := hla
      have hlb0 := hlb
      rw [take_succ_getD a i "" (by omega)] at hla
      rw [take_succ_getD b j "" (by omega)] at hlb
      obtain ⟨l1, l2, hl, hl1, hl2⟩ := List.sublist_append_iff.mp hla
      obtain ⟨m1, m2, hm, hm1, hm2⟩ := List.sublist_append_iff.mp hlb
      rw [List.sublist_singleton] at hl2 hm2
      by_cases heq : a.getD i "" = b.getD j ""
      · simp only [lcsVal, if_pos heq]
        rcases hl2 with rfl | rfl
        · rw [List.append_nil] at hl
          subst hl
          rcases hm2 with rfl | rfl
          · rw [List.append_nil] at hm
            subst hm
            have := ihn i j (by omega) (by omega) (by omega) l hl1 hm1
            omega
          · subst hm
            have hm1a : m1.Sublist (a.take i) :=
              (List.sublist_append_left m1 [b.getD j ""]).trans hl1
            have := ihn i j (by omega) (by omega) (by omega) m1 hm1a hm1
            simp only [List.length_append, List.length_singleton]
            omega
        · subst hl
          rcases hm2 with rfl | rfl
          · rw [List.append_nil] at hm
            subst hm
            have hl1b : l1.Sublist (b.take j) :=
              (List.sublist_append_left l1 [a.getD i ""]).trans hm1
            have := ihn i j (by omega) (by omega) (by omega) l1 hl1 hl1b
            simp only [List.length_append, List.length_singleton]
            omega
          · have h1 : l1 ++ [a.getD i ""] = m1 ++ [b.getD j ""] := hm
            have hlm : l1 = m1 :=
              (List.append_inj' h1 (by simp)).1
            subst hlm
            have := ihn i j (by omega) (by omega) (by omega) l1 hl1 hm1
            simp only [List.length_append, List.length_singleton]
            omega
      · simp only [lcsVal, if_neg heq]
        rcases hl2 with rfl | rfl
        · rw [List.append_nil] at hl
          subst hl
          have := ihn i (j + 1) (by omega) (by omega) (by omega) l hl1 hlb0
          exact le_trans this (le_max_left _ _)
        · rcases hm2 with rfl | rfl
          · rw [List.append_nil] at hm
            subst hm
            have := ihn (i + 1) j (by omega) (by omega) (by omega) l hla0 hm1
            exact le_trans this (le_max_right _ _)
          · exfalso
            apply heq
            have h1 : l1 ++ [a.getD i ""] = m1 ++ [b.getD j ""] := by
              rw [← hl, ← hm]
            have := (List.append_inj' h1 (by simp)).2
            simpa using this

/-- The Equal-operation count of the backtracking loop equals the matrix
recurrence value at `(i, j)`. -/
theorem backtrackF_countEq (a b : List String) :
    ∀ fuel i j, i + j ≤ fuel → i ≤ a.length → j ≤ b.length →
      (backtrackF a b (computeLCS a b) fuel i j).countP isEqualOp =
        lcsVal a b i j := by
  intro fuel
  induction fuel with
  | zero =>
    intro i j hf hi hj
    have hi0 : i = 0 := by omega
    have hj0 : j = 0 := by omega
    subst hi0; subst hj0
    simp [backtrackF, lcsVal]
  | succ fuel ih =>
    intro i j hf hi hj
    simp only [backtrackF]
    split
    · rename_i h0
      rw [h0.1, h0.2]
      simp [lcsVal]
    · split
      · rename_i hne heq
        obtain ⟨hi0, hj0, hab⟩ := heq
        obtain ⟨i', rfl⟩ : ∃ i', i = i' + 1 := ⟨i - 1, by omega⟩
        obtain ⟨j', rfl⟩ : ∃ j', j = j' + 1 := ⟨j - 1, by omega⟩
        rw [List.countP_append]
        simp only [Nat.add_sub_cancel]
        have hone : [DiffOp.equal (a.getD i' "") (i' + 1) (j' + 1)
            ].countP isEqualOp = 1 := rfl
        rw [hone, ih i' j' (by omega) (by omega) (by omega)]
        have hab' : a.getD i' "" = b.getD j' "" := by
          simpa using hab
        simp only [lcsVal, if_pos hab']
      · split
        · rename_i hne hneq hins
          obtain ⟨hj0, hcond⟩ := hins
          obtain ⟨j', rfl⟩ : ∃ j', j = j' + 1 := ⟨j - 1, by omega⟩
          rw [List.countP_append]
          simp only [Nat.add_sub_cancel]
          have hzero : [DiffOp.insert (b.getD j' "") (j' + 1)
              ].countP isEqualOp = 0 := rfl
          rw [hzero, Nat.add_zero, ih i j' (by omega) (by omega) (by omega)]
          rcases Nat.eq_zero_or_pos i with rfl | hi0
          · simp [lcsVal]
          · obtain ⟨i', rfl⟩ : ∃ i', i = i' + 1 := ⟨i - 1, by omega⟩
            have hcond' : entry (computeLCS a b) (i' + 1) j' ≥
                entry (computeLCS a b) i' (j' + 1) := by
              rcases hcond with h | h
              · omega
              · exact h
            rw [entry_computeLCS a b (i' + 1) (by omega) j' (by omega),
              entry_computeLCS a b i' (by omega) (j' + 1) (by omega)] at hcond'
            have hneq' : ¬ a.getD i' "" = b.getD j' "" := by
              intro hc
              exact hneq ⟨by omega, by omega, hc⟩
            simp only [lcsVal, if_neg hneq']
            omega
        · split
          · rename_i hne hneq hnotins hi0
            obtain ⟨i', rfl⟩ : ∃ i', i = i' + 1 := ⟨i - 1, by omega⟩
            rw [List.countP_append]
            simp only [Nat.add_sub_cancel]
            have hzero : [DiffOp.delete (a.getD i' "") (i' + 1)
                ].countP isEqualOp = 0 := rfl
            rw [hzero, Nat.add_zero, ih i' j (by omega) (by omega) (by omega)]
            rcases Nat.eq_zero_or_pos j with rfl | hj0
            · cases i' <;> simp [lcsVal]
            · obtain ⟨j', rfl⟩ : ∃ j', j = j' + 1 := ⟨j - 1, by omega⟩
              have hcond : ¬ (entry (computeLCS a b) (i' + 1) j' ≥
                  entry (computeLCS a b) i' (j' + 1)) := by
                intro hc
                exact hnotins ⟨by omega, Or.inr hc⟩
              rw [entry_computeLCS a b (i' + 1) (by omega) j' (by omega),
                entry_computeLCS a b i' (by omega) (j' + 1) (by omega)] at hcond
              have hneq' : ¬ a.getD i' "" = b.getD j' "" := by
                intro hc
                exact hneq ⟨by omega, by omega, hc⟩
              simp only [lcsVal, if_neg hneq']
              omega
          · rename_i hne hneq hnotins hnoti
            exfalso
            rcases Nat.eq_zero_or_pos i with rfl | hi0
            · rcases Nat.eq_zero_or_pos j with rfl | hj0
              · exact hne ⟨rfl, rfl⟩
              · exact hnotins ⟨hj0, Or.inl rfl⟩
            · exact hnoti hi0

/-- The Equal lines of a diff, in order. -/
def eqPart : DiffOp → Option String
  | .equal l _ _ => some l
  | _ => none

theorem countP_parts_new (ops : List DiffOp) :
    ops.countP isEqualOp + ops.countP isInsertOp =
      (ops.filterMap newPart).length := by
  induction ops with
  | nil => rfl
  | cons op t ih =>
    cases op <;>
      simp [newPart, isEqualOp, isInsertOp, List.countP_cons, ← ih] <;> omega

theorem countP_parts_old (ops : List DiffOp) :
    ops.countP isEqualOp + ops.countP isDeleteOp =
      (ops.filterMap oldPart).length := by
  induction ops with
  | nil => rfl
  | cons op t ih =>
    cases op <;>
      simp [oldPart, isEqualOp, isDeleteOp, List.countP_cons, ← ih] <;> omega

theorem countP_total (ops : List DiffOp) :
    ops.countP isEqualOp + ops.countP isInsertOp + ops.countP isDeleteOp =
      ops.length := by
  induction ops with
  | nil => rfl
  | cons op t ih =>
    cases op <;>
      simp [isEqualOp, isInsertOp, isDeleteOp, List.countP_cons, ← ih] <;>
        omega

theorem length_filterMap_eqPart (ops : List DiffOp) :
    (ops.filterMap eqPart).length = ops.countP isEqualOp := by
  induction ops with
  | nil => rfl
  | cons op t ih =>
    cases op <;> simp [eqPart, isEqualOp, List.countP_cons, ih]

theorem eqPart_sublist_newPart (ops : List DiffOp) :
    (ops.filterMap eqPart).Sublist (ops.filterMap newPart) := by
  induction ops with
  | nil => exact List.Sublist.refl _
  | cons op t ih =>
    cases op with
    | equal l o n => simpa [eqPart, newPart] using ih.cons₂ l
    | insert l n => simpa [eqPart, newPart] using ih.cons l
    | delete l o => simpa [eqPart, newPart] using ih

theorem eqPart_sublist_oldPart (ops : List DiffOp) :
    (ops.filterMap eqPart).Sublist (ops.filterMap oldPart) := by
  induction ops with
  | nil => exact List.Sublist.refl _
  | cons op t ih =>
    cases op with
    | equal l o n => simpa [eqPart, oldPart] using ih.cons₂ l
    | insert l n => simpa [eqPart, oldPart] using ih
    | delete l o => simpa [eqPart, oldPart] using ih.cons l

/-- C9: the number of Equal operations emitted by
`buildDiffFromLCS A B (computeLCS A B)` equals `computeLCS(A,B)[m][n]`, which
is the length of a longest common subsequence of `A` and `B` (attained, and
an upper bound for every common subsequence); consequently the diff has
exactly `m − LCS` Deletes and `n − LCS` Inserts, and no operation sequence
reconstructing both inputs is shorter. -/
theorem buildDiffFromLCS_equal_count_is_lcs (A B : List String) :
    (buildDiffFromLCS A B (computeLCS A B)).countP isEqualOp =
      entry (computeLCS A B) A.length B.length ∧
    (∃ w : List String, w.Sublist A ∧ w.Sublist B ∧
      w.length = entry (computeLCS A B) A.length B.length) ∧
    (∀ l : List String, l.Sublist A → l.Sublist B →
      l.length ≤ entry (computeLCS A B) A.length B.length) ∧
    (buildDiffFromLCS A B (computeLCS A B)).countP isDeleteOp =
      A.length - entry (computeLCS A B) A.length B.length ∧
    (buildDiffFromLCS A B (computeLCS A B)).countP isInsertOp =
      B.length - entry (computeLCS A B) A.length B.length ∧
    (∀ ops' : List DiffOp, ops'.filterMap oldPart = A →
      ops'.filterMap newPart = B →
      (buildDiffFromLCS A B (computeLCS A B)).length ≤ ops'.length) := by
  have hM : entry (computeLCS A B) A.length B.length =
      lcsVal A B A.length B.length :=
    entry_computeLCS A B A.length (le_refl _) B.length (le_refl _)
  have hEq : (buildDiffFromLCS A B (computeLCS A B)).countP isEqualOp =
      lcsVal A B A.length B.length :=
    backtrackF_countEq A B (A.length + B.length) A.length B.length
      (le_refl _) (le_refl _) (le_refl _)
  obtain ⟨hNew0, hOld0⟩ := backtrackF_parts A B (computeLCS A B)
    (A.length + B.length) A.length B.length (le_refl _) (le_refl _)
    (le_refl _)
  rw [List.take_length] at hNew0 hOld0
  have hNew : (buildDiffFromLCS A B (computeLCS A B)).filterMap newPart = B :=
    hNew0
  have hOld : (buildDiffFromLCS A B (computeLCS A B)).filterMap oldPart = A :=
    hOld0
  have hLle : lcsVal A B A.length B.length ≤ A.length ∧
      lcsVal A B A.length B.length ≤ B.length := by
    constructor
    · have h1 := countP_parts_old (buildDiffFromLCS A B (computeLCS A B))
      rw [hOld, hEq] at h1
      omega
    · have h1 := countP_parts_new (buildDiffFromLCS A B (computeLCS A B))
      rw [hNew, hEq] at h1
      omega
  refine ⟨by rw [hEq, hM], ?_, ?_, ?_, ?_, ?_⟩
  · obtain ⟨w, hwa, hwb, hwl⟩ :=
      lcsVal_achieved A B A.length B.length (le_refl _) (le_refl _)
    rw [List.take_length] at hwa hwb
    exact ⟨w, hwa, hwb, by rw [hwl, hM]⟩
  · intro l hla hlb
    rw [hM]
    exact lcsVal_bound A B (A.length + B.length) A.length B.length
      (le_refl _) (le_refl _) (le_refl _) l
      (by rwa [List.take_length]) (by rwa [List.take_length])
  · have h1 := countP_parts_old (buildDiffFromLCS A B (computeLCS A B))
    rw [hOld, hEq] at h1
    rw [hM]
    omega
  · have h1 := countP_parts_new (buildDiffFromLCS A B (computeLCS A B))
    rw [hNew, hEq] at h1
    rw [hM]
    omega
  · intro ops' hold' hnew'
    have hw : ((ops'.filterMap eqPart).length : Nat) ≤
        lcsVal A B A.length B.length := by
      apply lcsVal_bound A B (A.length + B.length) A.length B.length
        (le_refl _) (le_refl _) (le_refl _)
      · rw [List.take_length, ← hold']
        exact eqPart_sublist_oldPart ops'
      · rw [List.take_length, ← hnew']
        exact eqPart_sublist_newPart ops'
    rw [length_filterMap_eqPart] at hw
    have ht := countP_total (buildDiffFromLCS A B (computeLCS A B))
    have ht' := countP_total ops'
    have hn1 := countP_parts_new (buildDiffFromLCS A B (computeLCS A B))
    have ho1 := countP_parts_old (buildDiffFromLCS A B (computeLCS A B))
    have hn2 := countP_parts_new ops'
    have ho2 := countP_parts_old ops'
    rw [hNew] at hn1
    rw [hOld] at ho1
    rw [hnew'] at hn2
    rw [hold'] at ho2
    omega

/-- The per-character map of `Diff.escapeHtml` (`{'&':'&amp;', '<':'&lt;',
'>':'&gt;', '"':'&quot;', "'":'&#39;'}`; other characters unchanged). -/
def escChar (c : Char) : List Char :=
  if c = '&' then "&amp;".data
  else if c = '<' then "&lt;".data
  else if c = '>' then "&gt;".data
  else if c = '"' then "&quot;".data
  else if c = '\'' then "&#39;".data
  else [c]

/-- `text.replace(/[&<>"']/g, char => map[char])` on the character list. -/
def escList : List Char → List Char
  | [] => []
  | c :: t => escChar c ++ escList t

/-- `Diff.escapeHtml(text)`. -/
def escapeHtml (text : String) : String :=
  ⟨escList text.data⟩

/-- Decimal digit character (JS number-to-string emits base-10 digits). -/
def digitChar (d : Nat) : Char :=
  if d = 0 then '0' else if d = 1 then '1' else if d = 2 then '2'
  else if d = 3 then '3' else if d = 4 then '4' else if d = 5 then '5'
  else if d = 6 then '6' else if d = 7 then '7' else if d = 8 then '8'
  else '9'

/-- Decimal digits of `n`, with fuel (`fuel > log10 n` suffices). -/
def natDigitsAux : Nat → Nat → List Char
  | 0, _ => []
  | fuel + 1, n =>
    if n < 10 then [digitChar n]
    else natDigitsAux fuel (n / 10) ++ [digitChar (n % 10)]

/-- JS template interpolation `${n}` of a line number. -/
def natRepr (n : Nat) : List Char :=
  natDigitsAux (n + 1) n

/-- Newline plus the 24-space indentation inside the source template. -/
def nl24 : String := "\n                        "

/-- Newline plus the 20-space indentation before the closing `</div>`. -/
def nl20 : String := "\n                    "

/-- renderDiff delete-branch template up to the old line number. -/
def dDel1 : String :=
  "<div class=\"diff-line removed\">" ++ nl24 ++
    "<span class=\"diff-line-number\">"

/-- renderDiff delete-branch template between the number and the line. -/
def dDel2 : String :=
  "</span>" ++ nl24 ++ "<span class=\"diff-line-number\"></span>" ++ nl24 ++
    "<span class=\"diff-line-content\">- "

/-- renderDiff insert-branch template up to the new line number. -/
def dIns1 : String :=
  "<div class=\"diff-line added\">" ++ nl24 ++
    "<span class=\"diff-line-number\"></span>" ++ nl24 ++
    "<span class=\"diff-line-number\">"

/-- renderDiff insert-branch template between the number and the line. -/
def dIns2 : String :=
  "</span>" ++ nl24 ++ "<span class=\"diff-line-content\">+ "

/-- renderDiff equal-branch template up to the old line number. -/
def dEq1 : String :=
  "<div class=\"diff-line \">" ++ nl24 ++ "<span class=\"diff-line-number\">"

/-- renderDiff equal-branch template between the two numbers. -/
def dEqMid : String :=
  "</span>" ++ nl24 ++ "<span class=\"diff-line-number\">"

/-- renderDiff equal-branch template between the number and the line. -/
def dEq2 : String :=
  "</span>" ++ nl24 ++ "<span class=\"diff-line-content\">  "

/-- renderDiff template closing each diff line. -/
def dClose : String := "</span>" ++ nl20 ++ "</div>"

/-- inlineWordDiff removed-word opening tag. -/
def wRem : String := "<span class=\"diff-word-removed\">"

/-- inlineWordDiff added-word opening tag. -/
def wAdd : String := "<span class=\"diff-word-added\">"

/-- Closing span tag. -/
def spanClose : String := "</span>"

/-- The `diff.forEach` loop of `Diff.renderDiff`, carrying the
`oldLineNum`/`newLineNum` counters. -/
def renderDiffGo : List DiffOp → Nat → Nat → List Char
  | [], _, _ => []
  | op :: rest, oldN, newN =>
    match op with
    | .delete l _ =>
      dDel1.data ++ natRepr (oldN + 1) ++ dDel2.data ++ escList l.data ++
        dClose.data ++ renderDiffGo rest (oldN + 1) newN
    | .insert l _ =>
      dIns1.data ++ natRepr (newN + 1) ++ dIns2.data ++ escList l.data ++
        dClose.data ++ renderDiffGo rest oldN (newN + 1)
    | .equal l _ _ =>
      dEq1.data ++ natRepr (oldN + 1) ++ dEqMid.data ++ natRepr (newN + 1) ++
        dEq2.data ++ escList l.data ++ dClose.data ++
        renderDiffGo rest (oldN + 1) (newN + 1)

/-- `Diff.renderDiff(diff)`. -/
def renderDiff (diff : List DiffOp) : String :=
  ⟨renderDiffGo diff 0 0⟩

/-- JS `\s` (whitespace class) for the characters relevant here. -/
def isWs (c : Char) : Bool :=
  c = ' ' || c = '\t' || c = '\n' || c = '\r' || c = '\x0b' || c = '\x0c'

/-- JS `line.split(/(\s+)/)`: alternating maximal non-whitespace and
whitespace runs, separators kept (captured group). -/
def splitWsAux : Nat → List Char → List (List Char)
  | 0, l => [l]
  | fuel + 1, l =>
    let w := l.takeWhile (fun c => !isWs c)
    let rest := l.dropWhile (fun c => !isWs c)
    match rest with
    | [] => [w]
    | _ =>
      w :: rest.takeWhile isWs :: splitWsAux fuel (rest.dropWhile isWs)

/-- The `operations.forEach` loop of `Diff.inlineWordDiff`, building
`(oldHtml, newHtml)`. -/
def inlineWordGo : List DiffOp → List Char × List Char
  | [] => ([], [])
  | op :: rest =>
    let p := inlineWordGo rest
    match op with
    | .equal l _ _ => (escList l.data ++ p.1, escList l.data ++ p.2)
    | .delete l _ =>
      (wRem.data ++ escList l.data ++ spanClose.data ++ p.1, p.2)
    | .insert l _ =>
      (p.1, wAdd.data ++ escList l.data ++ spanClose.data ++ p.2)

/-- `Diff.inlineWordDiff(oldLine, newLine)`. -/
def inlineWordDiff (oldLine newLine : String) : String × String :=
  let oldWords := (splitWsAux (oldLine.data.length + 1) oldLine.data).map
    String.mk
  let newWords := (splitWsAux (newLine.data.length + 1) newLine.data).map
    String.mk
  let lcs := computeLCS oldWords newWords
  let operations := buildDiffFromLCS oldWords newWords lcs
  let p := inlineWordGo operations
  (⟨p.1⟩, ⟨p.2⟩)

/-- The fixed markup fragments interpolated by `renderDiff` and
`inlineWordDiff`. -/
def diffTemplates : List String :=
  [dDel1, dDel2, dIns1, dIns2, dEq1, dEqMid, dEq2, dClose, wRem, wAdd,
    spanClose]

/-- The language of safely-escaped diff markup: concatenations of fixed
template fragments, decimal digits, and `escChar` images of line characters.
Membership expresses that every character of the compared texts enters the
markup only through `escapeHtml`'s character map. -/
inductive DiffHtml : List Char → Prop where
  | nil : DiffHtml []
  | tpl (t : String) (rest : List Char) : t ∈ diffTemplates →
      DiffHtml rest → DiffHtml (t.data ++ rest)
  | num (d : Nat) (rest : List Char) : d < 10 →
      DiffHtml rest → DiffHtml (digitChar d :: rest)
  | escc (c : Char) (rest : List Char) :
      DiffHtml rest → DiffHtml (escChar c ++ rest)

theorem diffHtml_natDigits (fuel n : Nat) (rest : List Char)
    (h : DiffHtml rest) : DiffHtml (natDigitsAux fuel n ++ rest) := by
  induction fuel generalizing n rest with
  | zero => exact h
  | succ fuel ih =>
    simp only [natDigitsAux]
    split
    · rename_i hn
      exact DiffHtml.num n rest hn h
    · rename_i hn
      rw [List.append_assoc]
      exact ih (n / 10) _ (DiffHtml.num (n % 10) rest (by omega) h)

theorem diffHtml_escList (l : List Char) (rest : List Char)
    (h : DiffHtml rest) : DiffHtml (escList l ++ rest) := by
  induction l with
  | nil => exact h
  | cons c t ih =>
    simp only [escList]
    rw [List.append_assoc]
    exact DiffHtml.escc c _ (ih)

theorem diffHtml_renderDiffGo (diff : List DiffOp) :
    ∀ oldN newN, DiffHtml (renderDiffGo diff oldN newN) := by
  induction diff with
  | nil => intro _ _; exact DiffHtml.nil
  | cons op rest ih =>
    intro oldN newN
    cases op with
    | delete l o =>
      simp only [renderDiffGo, natRepr, List.append_assoc]
      refine DiffHtml.tpl dDel1 _ (by simp [diffTemplates]) ?_
      refine diffHtml_natDigits _ _ _ ?_
      refine DiffHtml.tpl dDel2 _ (by simp [diffTemplates]) ?_
      refine diffHtml_escList _ _ ?_
      exact DiffHtml.tpl dClose _ (by simp [diffTemplates]) (ih _ _)
    | insert l n =>
      simp only [renderDiffGo, natRepr, List.append_assoc]
      refine DiffHtml.tpl dIns1 _ (by simp [diffTemplates]) ?_
      refine diffHtml_natDigits _ _ _ ?_
      refine DiffHtml.tpl dIns2 _ (by simp [diffTemplates]) ?_
      refine diffHtml_escList _ _ ?_
      exact DiffHtml.tpl dClose _ (by simp [diffTemplates]) (ih _ _)
    | equal l o n =>
      simp only [renderDiffGo, natRepr, List.append_assoc]
      refine DiffHtml.tpl dEq1 _ (by simp [diffTemplates]) ?_
      refine diffHtml_natDigits _ _ _ ?_
      refine DiffHtml.tpl dEqMid _ (by simp [diffTemplates]) ?_
      refine diffHtml_natDigits _ _ _ ?_
      refine DiffHtml.tpl dEq2 _ (by simp [diffTemplates]) ?_
      refine diffHtml_escList _ _ ?_
      exact DiffHtml.tpl dClose _ (by simp [diffTemplates]) (ih _ _)

theorem diffHtml_inlineWordGo (ops : List DiffOp) :
    DiffHtml (inlineWordGo ops).1 ∧ DiffHtml (inlineWordGo ops).2 := by
  induction ops with
  | nil => exact ⟨DiffHtml.nil, DiffHtml.nil⟩
  | cons op rest ih =>
    cases op with
    | equal l o n =>
      simp only [inlineWordGo, List.append_assoc]
      exact ⟨diffHtml_escList _ _ ih.1, diffHtml_escList _ _ ih.2⟩
    | delete l o =>
      simp only [inlineWordGo, List.append_assoc]
      refine ⟨?_, ih.2⟩
      refine DiffHtml.tpl wRem _ (by simp [diffTemplates]) ?_
      refine diffHtml_escList _ _ ?_
      exact DiffHtml.tpl spanClose _ (by simp [diffTemplates]) ih.1
    | insert l n =>
      simp only [inlineWordGo, List.append_assoc]
      refine ⟨ih.1, ?_⟩
      refine DiffHtml.tpl wAdd _ (by simp [diffTemplates]) ?_
      refine diffHtml_escList _ _ ?_
      exact DiffHtml.tpl spanClose _ (by simp [diffTemplates]) ih.2

theorem digitChar_ne_apos (d : Nat) : digitChar d ≠ '\'' := by
  unfold digitChar
  repeat' split
  all_goals decide

theorem apos_not_mem_escChar (c : Char) : '\'' ∉ escChar c := by
  unfold escChar
  repeat' split
  · decide
  · decide
  · decide
  · decide
  · decide
  · rename_i h1 h2 h3 h4 h5
    intro hmem
    rw [List.mem_singleton] at hmem
    exact h5 hmem.symm

theorem diffHtml_no_apos {l : List Char} (h : DiffHtml l) : '\'' ∉ l := by
  induction h with
  | nil => simp
  | tpl t rest ht hrest ih =>
    intro hmem
    rw [List.mem_append] at hmem
    rcases hmem with hm | hm
    · revert hm
      fin_cases ht <;> decide
    · exact ih hm
  | num d rest hd hrest ih =>
    intro hmem
    rcases List.mem_cons.mp hmem with hm | hm
    · exact digitChar_ne_apos d hm.symm
    · exact ih hm
  | escc c rest hrest ih =>
    intro hmem
    rw [List.mem_append] at hmem
    rcases hmem with hm | hm
    · exact apos_not_mem_escChar c hm
    · exact ih hm

/-- C10: every line value interpolated by `renderDiff` and `inlineWordDiff`
passes through `escapeHtml`'s character map, so the rendered markup lies in
the `DiffHtml` language (fixed templates + digits + `escChar` images) — the
HTML-special characters of the compared texts appear only entity-escaped.  In
particular no raw apostrophe ever occurs in the rendered markup. -/
theorem renderDiff_inlineWordDiff_escaped
    (oldText newText oldLine newLine : String) :
    DiffHtml (renderDiff (computeDiff oldText newText)).data ∧
    DiffHtml (inlineWordDiff oldLine newLine).1.data ∧
    DiffHtml (inlineWordDiff oldLine newLine).2.data ∧
    '\'' ∉ (renderDiff (computeDiff oldText newText)).data := by
  refine ⟨diffHtml_renderDiffGo _ 0 0, ?_, ?_, ?_⟩
  · exact (diffHtml_inlineWordGo _).1
  · exact (diffHtml_inlineWordGo _).2
  · exact diffHtml_no_apos (diffHtml_renderDiffGo _ 0 0)

end MdDiff

namespace MdHist

/-- Stored document/snapshot content.  `plain` is a plaintext string;
`cipher key text` models the opaque base64 AES-GCM payload produced by the
Encryption module.  Modelled from the spec: the Web Crypto AES-GCM primitive
used by src/unnamed/part_000 is an external browser API; the spec (§6)
specifies it as an authenticated-encryption black box whose ciphertext is
opaque to the core, `decrypt(encrypt(text, pass), pass) = text`, and
decryption fails when locked with no passphrase. -/
inductive StoredContent where
  | plain (text : String)
  | cipher (key : String) (text : String)
  deriving DecidableEq, Repr

/-- The Encryption manager's relevant state (src/unnamed/part_000):
`passphrase` plus the `isUnlocked` flag it implies. -/
structure Encryption where
  passphrase : Option String
  deriving DecidableEq, Repr

/-- `Encryption.isUnlocked` (set together with `passphrase`). -/
def Encryption.isUnlocked (e : Encryption) : Bool :=
  e.passphrase.isSome

/-- `Encryption.setPassphrase`: rejects passphrases shorter than 8 chars,
otherwise stores the passphrase and unlocks. -/
def Encryption.setPassphrase (_e : Encryption) (passphrase : String) :
    Except String Encryption :=
  if passphrase.length < 8 then
    .error "Passphrase must be at least 8 characters"
  else
    .ok { passphrase := some passphrase }

/-- `Encryption.lock()`. -/
def Encryption.lock (_ : Encryption) : Encryption :=
  { passphrase := none }

/-- `Encryption.encrypt(plaintext)`: requires the unlocked passphrase; the
AES-GCM payload is modelled as `cipher key plaintext`. -/
def Encryption.encrypt (e : Encryption) (plaintext : String) :
    Except String StoredContent :=
  match e.passphrase with
  | some key => .ok (.cipher key plaintext)
  | none => .error "Encryption not unlocked. Set passphrase first."

/-- `Encryption.decrypt(encrypted, passphrase?)`: uses the supplied
passphrase or the stored one; authenticated decryption succeeds only under
the key the payload was encrypted with. -/
def Encryption.decrypt (e : Encryption) (c : StoredContent)
    (passphrase : Option String) : Except String String :=
  match passphrase.or e.passphrase with
  | none => .error "No decryption key available"
  | some key =>
    match c with
    | .cipher k t => if k = key then .ok t else .error "Decryption failed"
    | .plain _ => .error "Decryption failed"

/-- A stored document (src/js/modules/storage.js/localStorage path).
Timestamps are modelled as `Nat` milliseconds. -/
structure Document where
  id : String
  title : String
  content : StoredContent
  encrypted : Bool
  createdAt : Nat
  updatedAt : Nat
  deriving DecidableEq, Repr

/-- A stored snapshot: `{id, documentId, content, encrypted, createdAt,
size}`; ids are modelled by the storage counter. -/
structure Snapshot where
  id : Nat
  documentId : String
  content : StoredContent
  encrypted : Bool
  createdAt : Nat
  size : Nat
  deriving DecidableEq, Repr

/-- The storage state on the localStorage-fallback path: the document and
snapshot arrays, the id counter behind `generateId`, and the clock behind
`new Date()`. -/
structure StorageState where
  documents : List Document
  snapshots : List Snapshot
  nextId : Nat
  now : Nat
  deriving DecidableEq, Repr

/-- `Storage.getDocument(id)` (fallback path: `docs.find(...)`). -/
def getDocument (s : StorageState) (id : String) : Option Document :=
  s.documents.find? (fun d => d.id = id)

/-- `Storage.getSnapshot(id)` (fallback path). -/
def getSnapshot (s : StorageState) (id : Nat) : Option Snapshot :=
  s.snapshots.find? (fun sn => sn.id = id)

/-- Replace the first document with the same id, else push
(`findIndex` / assign / push in `saveDocument`). -/
def putDocument : List Document → Document → List Document
  | [], doc => [doc]
  | d :: ds, doc =>
    if d.id = doc.id then doc :: ds else d :: putDocument ds doc

/-- `Storage.saveDocument(document)` (fallback path): validates the title
length, refreshes `updatedAt` (and `createdAt` when falsy), and stores. -/
def saveDocument (s : StorageState) (doc : Document) :
    Except String StorageState :=
  if doc.title.length > 200 then .error "Title too long (max 200 characters)"
  else
    let doc' := { doc with
      updatedAt := s.now
      createdAt := if doc.createdAt = 0 then s.now else doc.createdAt }
    .ok { s with documents := putDocument s.documents doc' }

/-- Stable insertion of a snapshot into a createdAt-ascending list
(`sort((a, b) => new Date(a.createdAt) - new Date(b.createdAt))`). -/
def insertSnap (x : Snapshot) : List Snapshot → List Snapshot
  | [] => [x]
  | y :: ys =>
    if y.createdAt ≤ x.createdAt then y :: insertSnap x ys
    else x :: y :: ys

/-- Ascending-by-createdAt sort of snapshots. -/
def sortSnaps : List Snapshot → List Snapshot
  | [] => []
  | x :: xs => insertSnap x (sortSnaps xs)

/-- The per-document snapshots, in storage order. -/
def perDoc (s : StorageState) (documentId : String) : List Snapshot :=
  s.snapshots.filter (fun sn => sn.documentId = documentId)

/-- `Storage.saveSnapshot(documentId, content, encrypted)` (fallback path):
if the per-document count is already ≥ 50, delete the oldest (first of the
createdAt-ascending sort), then append the new snapshot stamped with the
current clock. -/
def saveSnapshot (s : StorageState) (documentId : String)
    (content : StoredContent) (encrypted : Bool) :
    StorageState × Snapshot :=
  let docSnaps := sortSnaps (perDoc s documentId)
  let afterDelete :=
    if docSnaps.length ≥ 50 then
      match docSnaps with
      | [] => s.snapshots
      | oldest :: _ => s.snapshots.filter (fun sn => sn.id ≠ oldest.id)
    else s.snapshots
  let snapshot : Snapshot :=
    { id := s.nextId
      documentId := documentId
      content := content
      encrypted := encrypted
      createdAt := s.now
      size := match content with
        | .plain t => t.length
        | .cipher _ t => t.length }
  ({ s with snapshots := afterDelete ++ [snapshot], nextId := s.nextId + 1 },
    snapshot)

/-- `Storage.pruneSnapshots(documentId, maxSnapshots)`: nothing to do when
count ≤ max; otherwise delete the `count − max` oldest-by-createdAt. -/
def pruneSnapshots (s : StorageState) (documentId : String)
    (maxSnapshots : Nat) : StorageState :=
  let snaps := perDoc s documentId
  if snaps.length ≤ maxSnapshots then s
  else
    let sorted := sortSnaps snaps
    let toDelete := sorted.take (snaps.length - maxSnapshots)
    let kept := s.snapshots.filter
      (fun sn => ¬ (toDelete.map (fun x => x.id)).contains sn.id)
    { s with snapshots := kept }

/-- `History.createSnapshot(documentId, content, encrypt)`: encrypt when
requested and unlocked (falling back to plaintext on failure), save through
the storage queue, then prune to `maxSnapshots` (default 50). -/
def createSnapshot (s : StorageState) (e : Encryption)
    (documentId : String) (content : String) (encrypt : Bool) :
    StorageState × Snapshot :=
  let enc : StoredContent × Bool :=
    if encrypt ∧ e.isUnlocked then
      match e.encrypt content with
      | .ok c => (c, true)
      | .error _ => (.plain content, false)
    else (.plain content, false)
  let saved := saveSnapshot s documentId enc.1 enc.2
  (pruneSnapshots saved.1 documentId 50, saved.2)

/-- `History.getSnapshotContent(snapshotId, passphrase)`: decrypt when the
snapshot is marked encrypted, else return the stored content directly. -/
def getSnapshotContent (s : StorageState) (e : Encryption)
    (snapshotId : Nat) (passphrase : Option String) : Except String String :=
  match getSnapshot s snapshotId with
  | none => .error "Snapshot not found"
  | some snap =>
    if snap.encrypted then
      e.decrypt snap.content passphrase
    else
      match snap.content with
      | .plain t => .ok t
      | .cipher _ _ => .error "Malformed plaintext snapshot"

/-- `History.restoreSnapshot(documentId, snapshotId, passphrase)`: fetch the
snapshot content, then write it back to the document, re-encrypting exactly
when the document (not the snapshot) is marked encrypted.  Returns the new
storage and encryption states and the restored plaintext. -/
def restoreSnapshot (s : StorageState) (e : Encryption)
    (documentId : String) (snapshotId : Nat) (passphrase : Option String) :
    Except String (StorageState × Encryption × String) := do
  let content ← getSnapshotContent s e snapshotId passphrase
  match getDocument s documentId with
  | none => .ok (s, e, content)
  | some document =>
    if document.encrypted then do
      let e' ←
        match passphrase with
        | some p => if ¬ e.isUnlocked then e.setPassphrase p else .ok e
        | none => .ok e
      if e'.isUnlocked then do
        let encContent ← e'.encrypt content
        let s' ← saveDocument s
          { document with content := encContent, encrypted := true }
        .ok (s', e', content)
      else .error "Encryption key is locked"
    else do
      let s' ← saveDocument s
        { document with content := .plain content, encrypted := false }
      .ok (s', e, content)

/-- The auto-snapshot timer state of the History manager: the per-document
`timers` map and the id counter behind `setInterval`. -/
structure TimerState where
  timers : List (String × Nat)
  nextTimer : Nat
  deriving DecidableEq, Repr

/-- `History.stopAllAutoSnapshots()`: clear every interval and the map. -/
def stopAllAutoSnapshots (h : TimerState) : TimerState :=
  { h with timers := [] }

/-- `History.stopAutoSnapshot(documentId)`. -/
def stopAutoSnapshot (h : TimerState) (documentId : String) : TimerState :=
  { h with timers := h.timers.filter (fun p => p.1 ≠ documentId) }

/-- `History.startAutoSnapshot(documentId, ...)`: first calls
`stopAllAutoSnapshots()`, then registers one interval for `documentId`. -/
def startAutoSnapshot (h : TimerState) (documentId : String) : TimerState :=
  let h1 := stopAllAutoSnapshots h
  { timers := (documentId, h.nextTimer) :: h1.timers
    nextTimer := h.nextTimer + 1 }

/-- C5 counterexample: with doc-a's auto-snapshot timer running, calling
`startAutoSnapshot` for doc-b removes doc-a's timer (because the source first
calls `stopAllAutoSnapshots()`), refuting per-document timer isolation.  The
repo's own test asserts this single-active-timer behavior. -/
theorem startAutoSnapshot_drops_other_timer :
    (((startAutoSnapshot (TimerState.mk [] 0) "doc-a").timers.lookup
        "doc-a").isSome = true) ∧
    (startAutoSnapshot (startAutoSnapshot (TimerState.mk [] 0) "doc-a")
        "doc-b").timers.lookup "doc-a" = none ∧
    (startAutoSnapshot (startAutoSnapshot (TimerState.mk [] 0) "doc-a")
        "doc-b").timers = [("doc-b", 1)] := by decide

/-- C5 amended: `startAutoSnapshot` maintains at most one auto-snapshot timer
in total (hence at most one per document): starting document `d` first stops
every running timer — including other documents' — and leaves exactly `d`'s
new timer in the map. -/
theorem startAutoSnapshot_single_timer (h : TimerState) (d : String) :
    (startAutoSnapshot h d).timers = [(d, h.nextTimer)] := rfl

theorem find?_putDocument (docs : List Document) (doc : Document)
    (i : String) (h : doc.id = i) :
    (putDocument docs doc).find? (fun d => d.id = i) = some doc := by
  induction docs with
  | nil => simp [putDocument, List.find?, h]
  | cons d ds ih =>
    simp only [putDocument]
    split
    · simp [List.find?, h]
    · rename_i hne
      have hd : ¬ (d.id = i) := by
        intro hdi
        exact hne (by rw [hdi, h])
      simp [List.find?, hd, ih]

theorem bind_ok_law {eps alpha beta : Type} (a : alpha)
    (f : alpha → Except eps beta) :
    (Except.ok a >>= f) = f a := rfl

theorem bind_error_law {eps alpha beta : Type} (msg : eps)
    (f : alpha → Except eps beta) :
    (Except.error msg >>= f) = Except.error msg := rfl

/-- C6 part 1: restoring a plaintext snapshot into a document marked
`encrypted = true`, with the passphrase unlocked, succeeds and writes back
`encrypted = true` with ciphertext content that decrypts (under the unlocked
passphrase) to the snapshot's plaintext. -/
theorem restoreSnapshot_reencrypts_for_encrypted_document
    (s : StorageState) (e : Encryption) (documentId : String)
    (snapshotId : Nat) (doc : Document) (snap : Snapshot)
    (key plain : String)
    (hdoc : getDocument s documentId = some doc)
    (hsnap : getSnapshot s snapshotId = some snap)
    (htitle : doc.title.length ≤ 200)
    (henc : doc.encrypted = true)
    (hsenc : snap.encrypted = false)
    (hcontent : snap.content = .plain plain)
    (hkey : e.passphrase = some key) :
    ∃ s' : StorageState,
      restoreSnapshot s e documentId snapshotId none = .ok (s', e, plain) ∧
      (getDocument s' documentId).map
        (fun d => (d.encrypted, d.content)) =
        some (true, .cipher key plain) ∧
      e.decrypt (.cipher key plain) none = .ok plain := by
  have hid : doc.id = documentId := by
    have := List.find?_some hdoc
    simpa using this
  have hunlocked : e.isUnlocked = true := by
    simp [Encryption.isUnlocked, hkey]
  simp only [restoreSnapshot, getSnapshotContent, hsnap, hsenc, hcontent,
    if_false, Bool.false_eq_true, reduceIte]
  simp only [bind_ok_law, hdoc]
  simp only [henc, if_true, hunlocked, Encryption.encrypt, hkey]
  simp only [saveDocument]
  have htitle' : ¬ (doc.title.length > 200) := by omega
  simp only [htitle', if_false, reduceIte, bind_ok_law]
  refine ⟨_, rfl, ?_, ?_⟩
  · simp only [getDocument, List.find?]
    rw [find?_putDocument _ _ _ (by simpa using hid)]
    simp
  · simp [Encryption.decrypt, hkey, Option.or]

/-- C6 part 2: restoring into a document with `encrypted = false` stores the
snapshot's plaintext with `encrypted = false`. -/
theorem restoreSnapshot_plain_for_plain_document
    (s : StorageState) (e : Encryption) (documentId : String)
    (snapshotId : Nat) (doc : Document) (snap : Snapshot) (plain : String)
    (hdoc : getDocument s documentId = some doc)
    (hsnap : getSnapshot s snapshotId = some snap)
    (htitle : doc.title.length ≤ 200)
    (henc : doc.encrypted = false)
    (hsenc : snap.encrypted = false)
    (hcontent : snap.content = .plain plain) :
    ∃ s' : StorageState,
      restoreSnapshot s e documentId snapshotId none = .ok (s', e, plain) ∧
      (getDocument s' documentId).map
        (fun d => (d.encrypted, d.content)) =
        some (false, .plain plain) := by
  have hid : doc.id = documentId := by
    have := List.find?_some hdoc
    simpa using this
  simp only [restoreSnapshot, getSnapshotContent, hsnap, hsenc, hcontent,
    if_false, Bool.false_eq_true, reduceIte]
  simp only [bind_ok_law, hdoc]
  simp only [henc, Bool.false_eq_true, if_false, reduceIte]
  simp only [saveDocument]
  have htitle' : ¬ (doc.title.length > 200) := by omega
  simp only [htitle', if_false, reduceIte, bind_ok_law]
  refine ⟨_, rfl, ?_⟩
  simp only [getDocument, List.find?]
  rw [find?_putDocument _ _ _ (by simpa using hid)]
  simp

/-- A successful `saveDocument` stores a document with the same `encrypted`
flag as the one passed in. -/
theorem getDocument_saveDocument_flag (s s1 : StorageState) (upd : Document)
    (documentId : String) (hid : upd.id = documentId)
    (hsave : saveDocument s upd = .ok s1) :
    ∀ d', getDocument s1 documentId = some d' →
      d'.encrypted = upd.encrypted := by
  unfold saveDocument at hsave
  by_cases ht : upd.title.length > 200
  · simp [ht] at hsave
  · simp only [ht, if_false, reduceIte, Except.ok.injEq] at hsave
    intro d' hd'
    rw [← hsave] at hd'
    simp only [getDocument] at hd'
    rw [find?_putDocument _ _ _ (by simpa using hid)] at hd'
    cases hd'
    rfl

/-- C6 part 3: whatever the snapshot's own `encrypted` flag, a successful
restore leaves the stored document's `encrypted` flag equal to the (live)
document's flag. -/
theorem restoreSnapshot_keeps_document_flag
    (s : StorageState) (e : Encryption) (documentId : String)
    (snapshotId : Nat) (passphrase : Option String) (doc : Document)
    (s' : StorageState) (e' : Encryption) (c : String)
    (hdoc : getDocument s documentId = some doc)
    (hr : restoreSnapshot s e documentId snapshotId passphrase =
      .ok (s', e', c)) :
    ∀ d', getDocument s' documentId = some d' →
      d'.encrypted = doc.encrypted := by
  have hid : doc.id = documentId := by
    have := List.find?_some hdoc
    simpa using this
  intro d' hd'
  simp only [restoreSnapshot] at hr
  cases hc : getSnapshotContent s e snapshotId passphrase with
  | error msg => rw [hc] at hr; simp [bind_error_law] at hr
  | ok content =>
    rw [hc] at hr
    simp only [bind_ok_law, hdoc] at hr
    by_cases hde : doc.encrypted = true
    · rw [hde] at hr
      simp only [if_true, reduceIte] at hr
      have htail : ∀ e2 : Encryption,
          ((do
              let encContent ← e2.encrypt content
              let s'' ← saveDocument s
                { doc with content := encContent, encrypted := true }
              Except.ok (s'', e2, content)) = .ok (s', e', c)) →
          d'.encrypted = doc.encrypted := by
        intro e2 hr2
        cases hec : e2.encrypt content with
        | error msg => rw [hec] at hr2; simp [bind_error_law] at hr2
        | ok ec =>
          rw [hec] at hr2
          simp only [bind_ok_law] at hr2
          cases hsave : saveDocument s
              { doc with content := ec, encrypted := true } with
          | error msg =>
            rw [hsave] at hr2; simp [bind_error_law] at hr2
          | ok s1 =>
            rw [hsave] at hr2
            simp only [bind_ok_law, Except.ok.injEq,
              Prod.mk.injEq] at hr2
            obtain ⟨h1, _, _⟩ := hr2
            rw [← h1] at hd'
            have := getDocument_saveDocument_flag s s1
              { doc with content := ec, encrypted := true }
              documentId (by simpa using hid) hsave d' hd'
            rw [this, hde]
      have hmain : ∀ e2 : Encryption,
          ((if e2.isUnlocked = true then do
              let encContent ← e2.encrypt content
              let s'' ← saveDocument s
                { doc with content := encContent, encrypted := true }
              Except.ok (s'', e2, content)
            else .error "Encryption key is locked") = .ok (s', e', c)) →
          d'.encrypted = doc.encrypted := by
        intro e2 hr2
        by_cases hu : e2.isUnlocked = true
        · simp only [hu, if_true, reduceIte] at hr2
          exact htail e2 hr2
        · simp only [hu, if_false, reduceIte] at hr2
          simp at hr2
      cases hpp : passphrase with
      | none =>
        rw [hpp] at hr
        simp only [bind_ok_law] at hr
        exact hmain e hr
      | some p =>
        rw [hpp] at hr
        by_cases hu : e.isUnlocked = true
        · simp only [hu, not_true, if_false, reduceIte, bind_ok_law] at hr
          exact htail e hr
        · simp only [hu, if_true, not_false_iff, reduceIte] at hr
          cases hsp : Encryption.setPassphrase e p with
          | error msg => rw [hsp] at hr; simp [bind_error_law] at hr
          | ok e2 =>
            rw [hsp] at hr
            simp only [bind_ok_law] at hr
            exact hmain e2 hr
    · have hde' : doc.encrypted = false := by
        cases hdd : doc.encrypted
        · rfl
        · exact absurd hdd hde
      rw [hde'] at hr
      simp only [Bool.false_eq_true, if_false, reduceIte] at hr
      cases hsave : saveDocument s
          { doc with content := .plain content, encrypted := false } with
      | error msg => rw [hsave] at hr; simp [bind_error_law] at hr
      | ok s1 =>
        rw [hsave] at hr
        simp only [bind_ok_law, Except.ok.injEq, Prod.mk.injEq] at hr
        obtain ⟨h1, _, _⟩ := hr
        rw [← h1] at hd'
        have := getDocument_saveDocument_flag s s1
          { doc with content := .plain content, encrypted := false }
          documentId (by simpa using hid) hsave d' hd'
        rw [this, hde']

/-- C6: the encryption contract of `History.restoreSnapshot`:
(1) restoring a plaintext snapshot into an encrypted document stores
ciphertext (marked encrypted) that decrypts under the unlocked passphrase to
the snapshot's plaintext; (2) restoring into an unencrypted document stores
plaintext marked unencrypted; (3) the snapshot's own `encrypted` flag never
determines the document's stored encryption state — it always equals the
live document's flag. -/
theorem restoreSnapshot_encryption_contract :
    (∀ (s : StorageState) (e : Encryption) (documentId : String)
      (snapshotId : Nat) (doc : Document) (snap : Snapshot)
      (key plain : String),
      getDocument s documentId = some doc →
      getSnapshot s snapshotId = some snap →
      doc.title.length ≤ 200 →
      doc.encrypted = true →
      snap.encrypted = false →
      snap.content = .plain plain →
      e.passphrase = some key →
      ∃ s' : StorageState,
        restoreSnapshot s e documentId snapshotId none =
          .ok (s', e, plain) ∧
        (getDocument s' documentId).map
          (fun d => (d.encrypted, d.content)) =
          some (true, .cipher key plain) ∧
        e.decrypt (.cipher key plain) none = .ok plain) ∧
    (∀ (s : StorageState) (e : Encryption) (documentId : String)
      (snapshotId : Nat) (doc : Document) (snap : Snapshot) (plain : String),
      getDocument s documentId = some doc →
      getSnapshot s snapshotId = some snap →
      doc.title.length ≤ 200 →
      doc.encrypted = false →
      snap.encrypted = false →
      snap.content = .plain plain →
      ∃ s' : StorageState,
        restoreSnapshot s e documentId snapshotId none =
          .ok (s', e, plain) ∧
        (getDocument s' documentId).map
          (fun d => (d.encrypted, d.content)) =
          some (false, .plain plain)) ∧
    (∀ (s : StorageState) (e : Encryption) (documentId : String)
      (snapshotId : Nat) (passphrase : Option String) (doc : Document)
      (s' : StorageState) (e' : Encryption) (c : String),
      getDocument s documentId = some doc →
      restoreSnapshot s e documentId snapshotId passphrase =
        .ok (s', e', c) →
      ∀ d', getDocument s' documentId = some d' →
        d'.encrypted = doc.encrypted) := by
  refine ⟨?_, ?_, ?_⟩
  · intro s e documentId snapshotId doc snap key plain h1 h2 h3 h4 h5 h6 h7
    exact restoreSnapshot_reencrypts_for_encrypted_document s e documentId
      snapshotId doc snap key plain h1 h2 h3 h4 h5 h6 h7
  · intro s e documentId snapshotId doc snap plain h1 h2 h3 h4 h5 h6
    exact restoreSnapshot_plain_for_plain_document s e documentId
      snapshotId doc snap plain h1 h2 h3 h4 h5 h6
  · intro s e documentId snapshotId passphrase doc s' e' c h1 h2
    exact restoreSnapshot_keeps_document_flag s e documentId snapshotId
      passphrase doc s' e' c h1 h2

/-- Concrete encrypted document for the C6 witness. -/
def exDocEnc : Document :=
  { id := "doc-1", title := "T", content := .cipher "password123" "old",
    encrypted := true, createdAt := 1, updatedAt := 1 }

/-- Concrete plaintext snapshot for the C6 witness. -/
def exSnapPlain : Snapshot :=
  { id := 7, documentId := "doc-1", content := .plain "hello",
    encrypted := false, createdAt := 5, size := 5 }

/-- Concrete storage state for the C6 witness. -/
def exState : StorageState :=
  { documents := [exDocEnc], snapshots := [exSnapPlain], nextId := 8,
    now := 100 }

/-- Concrete unlocked encryption state for the C6 witness. -/
def exEnc : Encryption := { passphrase := some "password123" }

/-- Concrete unencrypted document for the C6 witness. -/
def exDocPlain : Document :=
  { id := "doc-2", title := "T", content := .plain "old",
    encrypted := false, createdAt := 1, updatedAt := 1 }

/-- Concrete plaintext snapshot of the unencrypted document. -/
def exSnapP : Snapshot :=
  { id := 3, documentId := "doc-2", content := .plain "hi",
    encrypted := false, createdAt := 5, size := 2 }

/-- Concrete storage state around the unencrypted document. -/
def exStateP : StorageState :=
  { documents := [exDocPlain], snapshots := [exSnapP], nextId := 9,
    now := 100 }

/-- The document `exState` holds after the C6 restore. -/
def exDocEnc' : Document :=
  { id := "doc-1", title := "T", content := .cipher "password123" "hello",
    encrypted := true, createdAt := 1, updatedAt := 100 }

/-- The storage state after the C6 restore. -/
def exState' : StorageState :=
  { documents := [exDocEnc'], snapshots := [exSnapPlain], nextId := 8,
    now := 100 }

/-- C6 witness: the contract applied at concrete states — an encrypted
document re-encrypts the restored plaintext, an unencrypted one stores it
plainly, and the stored flag equals the live document's flag. -/
theorem restoreSnapshot_encryption_contract_witness :
    (∃ s' : StorageState,
      restoreSnapshot exState exEnc "doc-1" 7 none =
        .ok (s', exEnc, "hello") ∧
      (getDocument s' "doc-1").map (fun d => (d.encrypted, d.content)) =
        some (true, .cipher "password123" "hello") ∧
      exEnc.decrypt (.cipher "password123" "hello") none = .ok "hello") ∧
    (∃ s' : StorageState,
      restoreSnapshot exStateP exEnc "doc-2" 3 none =
        .ok (s', exEnc, "hi") ∧
      (getDocument s' "doc-2").map (fun d => (d.encrypted, d.content)) =
        some (false, .plain "hi")) ∧
    exDocEnc'.encrypted = exDocEnc.encrypted := by
  refine ⟨?_, ?_, ?_⟩
  · exact restoreSnapshot_encryption_contract.1 exState exEnc "doc-1" 7
      exDocEnc exSnapPlain "password123" "hello" (by decide) (by decide)
      (by decide) (by decide) (by decide) (by decide) (by decide)
  · exact restoreSnapshot_encryption_contract.2.1 exStateP exEnc "doc-2" 3
      exDocPlain exSnapP "hi" (by decide)
      (by decide) (by decide) (by decide) (by decide) (by decide)
  · exact restoreSnapshot_encryption_contract.2.2 exState exEnc "doc-1" 7
      none exDocEnc exState' exEnc "hello" (by decide) (by rfl)
      exDocEnc' (by decide)

/-- One `History.createSnapshot` call per clock value in `times`, starting
from storage state `s` (content and encryption are irrelevant to pruning). -/
def createMany (s : StorageState) (e : Encryption) (documentId : String)
    (times : List Nat) : StorageState :=
  times.foldl
    (fun st t => (createSnapshot { st with now := t } e documentId "c"
      false).1) s

/-- The createdAt stamps of a document's stored snapshots, storage order. -/
def perDocCreated (s : StorageState) (d : String) : List Nat :=
  (perDoc s d).map (fun sn => sn.createdAt)

/-- The last `n` elements of a list. -/
def lastN (n : Nat) (l : List Nat) : List Nat :=
  l.drop (l.length - n)

theorem lastN_of_le (n : Nat) (l : List Nat) (h : l.length ≤ n) :
    lastN n l = l := by
  unfold lastN
  rw [Nat.sub_eq_zero_of_le h, List.drop_zero]

theorem mem_lastN (n : Nat) (l : List Nat) (x : Nat) (h : x ∈ lastN n l) :
    x ∈ l :=
  List.drop_subset _ l h

theorem lastN_cons_full (n : Nat) (x : Nat) (l : List Nat)
    (h : l.length = n) : lastN n (x :: l) = l := by
  unfold lastN
  simp only [List.length_cons, h]
  rw [show n + 1 - n = 1 by omega]
  rfl

theorem lastN_zero (l : List Nat) : lastN 0 l = [] := by
  unfold lastN
  simp

theorem lastN_absorb_singleton (n : Nat) (x : List Nat) (t : Nat) :
    lastN n (lastN n x ++ [t]) = lastN n (x ++ [t]) := by
  by_cases h : x.length ≤ n
  · rw [lastN_of_le n x h]
  · rcases Nat.eq_zero_or_pos n with rfl | hn
    · rw [lastN_zero, lastN_zero]
    · unfold lastN
      rw [List.length_append, List.length_drop, List.length_append]
      simp only [List.length_singleton]
      rw [show x.length - (x.length - n) + 1 - n = 1 by omega]
      rw [List.drop_append_eq_append_drop, List.drop_append_eq_append_drop]
      rw [List.drop_drop, List.length_drop]
      rw [show 1 - (x.length - (x.length - n)) = 0 by omega]
      rw [show x.length + 1 - n - x.length = 0 by omega]
      rw [show x.length - n + 1 = x.length + 1 - n by omega]

theorem insertSnap_of_lt (x : Snapshot) (l : List Snapshot)
    (h : ∀ y ∈ l, x.createdAt < y.createdAt) : insertSnap x l = x :: l := by
  cases l with
  | nil => rfl
  | cons y ys =>
    have hy : ¬ (y.createdAt ≤ x.createdAt) := by
      have := h y (List.mem_cons_self _ _)
      omega
    simp [insertSnap, hy]

/-- A createdAt-strictly-ascending list is a fixed point of the sort. -/
theorem sortSnaps_of_pairwise (l : List Snapshot)
    (h : List.Pairwise (fun a b => a.createdAt < b.createdAt) l) :
    sortSnaps l = l := by
  induction l with
  | nil => rfl
  | cons x xs ih =>
    rw [List.pairwise_cons] at h
    simp only [sortSnaps]
    rw [ih h.2, insertSnap_of_lt x xs h.1]

theorem perDoc_set_now (s : StorageState) (t : Nat) (d : String) :
    perDoc { s with now := t } d = perDoc s d := rfl

theorem perDoc_pairwise (s : StorageState) (d : String)
    (hchain : List.Chain' (· < ·) (perDocCreated s d)) :
    List.Pairwise (fun a b => a.createdAt < b.createdAt) (perDoc s d) := by
  have hp : List.Pairwise (· < ·) (perDocCreated s d) :=
    List.chain'_iff_pairwise.mp hchain
  unfold perDocCreated at hp
  exact (List.pairwise_map).mp hp

theorem perDoc_ids_nodup (s : StorageState) (d : String)
    (hnodup : (s.snapshots.map (fun sn => sn.id)).Nodup) :
    ((perDoc s d).map (fun sn => sn.id)).Nodup := by
  apply List.Nodup.sublist _ hnodup
  exact (List.filter_sublist _).map _

/-- The result state of one `createSnapshot` call at clock `t`. -/
def snapStep (s : StorageState) (e : Encryption) (d : String) (t : Nat)
    (c : String) : StorageState :=
  (createSnapshot { s with now := t } e d c false).1

/-- The snapshot record `saveSnapshot` appends for plaintext content. -/
def newSnap (d c : String) (idv t : Nat) : Snapshot :=
  { id := idv, documentId := d, content := .plain c, encrypted := false,
    createdAt := t, size := c.length }

theorem filter_ne_head_of_nodup (x : Snapshot) (xs : List Snapshot)
    (hnodup : ((x :: xs).map (fun sn => sn.id)).Nodup) :
    (x :: xs).filter (fun sn => sn.id ≠ x.id) = xs := by
  simp only [List.map_cons, List.nodup_cons, List.mem_map] at hnodup
  rw [List.filter_cons, if_neg (by simp)]
  apply List.filter_eq_self.mpr
  intro y hy
  simp only [ne_eq, decide_eq_true_eq]
  intro hc
  exact hnodup.1 ⟨y, hy, hc⟩

theorem mem_of_getLast?_aux {α : Type} (l : List α) (a : α)
    (h : l.getLast? = some a) : a ∈ l := by
  cases l with
  | nil => simp at h
  | cons x xs =>
    rw [List.getLast?_eq_getLast _ (by simp)] at h
    cases h
    exact List.getLast_mem _

/-- The effect of one `createSnapshot` call on one document's snapshots:
below the cap it appends; at the cap it drops the oldest and appends —
in both cases the per-document createdAt stamps become the last 50 of
`old ++ [t]`. -/
theorem createSnapshot_step (s : StorageState) (e : Encryption) (d : String)
    (t : Nat) (c : String)
    (hnodup : (s.snapshots.map (fun sn => sn.id)).Nodup)
    (hbound : ∀ sn ∈ s.snapshots, sn.id < s.nextId)
    (hchain : List.Chain' (· < ·) (perDocCreated s d))
    (hlen : (perDoc s d).length ≤ 50)
    (hlt : ∀ x ∈ perDocCreated s d, x < t) :
    (((snapStep s e d t c).snapshots.map (fun sn => sn.id)).Nodup ∧
      (∀ sn ∈ (snapStep s e d t c).snapshots,
        sn.id < (snapStep s e d t c).nextId) ∧
      List.Chain' (· < ·) (perDocCreated (snapStep s e d t c) d) ∧
      (perDoc (snapStep s e d t c) d).length ≤ 50) ∧
    perDocCreated (snapStep s e d t c) d =
      lastN 50 (perDocCreated s d ++ [t]) := by
  have hsort : sortSnaps (perDoc { s with now := t } d) = perDoc s d :=
    sortSnaps_of_pairwise _ (perDoc_pairwise s d hchain)
  have hnew : ∀ l : List Snapshot,
      (l ++ [newSnap d c s.nextId t]).filter
          (fun sn => sn.documentId = d) =
        l.filter (fun sn => sn.documentId = d) ++
          [newSnap d c s.nextId t] := by
    intro l
    rw [List.filter_append]
    simp [newSnap]
  -- characterize the state produced by saveSnapshot
  have hsavesnaps : (saveSnapshot { s with now := t } d (.plain c)
      false).1.snapshots =
      (if (perDoc s d).length ≥ 50 then
        (match perDoc s d with
          | [] => s.snapshots
          | oldest :: _ => s.snapshots.filter (fun sn => sn.id ≠ oldest.id))
      else s.snapshots) ++ [newSnap d c s.nextId t] := by
    unfold saveSnapshot
    simp only [hsort]
    rfl
  have hsaven : (saveSnapshot { s with now := t } d (.plain c)
      false).1.nextId = s.nextId + 1 := by
    unfold saveSnapshot
    rfl
  -- the per-document list after the save
  have hpd1 : perDoc (saveSnapshot { s with now := t } d (.plain c)
      false).1 d =
      (if (perDoc s d).length ≥ 50 then (perDoc s d).drop 1
        else perDoc s d) ++ [newSnap d c s.nextId t] := by
    show (saveSnapshot { s with now := t } d (.plain c)
      false).1.snapshots.filter (fun sn => sn.documentId = d) = _
    rw [hsavesnaps, hnew]
    congr 1
    by_cases hcap : (perDoc s d).length ≥ 50
    · simp only [hcap, if_true, reduceIte]
      cases hpd : perDoc s d with
      | nil => rw [hpd] at hcap; simp at hcap
      | cons x xs =>
        have hcomm : (s.snapshots.filter (fun sn => sn.id ≠ x.id)).filter
            (fun sn => sn.documentId = d) =
            (s.snapshots.filter (fun sn => sn.documentId = d)).filter
              (fun sn => sn.id ≠ x.id) := by
          rw [List.filter_filter, List.filter_filter]
          congr 1
          funext sn
          rw [Bool.and_comm]
        have hpdnodup := perDoc_ids_nodup s d hnodup
        rw [hpd] at hpdnodup
        have hpdfilter : s.snapshots.filter
            (fun sn => sn.documentId = d) = x :: xs := by
          rw [← hpd]; rfl
        rw [hcomm, hpdfilter, filter_ne_head_of_nodup x xs hpdnodup]
        rfl
    · simp only [hcap, if_false, reduceIte]
      rfl
  -- the save leaves at most 50 per-document snapshots, so prune is a no-op
  have hlen1 : (perDoc (saveSnapshot { s with now := t } d (.plain c)
      false).1 d).length ≤ 50 := by
    rw [hpd1]
    rw [List.length_append]
    by_cases hcap : (perDoc s d).length ≥ 50
    · simp only [hcap, if_true, reduceIte, List.length_drop]
      simp only [List.length_singleton]
      omega
    · simp only [hcap, if_false, reduceIte, List.length_singleton]
      omega
  have hstep : snapStep s e d t c =
      (saveSnapshot { s with now := t } d (.plain c) false).1 := by
    unfold snapStep createSnapshot
    simp only [Bool.false_eq_true, false_and, if_false, reduceIte]
    show pruneSnapshots _ d 50 = _
    unfold pruneSnapshots
    simp only [hlen1, if_true, reduceIte]
  rw [hstep]
  have hAsub : (if (perDoc s d).length ≥ 50 then
      (match perDoc s d with
        | [] => s.snapshots
        | oldest :: _ => s.snapshots.filter (fun sn => sn.id ≠ oldest.id))
      else s.snapshots).Sublist s.snapshots := by
    split
    · split
      · exact List.Sublist.refl _
      · exact List.filter_sublist _
    · exact List.Sublist.refl _
  have hpdCreated : perDocCreated (saveSnapshot { s with now := t } d
      (.plain c) false).1 d =
      (if (perDoc s d).length ≥ 50 then (perDocCreated s d).drop 1
        else perDocCreated s d) ++ [t] := by
    unfold perDocCreated
    rw [hpd1, List.map_append]
    have h2 : (List.map (fun sn => sn.createdAt) [newSnap d c s.nextId t]) =
        [t] := rfl
    rw [h2]
    congr 1
    by_cases hcap : (perDoc s d).length ≥ 50
    · simp only [hcap, if_true, reduceIte]
      exact List.map_drop _ _ _
    · simp only [hcap, if_false, reduceIte]
  constructor
  · refine ⟨?_, ?_, ?_, hlen1⟩
    · -- id uniqueness is preserved
      rw [hsavesnaps, List.map_append, List.nodup_append]
      refine ⟨(hAsub.map _).nodup hnodup, by simp, ?_⟩
      intro a ha hb
      simp only [newSnap, List.map_cons, List.map_nil,
        List.mem_singleton] at hb
      subst hb
      have haorig := (hAsub.map (fun sn => sn.id)).subset ha
      obtain ⟨sn, hsn, heq⟩ := List.mem_map.mp haorig
      have := hbound sn hsn
      omega
    · -- ids stay below the id counter
      rw [hsavesnaps, hsaven]
      intro sn hsn
      rw [List.mem_append] at hsn
      rcases hsn with hsn | hsn
      · have := hbound sn (hAsub.subset hsn)
        omega
      · simp only [List.mem_singleton] at hsn
        subst hsn
        simp [newSnap]
    · -- createdAt stamps stay strictly increasing
      rw [hpdCreated]
      rw [List.chain'_append]
      refine ⟨?_, List.chain'_singleton _, ?_⟩
      · split
        · exact (by rw [List.drop_one]; exact hchain.tail)
        · exact hchain
      · intro x hx y hy
        simp only [List.head?_cons, Option.mem_def, Option.some.injEq]
          at hy
        subst hy
        apply hlt
        have hx' := mem_of_getLast?_aux _ _ hx
        revert hx'
        split
        · exact fun hx' => List.drop_subset _ _ hx'
        · exact fun hx' => hx'
  · -- the per-document stamps are the last 50 of old ++ [t]
    rw [hpdCreated]
    by_cases hcap : (perDoc s d).length ≥ 50
    · have hlen50 : (perDocCreated s d).length = 50 := by
        unfold perDocCreated
        rw [List.length_map]
        omega
      simp only [hcap, if_true, reduceIte]
      unfold lastN
      rw [List.length_append, hlen50]
      simp only [List.length_singleton]
      rw [show 50 + 1 - 50 = 1 by omega]
      rw [List.drop_append_eq_append_drop, hlen50]
      rw [show 1 - 50 = 0 by omega]
      rfl
    · have hlenlt : (perDocCreated s d).length < 50 := by
        unfold perDocCreated
        rw [List.length_map]
        omega
      simp only [hcap, if_false, reduceIte]
      rw [lastN_of_le]
      rw [List.length_append]
      simp only [List.length_singleton]
      omega

/-- Iterating `createSnapshot` keeps, per document, exactly the last 50
createdAt stamps of the full history, provided the clock is strictly
increasing. -/
theorem createMany_lastN (e : Encryption) (d : String) :
    ∀ (times : List Nat) (s : StorageState) (acc : List Nat),
      (s.snapshots.map (fun sn => sn.id)).Nodup →
      (∀ sn ∈ s.snapshots, sn.id < s.nextId) →
      List.Chain' (· < ·) (perDocCreated s d) →
      (perDoc s d).length ≤ 50 →
      perDocCreated s d = lastN 50 acc →
      (∀ x ∈ acc, ∀ t ∈ times, x < t) →
      List.Chain' (· < ·) times →
      perDocCreated (createMany s e d times) d = lastN 50 (acc ++ times) := by
  intro times
  induction times with
  | nil =>
    intro s acc _ _ _ _ h5 _ _
    rw [List.append_nil]
    exact h5
  | cons t ts ih =>
    intro s acc h1 h2 h3 h4 h5 h6 h7
    have hlt : ∀ x ∈ perDocCreated s d, x < t := by
      intro x hx
      rw [h5] at hx
      exact h6 x (mem_lastN 50 acc x hx) t (List.mem_cons_self _ _)
    obtain ⟨⟨i1, i2, i3, i4⟩, heq⟩ :=
      createSnapshot_step s e d t "c" h1 h2 h3 h4 hlt
    have hfold : createMany s e d (t :: ts) =
        createMany (snapStep s e d t "c") e d ts := rfl
    rw [hfold]
    have h5' : perDocCreated (snapStep s e d t "c") d =
        lastN 50 (acc ++ [t]) := by
      rw [heq, h5, lastN_absorb_singleton]
    have h6' : ∀ x ∈ acc ++ [t], ∀ u ∈ ts, x < u := by
      intro x hx u hu
      rw [List.mem_append] at hx
      rcases hx with hx | hx
      · exact h6 x hx u (List.mem_cons_of_mem _ hu)
      · simp only [List.mem_singleton] at hx
        subst hx
        have hp := List.chain'_iff_pairwise.mp h7
        rw [List.pairwise_cons] at hp
        exact hp.1 u hu
    have h := ih (snapStep s e d t "c") (acc ++ [t]) i1 i2 i3 i4 h5' h6'
      (h7.tail)
    rw [h, List.append_assoc]
    rfl

/-- A fresh storage state. -/
def emptyStorage : StorageState :=
  { documents := [], snapshots := [], nextId := 0, now := 0 }

/-- C7 amended: creating 55 snapshots for one document with strictly
increasing createdAt stamps (the normal, monotone-clock case) leaves exactly
the 50 most recent stamps in storage — the 5 oldest are pruned. -/
theorem createSnapshot_prunes_to_50_most_recent (e : Encryption)
    (d : String) (times : List Nat) (h55 : times.length = 55)
    (hmono : List.Chain' (· < ·) times) :
    perDocCreated (createMany emptyStorage e d times) d = times.drop 5 := by
  have h := createMany_lastN e d times emptyStorage []
    (by simp [emptyStorage]) (by simp [emptyStorage])
    (by simp [emptyStorage, perDocCreated, perDoc])
    (by simp [emptyStorage, perDoc]) (by rfl)
    (by intro x hx; simp at hx) hmono
  rw [h]
  show (([] ++ times).drop (([] ++ times).length - 50)) = times.drop 5
  rw [List.nil_append, h55]

/-- C7 witness: 55 snapshot creations at strictly increasing clock values
`0..54` leave exactly the stamps `5..54`. -/
theorem createSnapshot_prunes_witness :
    perDocCreated
      (createMany emptyStorage { passphrase := none } "d" (List.range 55))
      "d" = (List.range 55).drop 5 :=
  createSnapshot_prunes_to_50_most_recent { passphrase := none } "d"
    (List.range 55) (by simp)
    (List.chain'_iff_pairwise.mpr (List.pairwise_lt_range 55))

/-- 50 late stamps (100..149) inserted before 5 early stamps (1..5). -/
def outOfOrderTimes : List Nat :=
  (List.range 50).map (fun k => k + 100) ++ (List.range 5).map (fun k => k + 1)

set_option maxRecDepth 100000 in
/-- C7 counterexample: with a non-monotone clock (insertion order not
matching createdAt order) the claim fails — after the 55 creations the
stamp 5 (one of the 5 oldest) is still stored while 100 (one of the 50 most
recent) is gone: `saveSnapshot` always deletes the currently-oldest
snapshot, which after an out-of-order insert is the just-inserted old one,
not the globally right one. -/
theorem createSnapshot_prune_insertion_order_dependent :
    5 ∈ perDocCreated
        (createMany emptyStorage { passphrase := none } "d" outOfOrderTimes)
        "d" ∧
    100 ∉ perDocCreated
        (createMany emptyStorage { passphrase := none } "d" outOfOrderTimes)
        "d" := by decide

end MdHist

namespace MdParser

/-! ### Parser module (src/unnamed/part_001)

Shallow embedding of the `Parser` class. Strings are handled as `List Char`;
each regex-based `String.replace` pass is embedded as a character scanner
with a fuel argument (wrappers supply fuel exceeding the input length, which
the scanners never exhaust since every step consumes at least one input
character). JS case mapping (`toLowerCase`, the regex `/i` flag) is embedded
on the ASCII range, which covers every case-dependent comparison the parser
performs (`\w`-constrained language names, `[a-z0-9_+-]` emoji names, ASCII
keyword patterns in `sanitize`; a regex without the `u` flag does not
case-fold non-ASCII characters onto ASCII ones). -/

/-- JS `\w` word-character class `[A-Za-z0-9_]`. -/
def isWordChar (c : Char) : Bool :=
  ('a' ≤ c && c ≤ 'z') || ('A' ≤ c && c ≤ 'Z') || ('0' ≤ c && c ≤ '9') ||
    c = '_'

/-- JS `\s` whitespace class (also the character set removed by
`String.prototype.trim`). -/
def isSpaceJs (c : Char) : Bool :=
  c = ' ' || c = '\t' || c = '\n' || c = '\x0b' || c = '\x0c' || c = '\r' ||
  "\u00A0\u1680\u2000\u2001\u2002\u2003\u2004\u2005\u2006\u2007\u2008\u2009\u200A\u2028\u2029\u202F\u205F\u3000\uFEFF".data.contains c

/-- JS `toLowerCase` on the ASCII range (the only range the parser's
case-dependent comparisons can encounter, see the section comment;
`slugify` may also see non-ASCII characters, but those are case-stable
here and are dropped by the following `[^\w\s-]` filter either way,
matching JS outside a handful of special multi-character case mappings). -/
def toLowerChar (c : Char) : Char := c.toLower

/-- `str.split(sep)` for a one-character separator: split groups, keeping
empty groups (`"".split` gives `[""]`). -/
def splitChar (sep : Char) : List Char → List (List Char)
  | [] => [[]]
  | c :: rest =>
    if c = sep then [] :: splitChar sep rest
    else
      match splitChar sep rest with
      | [] => [[c]]
      | g :: gs => (c :: g) :: gs

/-- `String.prototype.trim()`. -/
def trimJs (l : List Char) : List Char :=
  ((l.dropWhile isSpaceJs).reverse.dropWhile isSpaceJs).reverse

/-- The per-character map of `Parser.escapeHtml` (`{'&':'&amp;','<':'&lt;',
'>':'&gt;','"':'&quot;',"'":'&#39;'}`; other characters unchanged). -/
def escChar (c : Char) : List Char :=
  if c = '&' then "&amp;".data
  else if c = '<' then "&lt;".data
  else if c = '>' then "&gt;".data
  else if c = '"' then "&quot;".data
  else if c = '\'' then "&#39;".data
  else [c]

/-- `Parser.escapeHtml`: `text.replace(/[&<>"']/g, char => map[char])`. -/
def escList : List Char → List Char
  | [] => []
  | c :: t => escChar c ++ escList t

/-- `Parser.escapeHtml` on `String`. -/
def escapeHtml (text : String) : String :=
  ⟨escList text.data⟩

/-- Emoji name class `[a-z0-9_+-]` with the `/i` flag. -/
def isEmojiNameChar (c : Char) : Bool :=
  ('a' ≤ c && c ≤ 'z') || ('A' ≤ c && c ≤ 'Z') || ('0' ≤ c && c ≤ '9') ||
    c = '_' || c = '+' || c = '-'

/-- `[\s_-]` (the class collapsed to `-` by `slugify`). -/
def isDashy (c : Char) : Bool := isSpaceJs c || c = '_' || c = '-'

/-- `.replace(/[\s_-]+/g, '-')`: collapse each maximal dashy run to one
dash; the flag records whether the previous character was in such a run. -/
def slugDashGo : Bool → List Char → List Char
  | _, [] => []
  | prev, c :: rest =>
    if isDashy c then
      if prev then slugDashGo true rest else '-' :: slugDashGo true rest
    else c :: slugDashGo false rest

/-- `Parser.slugify`: lowercase, drop `[^\w\s-]`, collapse `[\s_-]+` to `-`,
strip leading/trailing dashes. -/
def slugify (l : List Char) : List Char :=
  let t := (l.map toLowerChar).filter
    (fun c => isWordChar c || isSpaceJs c || c = '-')
  let t := slugDashGo false t
  ((t.dropWhile (· = '-')).reverse.dropWhile (· = '-')).reverse
/-- The parser's emoji shortcode table (src/unnamed/part_001). -/
def emojiMap : List (String × String) :=
  [
    ("smile", "ðŸ˜„"),
    ("laughing", "ðŸ˜†"),
    ("blush", "ðŸ˜Š"),
    ("smiley", "ðŸ˜ƒ"),
    ("relaxed", "â˜ºï¸"),
    ("smirk", "ðŸ˜"),
    ("heart_eyes", "ðŸ˜"),
    ("kissing_heart", "ðŸ˜˜"),
    ("kissing_closed_eyes", "ðŸ˜š"),
    ("flushed", "ðŸ˜³"),
    ("relieved", "ðŸ˜Œ"),
    ("satisfied", "ðŸ˜†"),
    ("grin", "ðŸ˜"),
    ("wink", "ðŸ˜‰"),
    ("stuck_out_tongue_winking_eye", "ðŸ˜œ"),
    ("stuck_out_tongue_closed_eyes", "ðŸ˜"),
    ("grinning", "ðŸ˜€"),
    ("kissing", "ðŸ˜—"),
    ("kissing_smiling_eyes", "ðŸ˜™"),
    ("stuck_out_tongue", "ðŸ˜›"),
    ("sleeping", "ðŸ˜´"),
    ("worried", "ðŸ˜Ÿ"),
    ("frowning", "ðŸ˜¦"),
    ("anguished", "ðŸ˜§"),
    ("open_mouth", "ðŸ˜®"),
    ("grimacing", "ðŸ˜¬"),
    ("confused", "ðŸ˜•"),
    ("hushed", "ðŸ˜¯"),
    ("expressionless", "ðŸ˜‘"),
    ("unamused", "ðŸ˜’"),
    ("sweat_smile", "ðŸ˜…"),
    ("sweat", "ðŸ˜“"),
    ("disappointed_relieved", "ðŸ˜¥"),
    ("weary", "ðŸ˜©"),
    ("pensive", "ðŸ˜”"),
    ("disappointed", "ðŸ˜ž"),
    ("confounded", "ðŸ˜–"),
    ("fearful", "ðŸ˜¨"),
    ("cold_sweat", "ðŸ˜°"),
    ("persevere", "ðŸ˜£"),
    ("cry", "ðŸ˜¢"),
    ("sob", "ðŸ˜­"),
    ("joy", "ðŸ˜‚"),
    ("astonished", "ðŸ˜²"),
    ("scream", "ðŸ˜±"),
    ("tired_face", "ðŸ˜«"),
    ("angry", "ðŸ˜ "),
    ("rage", "ðŸ˜¡"),
    ("triumph", "ðŸ˜¤"),
    ("sleepy", "ðŸ˜ª"),
    ("yum", "ðŸ˜‹"),
    ("mask", "ðŸ˜·"),
    ("sunglasses", "ðŸ˜Ž"),
    ("dizzy_face", "ðŸ˜µ"),
    ("imp", "ðŸ‘¿"),
    ("smiling_imp", "ðŸ˜ˆ"),
    ("neutral_face", "ðŸ˜"),
    ("no_mouth", "ðŸ˜¶"),
    ("innocent", "ðŸ˜‡"),
    ("alien", "ðŸ‘½"),
    ("yellow_heart", "ðŸ’›"),
    ("blue_heart", "ðŸ’™"),
    ("purple_heart", "ðŸ’œ"),
    ("heart", "â¤ï¸"),
    ("green_heart", "ðŸ’š"),
    ("broken_heart", "ðŸ’”"),
    ("heartbeat", "ðŸ’“"),
    ("heartpulse", "ðŸ’—"),
    ("two_hearts", "ðŸ’•"),
    ("revolving_hearts", "ðŸ’ž"),
    ("cupid", "ðŸ’˜"),
    ("sparkling_heart", "ðŸ’–"),
    ("sparkles", "âœ¨"),
    ("star", "â­"),
    ("star2", "ðŸŒŸ"),
    ("dizzy", "ðŸ’«"),
    ("boom", "ðŸ’¥"),
    ("collision", "ðŸ’¥"),
    ("anger", "ðŸ’¢"),
    ("exclamation", "â—"),
    ("question", "â“"),
    ("grey_exclamation", "â•"),
    ("grey_question", "â”"),
    ("zzz", "ðŸ’¤"),
    ("dash", "ðŸ’¨"),
    ("sweat_drops", "ðŸ’¦"),
    ("notes", "ðŸŽ¶"),
    ("musical_note", "ðŸŽµ"),
    ("fire", "ðŸ”¥"),
    ("hankey", "ðŸ’©"),
    ("poop", "ðŸ’©"),
    ("shit", "ðŸ’©"),
    ("thumbsup", "ðŸ‘"),
    ("+1", "ðŸ‘"),
    ("thumbsdown", "ðŸ‘Ž"),
    ("-1", "ðŸ‘Ž"),
    ("ok_hand", "ðŸ‘Œ"),
    ("punch", "ðŸ‘Š"),
    ("fist", "âœŠ"),
    ("v", "âœŒï¸"),
    ("wave", "ðŸ‘‹"),
    ("hand", "âœ‹"),
    ("raised_hand", "âœ‹"),
    ("open_hands", "ðŸ‘"),
    ("point_up", "â˜ï¸"),
    ("point_down", "ðŸ‘‡"),
    ("point_left", "ðŸ‘ˆ"),
    ("point_right", "ðŸ‘‰"),
    ("raised_hands", "ðŸ™Œ"),
    ("pray", "ðŸ™"),
    ("point_up_2", "ðŸ‘†"),
    ("clap", "ðŸ‘"),
    ("muscle", "ðŸ’ª"),
    ("metal", "ðŸ¤˜"),
    ("fu", "ðŸ–•"),
    ("runner", "ðŸƒ"),
    ("running", "ðŸƒ"),
    ("couple", "ðŸ‘«"),
    ("family", "ðŸ‘ª"),
    ("two_men_holding_hands", "ðŸ‘¬"),
    ("two_women_holding_hands", "ðŸ‘­"),
    ("dancer", "ðŸ’ƒ"),
    ("dancers", "ðŸ‘¯"),
    ("ok_woman", "ðŸ™†"),
    ("no_good", "ðŸ™…"),
    ("information_desk_person", "ðŸ’"),
    ("raising_hand", "ðŸ™‹"),
    ("bride_with_veil", "ðŸ‘°"),
    ("person_with_pouting_face", "ðŸ™Ž"),
    ("person_frowning", "ðŸ™"),
    ("bow", "ðŸ™‡"),
    ("couplekiss", "ðŸ’"),
    ("couple_with_heart", "ðŸ’‘"),
    ("massage", "ðŸ’†"),
    ("haircut", "ðŸ’‡"),
    ("nail_care", "ðŸ’…"),
    ("boy", "ðŸ‘¦"),
    ("girl", "ðŸ‘§"),
    ("woman", "ðŸ‘©"),
    ("man", "ðŸ‘¨"),
    ("baby", "ðŸ‘¶"),
    ("older_woman", "ðŸ‘µ"),
    ("older_man", "ðŸ‘´"),
    ("cop", "ðŸ‘®"),
    ("angel", "ðŸ‘¼"),
    ("princess", "ðŸ‘¸"),
    ("guardsman", "ðŸ’‚"),
    ("rocket", "ðŸš€"),
    ("airplane", "âœˆï¸"),
    ("balloon", "ðŸŽˆ"),
    ("tada", "ðŸŽ‰"),
    ("gift", "ðŸŽ"),
    ("christmas_tree", "ðŸŽ„"),
    ("santa", "ðŸŽ…"),
    ("camera", "ðŸ“·"),
    ("video_camera", "ðŸ“¹"),
    ("computer", "ðŸ’»"),
    ("tv", "ðŸ“º"),
    ("iphone", "ðŸ“±"),
    ("phone", "â˜Žï¸"),
    ("telephone", "â˜Žï¸"),
    ("email", "ðŸ“§"),
    ("envelope", "âœ‰ï¸"),
    ("memo", "ðŸ“"),
    ("pencil", "ðŸ“"),
    ("book", "ðŸ“–"),
    ("books", "ðŸ“š"),
    ("art", "ðŸŽ¨"),
    ("movie_camera", "ðŸŽ¥"),
    ("microphone", "ðŸŽ¤"),
    ("headphones", "ðŸŽ§"),
    ("musical_score", "ðŸŽ¼"),
    ("violin", "ðŸŽ»"),
    ("video_game", "ðŸŽ®"),
    ("space_invader", "ðŸ‘¾"),
    ("dart", "ðŸŽ¯"),
    ("game_die", "ðŸŽ²"),
    ("slot_machine", "ðŸŽ°"),
    ("bowling", "ðŸŽ³"),
    ("warning", "âš ï¸"),
    ("check", "âœ”ï¸"),
    ("x", "âŒ"),
    ("heavy_check_mark", "âœ”ï¸"),
    ("heavy_multiplication_x", "âœ–ï¸"),
    ("copyright", "Â©ï¸"),
    ("registered", "Â®ï¸"),
    ("tm", "â„¢ï¸"),
    ("hash", "#ï¸âƒ£"),
    ("keycap_ten", "ðŸ”Ÿ"),
    ("zero", "0ï¸âƒ£"),
    ("one", "1ï¸âƒ£"),
    ("two", "2ï¸âƒ£"),
    ("three", "3ï¸âƒ£"),
    ("four", "4ï¸âƒ£"),
    ("five", "5ï¸âƒ£"),
    ("six", "6ï¸âƒ£"),
    ("seven", "7ï¸âƒ£"),
    ("eight", "8ï¸âƒ£"),
    ("nine", "9ï¸âƒ£"),
    ("arrow_up", "â¬†ï¸"),
    ("arrow_down", "â¬‡ï¸"),
    ("arrow_left", "â¬…ï¸"),
    ("arrow_right", "âž¡ï¸"),
    ("white_check_mark", "âœ…"),
    ("clock1", "ðŸ•"),
    ("clock2", "ðŸ•‘"),
    ("clock3", "ðŸ•’")
  ]

/-- Case-insensitive test that `l` starts with (lowercase) pattern `pat`,
embedding a regex literal under the `/i` flag. -/
def lowerTake (pat l : List Char) : Bool :=
  (l.take pat.length).map toLowerChar = pat

/-- `<span class="math-block" data-math="` (the `parseMathInline` block
template up to the attribute value). -/
def mbTplA : String := "<span class=\"math-block\" data-math=\""

/-- `<span class="math-inline" data-math="` (inline math template). -/
def miTplA : String := "<span class=\"math-inline\" data-math=\""

/-- `">` — between the `data-math` value and the span body. -/
def tplMid : String := "\">"

/-- `</span>`. -/
def spanClose : String := "</span>"

/-- `text.replace(/\$\$([^$]+)\$\$/g, ...)`: at `$$`, a nonempty run of
non-`$` characters must be followed by `$$`; the capture is interpolated
through `escapeHtml` twice (attribute and body). On a failed match the
scan advances one character, as the JS global scan does. -/
def mathBlockGo : Nat → List Char → List Char
  | 0, l => l
  | _ + 1, [] => []
  | fuel + 1, c :: rest =>
    if c = '$' then
      match rest with
      | '$' :: after =>
        let run := after.takeWhile (· ≠ '$')
        if run = [] then c :: mathBlockGo fuel rest
        else
          match after.drop run.length with
          | '$' :: '$' :: tail =>
            mbTplA.data ++ escList run ++ tplMid.data ++ escList run ++
              spanClose.data ++ mathBlockGo fuel tail
          | _ => c :: mathBlockGo fuel rest
      | _ => c :: mathBlockGo fuel rest
    else c :: mathBlockGo fuel rest

/-- `text.replace(/\$([^$\n]+)\$/g, ...)`: single-`$` inline math; the run
may not contain `$` or a newline. -/
def mathInlineGo : Nat → List Char → List Char
  | 0, l => l
  | _ + 1, [] => []
  | fuel + 1, c :: rest =>
    if c = '$' then
      let run := rest.takeWhile (fun d => d ≠ '$' && d ≠ '\n')
      if run = [] then c :: mathInlineGo fuel rest
      else
        match rest.drop run.length with
        | '$' :: tail =>
          miTplA.data ++ escList run ++ tplMid.data ++ escList run ++
            spanClose.data ++ mathInlineGo fuel tail
        | _ => c :: mathInlineGo fuel rest
    else c :: mathInlineGo fuel rest

/-- `Parser.parseMathInline`: block math pass then inline math pass. -/
def parseMathInlineL (l : List Char) : List Char :=
  let t := mathBlockGo (l.length + 1) l
  mathInlineGo (t.length + 1) t

/-- `Parser.parseMathInline` on `String`. -/
def parseMathInline (s : String) : String :=
  ⟨parseMathInlineL s.data⟩

/-- `text.replace(/!\[([^\]]*)\]\(([^)]+)\)/g, '<img src="$2" alt="$1">')`:
the alt run (possibly empty, no `]`) then `](` then a nonempty URL run
(no `)`) then `)`. -/
def imageGo : Nat → List Char → List Char
  | 0, l => l
  | _ + 1, [] => []
  | fuel + 1, c :: rest =>
    if c = '!' then
      match rest with
      | '[' :: after =>
        let alt := after.takeWhile (· ≠ ']')
        (match after.drop alt.length with
        | ']' :: '(' :: after2 =>
          let url := after2.takeWhile (· ≠ ')')
          if url = [] then c :: imageGo fuel rest
          else
            match after2.drop url.length with
            | ')' :: tail =>
              "<img src=\"".data ++ url ++ "\" alt=\"".data ++ alt ++
                "\">".data ++ imageGo fuel tail
            | _ => c :: imageGo fuel rest
        | _ => c :: imageGo fuel rest)
      | _ => c :: imageGo fuel rest
    else c :: imageGo fuel rest

/-- `text.replace(/\[([^\]]+)\]\(([^)]+)\)/g,
'<a href="$2" target="_blank" rel="noopener">$1</a>')`. -/
def linkGo : Nat → List Char → List Char
  | 0, l => l
  | _ + 1, [] => []
  | fuel + 1, c :: rest =>
    if c = '[' then
      let txt := rest.takeWhile (· ≠ ']')
      if txt = [] then c :: linkGo fuel rest
      else
        match rest.drop txt.length with
        | ']' :: '(' :: after2 =>
          let url := after2.takeWhile (· ≠ ')')
          if url = [] then c :: linkGo fuel rest
          else
            match after2.drop url.length with
            | ')' :: tail =>
              "<a href=\"".data ++ url ++
                "\" target=\"_blank\" rel=\"noopener\">".data ++ txt ++
                "</a>".data ++ linkGo fuel tail
            | _ => c :: linkGo fuel rest
        | _ => c :: linkGo fuel rest
    else c :: linkGo fuel rest

/-- `text.replace(/&lt;(https?:\/\/[^&]+)&gt;/g, ...)`: autolinks, matched
against the already-escaped text. The capture is `http(s)://` plus a
nonempty run without `&`, closed by `&gt;`. -/
def autolinkGo : Nat → List Char → List Char
  | 0, l => l
  | _ + 1, [] => []
  | fuel + 1, c :: rest =>
    (if "&lt;https://".data.isPrefixOf (c :: rest) ||
        "&lt;http://".data.isPrefixOf (c :: rest) then
      let scheme := if "&lt;https://".data.isPrefixOf (c :: rest)
        then "https://".data else "http://".data
      let after := (c :: rest).drop (4 + scheme.length)
      let run := after.takeWhile (· ≠ '&')
      if run = [] then c :: autolinkGo fuel rest
      else
        match after.drop run.length with
        | '&' :: 'g' :: 't' :: ';' :: tail =>
          let cap := scheme ++ run
          "<a href=\"".data ++ cap ++
            "\" target=\"_blank\" rel=\"noopener\">".data ++ cap ++
            "</a>".data ++ autolinkGo fuel tail
        | _ => c :: autolinkGo fuel rest
    else c :: autolinkGo fuel rest)

/-- Lazy two-delimiter close search for `/\x7bdd\x7d(.+?)\x7bdd\x7d/`: the
smallest nonempty newline-free capture followed by the doubled delimiter;
returns the capture and the text after the closing pair. -/
def findClose2 (d : Char) : List Char → Option (List Char × List Char)
  | [] => none
  | c :: rest =>
    if c = '\n' then none
    else if rest.take 2 = [d, d] then some ([c], rest.drop 2)
    else
      match findClose2 d rest with
      | some (cap, tail) => some (c :: cap, tail)
      | none => none

/-- One doubled-delimiter replace pass (`\*\*(.+?)\*\*` with
`<strong>$1</strong>`, `__(.+?)__` with `<strong>$1</strong>`,
`~~(.+?)~~` with `<del>$1</del>`). -/
def pairGo (d : Char) (opn cls : List Char) : Nat → List Char → List Char
  | 0, l => l
  | _ + 1, [] => []
  | fuel + 1, c :: rest =>
    if c = d && rest.head? = some d then
      match findClose2 d rest.tail with
      | some (cap, tail) =>
        opn ++ cap ++ cls ++ pairGo d opn cls fuel tail
      | none => c :: pairGo d opn cls fuel rest
    else c :: pairGo d opn cls fuel rest

/-- Lookahead `(?!\w)` after the italic close: the next character (if any)
is not a word character. -/
def notWordAhead (l : List Char) : Bool :=
  match l.head? with
  | some c => !isWordChar c
  | none => true

/-- One italic replace pass
(`/(?<!\w)\*([^*]+)\*(?!\w)/g` with `<em>$1</em>`, and the `_` twin):
`prev` is the character preceding the scan position in the pass input (the
lookbehind examines the original string, and after a match the position
sits right after the closing delimiter). -/
def italGo (d : Char) (prev : Option Char) :
    Nat → List Char → List Char
  | 0, l => l
  | _ + 1, [] => []
  | fuel + 1, c :: rest =>
    if c = d && !(prev.elim false isWordChar) then
      let run := rest.takeWhile (· ≠ d)
      if run = [] then c :: italGo d (some c) fuel rest
      else
        match rest.drop run.length with
        | _ :: tail =>
          if notWordAhead tail then
            "<em>".data ++ run ++ "</em>".data ++ italGo d (some d) fuel tail
          else c :: italGo d (some c) fuel rest
        | [] => c :: italGo d (some c) fuel rest
    else c :: italGo d (some c) fuel rest

/-- `text.replace(/`([^`]+)`/g, '<code>$1</code>')` (backtick delimiter
passed as `d`). -/
def codeGo (d : Char) : Nat → List Char → List Char
  | 0, l => l
  | _ + 1, [] => []
  | fuel + 1, c :: rest =>
    if c = d then
      let run := rest.takeWhile (· ≠ d)
      if run = [] then c :: codeGo d fuel rest
      else
        match rest.drop run.length with
        | _ :: tail =>
          "<code>".data ++ run ++ "</code>".data ++ codeGo d fuel tail
        | [] => c :: codeGo d fuel rest
    else c :: codeGo d fuel rest

/-- `text.replace(/:([a-z0-9_+-]+):/gi, (match, name) => emojiMap[name
.toLowerCase()] || match)`: a known name is replaced by its glyph, an
unknown one is kept verbatim; either way the scan continues after the
closing colon. -/
def emojiGo : Nat → List Char → List Char
  | 0, l => l
  | _ + 1, [] => []
  | fuel + 1, c :: rest =>
    if c = ':' then
      let run := rest.takeWhile isEmojiNameChar
      if run = [] then c :: emojiGo fuel rest
      else
        match rest.drop run.length with
        | ':' :: tail =>
          match emojiMap.find? (fun p => p.1 = String.mk (run.map toLowerChar)) with
          | some p => p.2.data ++ emojiGo fuel tail
          | none => ':' :: run ++ ':' :: emojiGo fuel tail
        | _ => c :: emojiGo fuel rest
    else c :: emojiGo fuel rest

/-- `text.replace(/  $/gm, '<br>')`: exactly the final two spaces before a
newline (or before the end of input) become `<br>`. -/
def brGo : Nat → List Char → List Char
  | 0, l => l
  | _ + 1, [] => []
  | fuel + 1, c :: rest =>
    if c = ' ' && rest.head? = some ' ' &&
        (rest.tail.head? = some '\n' || rest.tail = []) then
      "<br>".data ++ brGo fuel rest.tail
    else c :: brGo fuel rest

/-- `Parser.parseInline`: escape once, then the substitution passes in
source order (math, images, links, autolinks, bold, italic, strikethrough,
inline code, emoji, trailing line breaks). -/
def parseInlineL (l : List Char) : List Char :=
  if l = [] then []
  else
    let t := escList l
    let t := parseMathInlineL t
    let t := imageGo (t.length + 1) t
    let t := linkGo (t.length + 1) t
    let t := autolinkGo (t.length + 1) t
    let t := pairGo '*' "<strong>".data "</strong>".data (t.length + 1) t
    let t := pairGo '_' "<strong>".data "</strong>".data (t.length + 1) t
    let t := italGo '*' none (t.length + 1) t
    let t := italGo '_' none (t.length + 1) t
    let t := pairGo '~' "<del>".data "</del>".data (t.length + 1) t
    let t := codeGo '`' (t.length + 1) t
    let t := emojiGo (t.length + 1) t
    brGo (t.length + 1) t

/-- `Parser.parseInline` on `String`. -/
def parseInline (s : String) : String :=
  ⟨parseInlineL s.data⟩

/-- Decimal digit character (JS number-to-string emits base-10 digits). -/
def digitChar (d : Nat) : Char :=
  if d = 0 then '0' else if d = 1 then '1' else if d = 2 then '2'
  else if d = 3 then '3' else if d = 4 then '4' else if d = 5 then '5'
  else if d = 6 then '6' else if d = 7 then '7' else if d = 8 then '8'
  else '9'

/-- Decimal digits of `n`, with fuel (`fuel > log10 n` suffices). -/
def natDigitsAux : Nat → Nat → List Char
  | 0, _ => []
  | fuel + 1, n =>
    if n < 10 then [digitChar n]
    else natDigitsAux fuel (n / 10) ++ [digitChar (n % 10)]

/-- JS template interpolation of a line number. -/
def natRepr (n : Nat) : List Char :=
  natDigitsAux (n + 1) n

/-- `parseInt` on the captured digit run of the ordered-list pattern. -/
def natOfDigits (ds : List Char) : Nat :=
  ds.foldl (fun a c => a * 10 + (c.toNat - '0'.toNat)) 0

/-- `^```(\w*)$` test: three backticks then only word characters. -/
def testCodeBlockStart (l : List Char) : Bool :=
  l.take 3 = ['`', '`', '`'] && (l.drop 3).all isWordChar

/-- The `(\w*)` capture of the code-fence start pattern. -/
def codeFenceLang (l : List Char) : List Char := l.drop 3

/-- `^```$` test. -/
def testCodeBlockEnd (l : List Char) : Bool := l = ['`', '`', '`']

/-- `^\|(.+)\|$` test: a pipe, at least one non-newline character, a final
pipe. -/
def testTable (l : List Char) : Bool :=
  match l with
  | '|' :: rest =>
    rest.length ≥ 2 && rest.getLast? = some '|' &&
      rest.dropLast.all (· ≠ '\n')
  | _ => false

/-- `^\|[\s-:|]+\|$` test (the table separator row). -/
def testTableSeparator (l : List Char) : Bool :=
  match l with
  | '|' :: rest =>
    rest.length ≥ 2 && rest.getLast? = some '|' &&
      rest.all (fun c => isSpaceJs c || c = '-' || c = ':' || c = '|')
  | _ => false

/-- `^>\s?(.*)$` capture: after `>`, one optional whitespace character is
consumed and the remainder is the capture. -/
def bqMatch (l : List Char) : Option (List Char) :=
  match l with
  | '>' :: rest =>
    match rest with
    | c :: rest2 => if isSpaceJs c then some rest2 else some rest
    | [] => some []
  | _ => none

/-- The `\s+(.+)$` suffix shared by the heading and list patterns: greedy
`\s+`, then a nonempty non-newline capture; when everything after the
whitespace is empty the engine backtracks one whitespace character into the
capture (so `#__` with two trailing blanks still matches, capture = one
blank). -/
def wsCapture (rest : List Char) : Option (List Char) :=
  let sp := rest.takeWhile isSpaceJs
  let body := rest.drop sp.length
  if sp = [] then none
  else if body ≠ [] then
    if body.all (· ≠ '\n') then some body else none
  else if 2 ≤ sp.length && sp.getLast? ≠ some '\n' then
    some (sp.drop (sp.length - 1))
  else none

/-- `^(#{1,6})\s+(.+)$` match: hash-run length (the level) and the text
capture. -/
def headingMatch (l : List Char) : Option (Nat × List Char) :=
  let hs := l.takeWhile (· = '#')
  if 1 ≤ hs.length && hs.length ≤ 6 then
    (wsCapture (l.drop hs.length)).map (fun cap => (hs.length, cap))
  else none

/-- `^(?:---+|___+|\*\*\*+)$` on `line.trim()`. -/
def testHr (l : List Char) : Bool :=
  let t := trimJs l
  t.length ≥ 3 && (t.all (· = '-') || t.all (· = '_') || t.all (· = '*'))

/-- `^(\s*)[-*+]\s+\[([ xX])\]\s+(.+)$` match: indent width, checkbox
marker, content. -/
def taskMatch (l : List Char) : Option (Nat × Char × List Char) :=
  let ind := l.takeWhile isSpaceJs
  match l.drop ind.length with
  | b :: rest =>
    if b = '-' || b = '*' || b = '+' then
      let sp := rest.takeWhile isSpaceJs
      if sp = [] then none
      else
        match rest.drop sp.length with
        | '[' :: m :: ']' :: rest2 =>
          if m = ' ' || m = 'x' || m = 'X' then
            (wsCapture rest2).map (fun cap => (ind.length, m, cap))
          else none
        | _ => none
    else none
  | [] => none

/-- `^(\s*)[-*+]\s+(.+)$` match: indent width and content. -/
def ulMatch (l : List Char) : Option (Nat × List Char) :=
  let ind := l.takeWhile isSpaceJs
  match l.drop ind.length with
  | b :: rest =>
    if b = '-' || b = '*' || b = '+' then
      (wsCapture rest).map (fun cap => (ind.length, cap))
    else none
  | [] => none

/-- `^(\s*)(\d+)\.\s+(.+)$` match: indent width, number, content. -/
def olMatch (l : List Char) : Option (Nat × Nat × List Char) :=
  let ind := l.takeWhile isSpaceJs
  let rest := l.drop ind.length
  let ds := rest.takeWhile (fun c => '0' ≤ c && c ≤ '9')
  if ds = [] then none
  else
    match rest.drop ds.length with
    | '.' :: rest2 =>
      (wsCapture rest2).map (fun cap => (ind.length, natOfDigits ds, cap))
    | _ => none

/-- `Parser.isBlockElement` (disjunction in source order). -/
def isBlockElement (l : List Char) : Bool :=
  (headingMatch l).isSome || testCodeBlockStart l || (bqMatch l).isSome ||
    testHr l || (ulMatch l).isSome || (olMatch l).isSome || testTable l ||
    (taskMatch l).isSome

/-- `line !== undefined ? ` data-source-line="${line}"` : ''`. -/
def lineAttr : Option Nat → List Char
  | none => []
  | some n => " data-source-line=\"".data ++ natRepr n ++ "\"".data

/-- `Parser.renderCodeBlock` (exact template literal whitespace: a newline
plus 16 spaces before the label, button and pre lines, a newline plus 12
spaces before the closing div). -/
def renderCodeBlock (code lang : List Char) (line : Option Nat) :
    List Char :=
  let langClass := if lang = [] then [] else "language-".data ++ lang
  let langLabel := if lang = [] then [] else
    "<span class=\"code-language\">".data ++ lang ++ "</span>".data
  "<div class=\"code-block-wrapper\"".data ++ lineAttr line ++
    ">\n                ".data ++ langLabel ++
    "\n                <button class=\"copy-code-btn\" type=\"button\" aria-label=\"Copy code\">Copy</button>\n                <pre><code class=\"".data ++
    langClass ++ "\">".data ++ escList code ++
    "</code></pre>\n            </div>".data

/-- `Parser.renderMermaid`: increments the instance's `mermaidId`, then
interpolates `mermaid-${id}` and the escaped code (twice). -/
def renderMermaid (code : List Char) (line : Option Nat) (mid : Nat) :
    List Char × Nat :=
  let mid' := mid + 1
  let e := escList code
  ("<div class=\"mermaid\" id=\"mermaid-".data ++ natRepr mid' ++
    "\" data-mermaid=\"".data ++ e ++ "\"".data ++ lineAttr line ++
    ">".data ++ e ++ "</div>".data, mid')

/-- Alignment of one separator cell (`:--:` center, `--:` right, else
left). -/
def alignOf (cell : List Char) : List Char :=
  let c := trimJs cell
  if c.head? = some ':' && c.getLast? = some ':' then "center".data
  else if c.getLast? = some ':' then "right".data
  else "left".data

/-- Alignments parsed from a separator row:
`row.slice(1, -1).split('|').map(...)`. -/
def alignsOf (row : List Char) : List (List Char) :=
  (splitChar '|' (row.drop 1).dropLast).map alignOf

/-- `alignments[j] ? ` style="text-align: ${alignments[j]}"` : ''`. -/
def alignAttr (aligns : List (List Char)) (j : Nat) : List Char :=
  match aligns[j]? with
  | some a => " style=\"text-align: ".data ++ a ++ "\"".data
  | none => []

/-- The `cells.forEach` loop of `renderTable` (tag is `th` or `td`). -/
def cellsRender (tag : List Char) (aligns : List (List Char)) :
    List (List Char) → Nat → List Char
  | [], _ => []
  | c :: cs, j =>
    "<".data ++ tag ++ alignAttr aligns j ++ ">".data ++ parseInlineL c ++
      "</".data ++ tag ++ ">".data ++ cellsRender tag aligns cs (j + 1)

/-- The row loop of `Parser.renderTable`, carrying the absolute row index,
the `isHeader` flag and the current alignments; `allRows` is the full row
array (for the `rows[1]` and `rows[i + 1]` lookups). Note the source quirk:
a header row emits `<thead><tr>` and then the unconditional `<tr>` again. -/
def renderTableGo (allRows : List (List Char)) :
    List (List Char) → Nat → Bool → List (List Char) → List Char
  | [], _, _, _ => []
  | row :: rest, i, isHeader, aligns =>
    if testTableSeparator row then
      renderTableGo allRows rest (i + 1) false (alignsOf row)
    else
      let cells := (splitChar '|' (row.drop 1).dropLast).map trimJs
      let tag := if isHeader then "th".data else "td".data
      let pre :=
        if isHeader then "<thead><tr>".data
        else if i = 2 ||
            (i = 1 && !testTableSeparator (allRows[1]?.getD [])) then
          "<tbody>".data
        else []
      let post :=
        if isHeader && testTableSeparator (allRows[i + 1]?.getD []) then
          "</thead>".data
        else []
      pre ++ "<tr>".data ++ cellsRender tag aligns cells 0 ++ "</tr>".data ++
        post ++ renderTableGo allRows rest (i + 1) isHeader aligns

/-- `Parser.renderTable`. -/
def renderTable (rows : List (List Char)) (line : Option Nat) : List Char :=
  if rows.length < 2 then []
  else
    "<table".data ++ lineAttr line ++ ">".data ++
      renderTableGo rows rows 0 true [] ++ "</tbody></table>".data

/-- List kind (`listType`: `''`, `'ul'`, `'ol'`, `'task'`). -/
inductive LType
  | empty
  | ul
  | ol
  | task
  deriving DecidableEq, Repr

/-- A pending list item (the object pushed onto `listItems`; ordered lists
also store the parsed number, task items the checkbox state). -/
structure LItem where
  indent : Nat
  content : List Char
  checked : Bool := false
  number : Nat := 0
  line : Nat
  deriving Repr, DecidableEq

/-- The `items.forEach` loop of `Parser.flushList`. -/
def listItemsHtml (type : LType) : List LItem → List Char
  | [] => []
  | it :: rest =>
    (if type = LType.task then
      "<li class=\"task-list-item\"><input type=\"checkbox\"".data ++
        (if it.checked then " checked".data else []) ++ " disabled> ".data ++
        parseInlineL it.content ++ "</li>".data
    else "<li>".data ++ parseInlineL it.content ++ "</li>".data) ++
      listItemsHtml type rest

/-- `Parser.flushList`. -/
def flushList (inList : Bool) (items : List LItem) (type : LType) :
    List Char :=
  if !inList || items = [] then []
  else
    let tag := if type = LType.ol then "ol".data else "ul".data
    let lattr := match items.head? with
      | some it => lineAttr (some it.line)
      | none => []
    "<".data ++ tag ++ lattr ++ ">".data ++ listItemsHtml type items ++
      "</".data ++ tag ++ ">".data

/-- Parser instance state threaded through `parseBlocks`
(`this.mermaidId` and `this.currentBlockStartLine`; the latter starts out
undefined and is shared with nested `parseBlocks` calls). -/
structure PIState where
  mermaidId : Nat
  currentBlockStartLine : Option Nat
  deriving Repr, DecidableEq

/-- The local state of the `parseBlocks` line loop. -/
structure BState where
  html : List Char
  inCodeBlock : Bool
  codeBlockLang : List Char
  codeBlockContent : List Char
  inTable : Bool
  tableRows : List (List Char)
  inBlockquote : Bool
  blockquoteContent : List Char
  inList : Bool
  listItems : List LItem
  listType : LType
  pst : PIState
  deriving Repr, DecidableEq

/-- Fresh loop state at the top of a `parseBlocks` call. -/
def initBState (pst : PIState) : BState :=
  { html := [], inCodeBlock := false, codeBlockLang := [],
    codeBlockContent := [], inTable := false, tableRows := [],
    inBlockquote := false, blockquoteContent := [], inList := false,
    listItems := [], listType := LType.empty, pst := pst }

/-- The paragraph lookahead loop: consume following lines while they are
nonblank and not block elements, appending `' ' + line` to the paragraph;
returns the appended text and the number of lines consumed. -/
def paraCont : List (List Char) → List Char × Nat
  | [] => ([], 0)
  | l :: rest =>
    if trimJs l ≠ [] && !isBlockElement l then
      let (txt, n) := paraCont rest
      (' ' :: l ++ txt, n + 1)
    else ([], 0)

/-- The `while (i < lines.length)` loop of `Parser.parseBlocks`, plus the
trailing flushes, with branches in source order. Fuel is spent once per
iteration and once per nested `parseBlocks` (blockquote flush) call; the
wrapper supplies more than the total number of iterations any input can
cause. `flushBlockquote` is inlined at its call sites because it re-enters
the loop on the collected content (sites inside the code-fence and table
branches pass no line, so no `data-source-line` attribute there). -/
def pbGo : Nat → List (List Char) → Nat → BState → List Char × PIState
  | 0, _, _, st => (st.html, st.pst)
  | fuel + 1, lines, i, st =>
    match lines[i]? with
    | none =>
      let h := st.html ++
        (if st.inCodeBlock then
          renderCodeBlock st.codeBlockContent st.codeBlockLang
            st.pst.currentBlockStartLine
        else []) ++
        (if st.inTable then
          renderTable st.tableRows st.pst.currentBlockStartLine
        else [])
      if st.inBlockquote && st.blockquoteContent ≠ [] then
        let (inner, pst') := pbGo fuel (splitChar '\n' st.blockquoteContent)
          0 (initBState st.pst)
        (h ++ "<blockquote".data ++ lineAttr st.pst.currentBlockStartLine ++
          ">".data ++ inner ++ "</blockquote>".data ++
          flushList st.inList st.listItems st.listType, pst')
      else
        (h ++ flushList st.inList st.listItems st.listType, st.pst)
    | some line =>
      if testCodeBlockStart line && !st.inCodeBlock then
        let (bqH, pst1) :=
          if st.inBlockquote && st.blockquoteContent ≠ [] then
            let (inner, pst') := pbGo fuel
              (splitChar '\n' st.blockquoteContent) 0 (initBState st.pst)
            ("<blockquote>".data ++ inner ++ "</blockquote>".data, pst')
          else ([], st.pst)
        pbGo fuel lines (i + 1)
          { st with
            html := st.html ++ bqH ++
              flushList st.inList st.listItems st.listType,
            inBlockquote := false, blockquoteContent := [],
            inList := false, listItems := [],
            inCodeBlock := true, codeBlockLang := codeFenceLang line,
            codeBlockContent := [],
            pst := { pst1 with currentBlockStartLine := some i } }
      else if testCodeBlockEnd line && st.inCodeBlock then
        if st.codeBlockLang.map toLowerChar = "mermaid".data then
          let (mh, mid') := renderMermaid (trimJs st.codeBlockContent)
            st.pst.currentBlockStartLine st.pst.mermaidId
          pbGo fuel lines (i + 1)
            { st with
              html := st.html ++ mh, inCodeBlock := false,
              codeBlockLang := [], codeBlockContent := [],
              pst := { st.pst with mermaidId := mid' } }
        else
          pbGo fuel lines (i + 1)
            { st with
              html := st.html ++ renderCodeBlock st.codeBlockContent
                st.codeBlockLang st.pst.currentBlockStartLine,
              inCodeBlock := false, codeBlockLang := [],
              codeBlockContent := [] }
      else if st.inCodeBlock then
        pbGo fuel lines (i + 1)
          { st with codeBlockContent := st.codeBlockContent ++
              (if st.codeBlockContent = [] then [] else ['\n']) ++ line }
      else if testTable line then
        let (bqH, pst1) :=
          if st.inBlockquote && st.blockquoteContent ≠ [] then
            let (inner, pst') := pbGo fuel
              (splitChar '\n' st.blockquoteContent) 0 (initBState st.pst)
            ("<blockquote>".data ++ inner ++ "</blockquote>".data, pst')
          else ([], st.pst)
        let h := st.html ++ bqH ++
          flushList st.inList st.listItems st.listType
        if !st.inTable then
          pbGo fuel lines (i + 1)
            { st with
              html := h, inBlockquote := false,
              blockquoteContent := [], inList := false, listItems := [],
              inTable := true, tableRows := [line],
              pst := { pst1 with currentBlockStartLine := some i } }
        else
          pbGo fuel lines (i + 1)
            { st with
              html := h, inBlockquote := false,
              blockquoteContent := [], inList := false, listItems := [],
              tableRows := st.tableRows ++ [line], pst := pst1 }
      else
        let st := if st.inTable then
            { st with
              html := st.html ++ renderTable st.tableRows
                st.pst.currentBlockStartLine,
              inTable := false, tableRows := [] }
          else st
        match bqMatch line with
        | some cap =>
          pbGo fuel lines (i + 1)
            { st with
              html := st.html ++ flushList st.inList st.listItems st.listType,
              inList := false, listItems := [],
              inBlockquote := true,
              blockquoteContent := st.blockquoteContent ++
                (if st.blockquoteContent = [] then [] else ['\n']) ++ cap,
              pst := if !st.inBlockquote then
                  { st.pst with currentBlockStartLine := some i }
                else st.pst }
        | none =>
          let st :=
            if st.inBlockquote then
              let (fh, pst') :=
                if st.blockquoteContent ≠ [] then
                  let (inner, pstI) := pbGo fuel
                    (splitChar '\n' st.blockquoteContent) 0
                    (initBState st.pst)
                  ("<blockquote".data ++
                    lineAttr st.pst.currentBlockStartLine ++ ">".data ++
                    inner ++ "</blockquote>".data, pstI)
                else ([], st.pst)
              { st with
                html := st.html ++ fh, inBlockquote := false,
                blockquoteContent := [], pst := pst' }
            else st
          match headingMatch line with
          | some (level, cap) =>
            let id := slugify cap
            pbGo fuel lines (i + 1)
              { st with
                html := st.html ++
                  flushList st.inList st.listItems st.listType ++
                  "<h".data ++ natRepr level ++ " id=\"".data ++ id ++
                  "\"".data ++ lineAttr (some i) ++
                  "><a class=\"heading-anchor\" href=\"#".data ++ id ++
                  "\">#</a>".data ++ parseInlineL cap ++ "</h".data ++
                  natRepr level ++ ">".data,
                inList := false, listItems := [] }
          | none =>
            if testHr line then
              pbGo fuel lines (i + 1)
                { st with
                  html := st.html ++
                    flushList st.inList st.listItems st.listType ++
                    "<hr".data ++ lineAttr (some i) ++ ">".data,
                  inList := false, listItems := [] }
            else
              match taskMatch line with
              | some (ind, m, cap) =>
                let (h, items) :=
                  if !st.inList || st.listType ≠ LType.task then
                    (st.html ++ flushList st.inList st.listItems st.listType,
                      ([] : List LItem))
                  else (st.html, st.listItems)
                pbGo fuel lines (i + 1)
                  { st with
                    html := h, inList := true, listType := LType.task,
                    listItems := items ++
                      [{ indent := ind, content := cap,
                         checked := toLowerChar m = 'x', line := i }] }
              | none =>
                match ulMatch line with
                | some (ind, cap) =>
                  let (h, items) :=
                    if !st.inList || st.listType ≠ LType.ul then
                      (st.html ++
                        flushList st.inList st.listItems st.listType,
                        ([] : List LItem))
                    else (st.html, st.listItems)
                  pbGo fuel lines (i + 1)
                    { st with
                      html := h, inList := true, listType := LType.ul,
                      listItems := items ++
                        [{ indent := ind, content := cap, line := i }] }
                | none =>
                  match olMatch line with
                  | some (ind, num, cap) =>
                    let (h, items) :=
                      if !st.inList || st.listType ≠ LType.ol then
                        (st.html ++
                          flushList st.inList st.listItems st.listType,
                          ([] : List LItem))
                      else (st.html, st.listItems)
                    pbGo fuel lines (i + 1)
                      { st with
                        html := h, inList := true, listType := LType.ol,
                        listItems := items ++
                          [{ indent := ind, content := cap, number := num,
                             line := i }] }
                  | none =>
                    let st := if st.inList then
                        { st with
                          html := st.html ++
                            flushList true st.listItems st.listType,
                          inList := false, listItems := [] }
                      else st
                    if trimJs line = [] then pbGo fuel lines (i + 1) st
                    else
                      let (ext, n) := paraCont (lines.drop (i + 1))
                      pbGo fuel lines (i + 1 + n)
                        { st with
                          html := st.html ++ "<p".data ++
                            lineAttr (some i) ++ ">".data ++
                            parseInlineL (line ++ ext) ++ "</p>".data }

/-- `Parser.parseBlocks` on a character list, threading the instance
state; the fuel bound `(length + 2)^2` dominates the loop iterations of
the parse and of every nested blockquote parse (each nesting level strips
at least one character per line). -/
def parseBlocksL (md : List Char) (pst : PIState) : List Char × PIState :=
  pbGo ((md.length + 2) * (md.length + 2)) (splitChar '\n' md) 0
    (initBState pst)

/-- `Parser.parseBlocks` as called on a fresh `Parser` instance. -/
def parseBlocks (md : String) : String :=
  ⟨(parseBlocksL md.data
      { mermaidId := 0, currentBlockStartLine := none }).1⟩

/-- First occurrence of the (lowercase, case-insensitively matched)
pattern `cls`: returns the suffix after it, if any. -/
def findCI (cls : List Char) : Nat → List Char → Option (List Char)
  | 0, _ => none
  | _ + 1, [] => none
  | fuel + 1, l@(_ :: rest) =>
    if lowerTake cls l then some (l.drop cls.length)
    else findCI cls fuel rest

/-- One `html.replace(/<tag[\s\S]*?<\/tag>/gi, '')` pass: at a
case-insensitive occurrence of `opn`, everything through the first
case-insensitive occurrence of `cls` is removed; an unclosed `opn` does not
match and the scan advances one character. -/
def stripTagGo (opn cls : List Char) : Nat → List Char → List Char
  | 0, l => l
  | _ + 1, [] => []
  | fuel + 1, l@(c :: rest) =>
    if lowerTake opn l then
      match findCI cls (rest.length + 1) (l.drop opn.length) with
      | some after => stripTagGo opn cls fuel after
      | none => c :: stripTagGo opn cls fuel rest
    else c :: stripTagGo opn cls fuel rest

/-- `html.replace(/<embed[\s\S]*?>/gi, '')`: from `<embed` through the
first following `>`. -/
def stripEmbedGo : Nat → List Char → List Char
  | 0, l => l
  | _ + 1, [] => []
  | fuel + 1, l@(c :: rest) =>
    if lowerTake "<embed".data l then
      match (l.drop 6).dropWhile (· ≠ '>') with
      | _ :: after => stripEmbedGo fuel after
      | [] => c :: stripEmbedGo fuel rest
    else c :: stripEmbedGo fuel rest

/-- `html.replace(/on\w+\s*=/gi, 'data-blocked-event=')`: `on`, at least
one word character, optional whitespace, `=`. -/
def onEventGo : Nat → List Char → List Char
  | 0, l => l
  | _ + 1, [] => []
  | fuel + 1, c :: rest =>
    if (c = 'o' || c = 'O') &&
        rest.head?.elim false (fun d => d = 'n' || d = 'N') then
      let w := rest.tail.takeWhile isWordChar
      if w = [] then c :: onEventGo fuel rest
      else
        match (rest.tail.drop w.length).dropWhile isSpaceJs with
        | '=' :: tail => "data-blocked-event=".data ++ onEventGo fuel tail
        | _ => c :: onEventGo fuel rest
    else c :: onEventGo fuel rest

/-- `html.replace(/javascript:/gi, 'blocked:')`. -/
def jsProtoGo : Nat → List Char → List Char
  | 0, l => l
  | _ + 1, [] => []
  | fuel + 1, l@(c :: rest) =>
    if lowerTake "javascript:".data l then
      "blocked:".data ++ jsProtoGo fuel (l.drop 11)
    else c :: jsProtoGo fuel rest

/-- The regex-strip fallback branch of `Parser.sanitize` (the seven
replaces in source order). -/
def sanitizeFallback (html : List Char) : List Char :=
  let t := stripTagGo "<script".data "</script>".data (html.length + 1) html
  let t := stripTagGo "<style".data "</style>".data (t.length + 1) t
  let t := stripTagGo "<iframe".data "</iframe>".data (t.length + 1) t
  let t := stripTagGo "<object".data "</object>".data (t.length + 1) t
  let t := stripEmbedGo (t.length + 1) t
  let t := onEventGo (t.length + 1) t
  jsProtoGo (t.length + 1) t

/-- `Parser.sanitize`: when the DOMPurify collaborator is present its
`sanitize` is applied (modelled as an arbitrary function, since DOMPurify
is an external library); otherwise the regex-strip fallback runs. -/
def sanitize (purify : Option (List Char → List Char))
    (html : List Char) : List Char :=
  match purify with
  | some f => f html
  | none => sanitizeFallback html

/-- `markdown.replace(/\r\n/g, '\n')`. -/
def normCRLF : List Char → List Char
  | '\r' :: '\n' :: rest => '\n' :: normCRLF rest
  | c :: rest => c :: normCRLF rest
  | [] => []

/-- Line-ending normalization in `Parser.parse` (`\r\n` then lone `\r`). -/
def normalizeNl (l : List Char) : List Char :=
  (normCRLF l).map (fun c => if c = '\r' then '\n' else c)

/-- `new Blob([markdown]).size`: the UTF-8 byte length. -/
def utf8Len (l : List Char) : Nat :=
  l.foldl (fun a c => a + c.utf8Size) 0

/-- `Parser.parse` on a fresh instance, with the sanitizer collaborator as
a parameter (`some f` models DOMPurify present with `DOMPurify.sanitize`
behaving as `f`; `none` is the fallback path). -/
def parseWith (purify : Option (List Char → List Char))
    (markdown : String) : String :=
  let md := markdown.data
  if md = [] then ""
  else if utf8Len md > 10 * 1024 * 1024 then
    "<div class=\"error\">Document exceeds maximum size (10MB)</div>"
  else
    let md := normalizeNl md
    ⟨sanitize purify
      (parseBlocksL md { mermaidId := 0, currentBlockStartLine := none }).1⟩

/-- `Parser.parse` when DOMPurify is unavailable (the fallback branch). -/
def parse (markdown : String) : String := parseWith none markdown

/-- The claim-C4 input: a table whose rows are immediately followed by a
fenced code block. -/
def c4Input : String := "|a|b|\n|-|-|\n|1|2|\n```js\nx\n```\nend"

/-- The code block rendered from lines 3-5 of `c4Input`. -/
def c4CodeBlockHtml : String :=
  "<div class=\"code-block-wrapper\" data-source-line=\"3\">\n                <span class=\"code-language\">js</span>\n                <button class=\"copy-code-btn\" type=\"button\" aria-label=\"Copy code\">Copy</button>\n                <pre><code class=\"language-js\">x</code></pre>\n            </div>"

/-- The table rendered from lines 0-2 of `c4Input` — carrying
`data-source-line="3"`, the code fence's line, not its own. -/
def c4TableHtml : String :=
  "<table data-source-line=\"3\"><thead><tr><tr><th>a</th><th>b</th></tr></thead><tbody><tr><td style=\"text-align: left\">1</td><td style=\"text-align: left\">2</td></tr></tbody></table>"

/-- C3: `Parser.parseInline` does not escape exactly once: for the text run
`$a<b$` the math pass re-escapes the already-escaped capture, so the
original `<` surfaces as the double-escaped `&amp;lt;` (in both the
`data-math` attribute and the span body) instead of `&lt;`. This refutes
the claimed escape-exactly-once invariant on the math placeholder path
(`parseMathInline` calls `escapeHtml` on a capture taken from text that
`parseInline` had already escaped). -/
theorem parseInline_math_double_escape :
    parseInline "$a<b$" =
      "<span class=\"math-inline\" data-math=\"a&amp;lt;b\">a&amp;lt;b</span>" := by
  decide

set_option maxRecDepth 80000 in
/-- C4: `Parser.parseBlocks` does not emit blocks in document order. On
`c4Input` the table occupies source lines 0-2 and the fenced code block
lines 3-5, yet the output places the code block first: the code-fence
branch flushes pending blockquotes and lists but not an open table, so the
table is flushed only after the fence closes — and with
`data-source-line="3"` (the fence's start line overwrote
`currentBlockStartLine`), so its source range is wrong as well. -/
theorem parseBlocks_table_emitted_after_fence :
    parseBlocks c4Input =
      c4CodeBlockHtml ++ c4TableHtml ++ "<p data-source-line=\"6\">end</p>" := by
  decide

/-- Case-insensitive substring test: `pat` (given lowercase) occurs in `l`
matched through `toLowerChar` (a regex `/pat/i` `.test`). -/
def hasCI (pat : List Char) : List Char → Bool
  | [] => lowerTake pat []
  | l@(_ :: rest) => lowerTake pat l || hasCI pat rest

/-- `Char.ofNat` round-trips on valid (below-surrogate) code points. -/
theorem toNat_ofNat_valid {m : Nat} (h1 : m < 55296) :
    (Char.ofNat m).toNat = m := by
  unfold Char.ofNat
  rw [dif_pos (Or.inl h1)]
  unfold Char.ofNatAux Char.toNat
  simp [UInt32.toNat, BitVec.toNat_ofNatLt]

/-- Characters with equal code points are equal. -/
theorem char_toNat_inj {a b : Char} (h : a.toNat = b.toNat) : a = b := by
  apply Char.ext
  exact UInt32.ext h

/-- The character order is the code-point order. -/
theorem char_le_iff {a b : Char} : a ≤ b ↔ a.toNat ≤ b.toNat := by
  rw [Char.le_def, UInt32.le_def, BitVec.le_def]
  rfl

/-- A lowercase image that is not a lowercase letter was not produced by
case-mapping: the character already was the image. -/
theorem toLowerChar_eq_nonletter {c x : Char}
    (hx : ¬('a' ≤ x ∧ x ≤ 'z')) (h : toLowerChar c = x) : c = x := by
  simp only [toLowerChar, Char.toLower] at h
  split_ifs at h with hc
  · exfalso
    apply hx
    have h2 := congrArg Char.toNat h
    rw [toNat_ofNat_valid (by omega)] at h2
    have ha : ('a' : Char).toNat = 97 := rfl
    have hz : ('z' : Char).toNat = 122 := rfl
    constructor <;> rw [char_le_iff] <;> omega
  · exact h

/-- A character whose lowercase image is a letter is a word character. -/
theorem isWordChar_of_toLower {c x : Char} (h1 : 'a' ≤ x) (h2 : x ≤ 'z')
    (h : toLowerChar c = x) : isWordChar c = true := by
  simp only [toLowerChar, Char.toLower] at h
  rw [char_le_iff] at h1 h2
  have ha : ('a' : Char).toNat = 97 := rfl
  have hz : ('z' : Char).toNat = 122 := rfl
  have hA : ('A' : Char).toNat = 65 := rfl
  have hZ : ('Z' : Char).toNat = 90 := rfl
  split_ifs at h with hc
  · have h2' := congrArg Char.toNat h
    rw [toNat_ofNat_valid (by omega)] at h2'
    have hcA : 'A' ≤ c := by rw [char_le_iff]; omega
    have hcZ : c ≤ 'Z' := by rw [char_le_iff]; omega
    simp [isWordChar, hcA, hcZ]
  · subst h
    have hcA : 'a' ≤ c := by rw [char_le_iff]; omega
    have hcZ : c ≤ 'z' := by rw [char_le_iff]; omega
    simp [isWordChar, hcA, hcZ]

/-- Preimages of `o` under `toLowerChar`. -/
theorem toLower_eq_o {c : Char} (h : toLowerChar c = 'o') :
    c = 'o' ∨ c = 'O' := by
  simp only [toLowerChar, Char.toLower] at h
  split_ifs at h with hc
  · right
    have h2 := congrArg Char.toNat h
    rw [toNat_ofNat_valid (by omega)] at h2
    apply char_toNat_inj
    have h3 : c.toNat + 32 = 111 := by simpa using h2
    have hO : ('O' : Char).toNat = 79 := rfl
    omega
  · exact Or.inl h

/-- Preimages of `n` under `toLowerChar`. -/
theorem toLower_eq_n {c : Char} (h : toLowerChar c = 'n') :
    c = 'n' ∨ c = 'N' := by
  simp only [toLowerChar, Char.toLower] at h
  split_ifs at h with hc
  · right
    have h2 := congrArg Char.toNat h
    rw [toNat_ofNat_valid (by omega)] at h2
    apply char_toNat_inj
    have h3 : c.toNat + 32 = 110 := by simpa using h2
    have hN : ('N' : Char).toNat = 78 := rfl
    omega
  · exact Or.inl h

/-- `lowerTake` on an empty text only accepts the empty pattern. -/
theorem lowerTake_nil {pat : List Char} (h : lowerTake pat [] = true) :
    pat = [] := by
  simpa [lowerTake] using h.symm

/-- `lowerTake` unfolding on cons/cons. -/
theorem lowerTake_cons {p0 : Char} {p' : List Char} {c : Char}
    {t : List Char} :
    lowerTake (p0 :: p') (c :: t) = true ↔
      (toLowerChar c = p0 ∧ lowerTake p' t = true) := by
  simp [lowerTake]

/-- A pattern no longer than the first summand ignores the second. -/
theorem lowerTake_append_long {p a b : List Char}
    (h : p.length ≤ a.length) :
    lowerTake p (a ++ b) = lowerTake p a := by
  unfold lowerTake
  rw [List.take_append_of_le_length h]

/-- Splitting a `lowerTake` across an append shorter than the pattern. -/
theorem lowerTake_append_split {p a b : List Char}
    (h : a.length < p.length) (ht : lowerTake p (a ++ b) = true) :
    a.map toLowerChar = p.take a.length ∧
      lowerTake (p.drop a.length) b = true := by
  unfold lowerTake at ht
  rw [List.take_append_eq_append_take, List.take_of_length_le (le_of_lt h),
    List.map_append] at ht
  have hteq := of_decide_eq_true ht
  constructor
  · have h1 := congrArg (List.take a.length) hteq
    rwa [List.take_append_of_le_length (by simp), List.take_of_length_le
      (by simp)] at h1
  · have h2 := congrArg (List.drop a.length) hteq
    rw [List.drop_append_of_le_length (by simp), List.drop_of_length_le
      (by simp), List.nil_append] at h2
    unfold lowerTake
    rw [List.length_drop]
    exact decide_eq_true h2

/-- No occurrence of pattern `p` can begin inside segment `r` (not even one
extending past `r`'s end): every suffix of `r` either refutes `p` outright
or is inconsistent with the corresponding prefix of `p`. -/
def safeSeg (p : List Char) : List Char → Bool
  | [] => true
  | r@(_ :: rest) =>
    (if p.length ≤ r.length then !(lowerTake p r)
     else !(decide (r.map toLowerChar = p.take r.length))) && safeSeg p rest

/-- `hasCI` unfolding on cons. -/
theorem hasCI_cons {p : List Char} {c : Char} {t : List Char} :
    hasCI p (c :: t) = (lowerTake p (c :: t) || hasCI p t) := rfl

/-- `hasCI` is monotone under dropping a head. -/
theorem hasCI_tail {p : List Char} {c : Char} {t : List Char}
    (h : hasCI p (c :: t) = false) : hasCI p t = false := by
  rw [hasCI_cons, Bool.or_eq_false_iff] at h
  exact h.2

/-- `hasCI` is monotone under `drop`. -/
theorem hasCI_drop {p l : List Char} (h : hasCI p l = false) (n : Nat) :
    hasCI p (l.drop n) = false := by
  induction l generalizing n with
  | nil => simpa using h
  | cons c t ih =>
    cases n with
    | zero => exact h
    | succ m => exact ih (hasCI_tail h) m

/-- `hasCI` is monotone under `dropWhile`. -/
theorem hasCI_dropWhile {p l : List Char} {q : Char → Bool}
    (h : hasCI p l = false) : hasCI p (l.dropWhile q) = false := by
  induction l with
  | nil => simpa using h
  | cons c t ih =>
    rw [List.dropWhile_cons]
    split
    · exact ih (hasCI_tail h)
    · exact h

/-- `hasCI` is monotone under `take`: a full pattern occurrence inside a
prefix is an occurrence in the whole list. -/
theorem hasCI_take {p l : List Char} (h : hasCI p l = false) (n : Nat) :
    hasCI p (l.take n) = false := by
  induction l generalizing n with
  | nil => simpa using h
  | cons c t ih =>
    cases n with
    | zero =>
      cases hp : lowerTake p [] with
      | false => simp [hasCI, hp]
      | true =>
        have := lowerTake_nil hp
        subst this
        simp [hasCI, lowerTake] at h
    | succ m =>
      rw [List.take_succ_cons, hasCI_cons, Bool.or_eq_false_iff]
      refine ⟨?_, ih (hasCI_tail h) m⟩
      rw [hasCI_cons, Bool.or_eq_false_iff] at h
      cases hlt : lowerTake p (c :: t.take m) with
      | false => rfl
      | true =>
        exfalso
        rcases p with _ | ⟨p0, p'⟩
        · rw [show lowerTake [] (c :: t) = true from rfl] at h
          exact absurd h.1 (by simp)
        · rw [lowerTake_cons] at hlt
          have h2 : lowerTake (p0 :: p') (c :: t) = true := by
            rw [lowerTake_cons]
            refine ⟨hlt.1, ?_⟩
            have := hlt.2
            by_cases hlen : p'.length ≤ m
            · unfold lowerTake at this ⊢
              rwa [List.take_take, min_eq_left hlen] at this
            · -- the truncated take is shorter than the pattern: lengths differ
              exfalso
              have hlen2 := congrArg List.length (of_decide_eq_true this)
              simp [List.length_take] at hlen2
              omega
          exact absurd h2 (by simpa using h.1)

/-- Gluing lemma: occurrences cannot begin inside a `safeSeg`-checked
segment and the remainder is occurrence-free, so the concatenation is
occurrence-free. -/
theorem hasCI_append_of_safeSeg {p r X : List Char}
    (hs : safeSeg p r = true) (hX : hasCI p X = false) :
    hasCI p (r ++ X) = false := by
  induction r with
  | nil => simpa using hX
  | cons d r' ih =>
    rw [show safeSeg p (d :: r') =
        ((if p.length ≤ (d :: r').length then !(lowerTake p (d :: r'))
          else !(decide ((d :: r').map toLowerChar =
            p.take (d :: r').length))) && safeSeg p r') from rfl,
      Bool.and_eq_true] at hs
    obtain ⟨hhead, hs'⟩ := hs
    rw [List.cons_append, hasCI_cons, Bool.or_eq_false_iff]
    refine ⟨?_, ih hs'⟩
    by_cases hlen : p.length ≤ (d :: r').length
    · rw [← List.cons_append, lowerTake_append_long hlen]
      rw [if_pos hlen] at hhead
      simpa using hhead
    · rw [if_neg hlen] at hhead
      push_neg at hlen
      cases hlt : lowerTake p ((d :: r') ++ X) with
      | false => rw [List.cons_append] at hlt; exact hlt
      | true =>
        exfalso
        have := (lowerTake_append_split hlen hlt).1
        simp only [Bool.not_eq_true', decide_eq_false_iff_not] at hhead
        exact hhead this

/-- An occurrence-free text stays occurrence-free after prepending a
segment whose characters never lower to the pattern's head. -/
theorem hasCI_append_headFree {p0 : Char} {p' r X : List Char}
    (hr : ∀ c ∈ r, toLowerChar c ≠ p0) (hX : hasCI (p0 :: p') X = false) :
    hasCI (p0 :: p') (r ++ X) = false := by
  induction r with
  | nil => simpa using hX
  | cons d r' ih =>
    rw [List.cons_append, hasCI_cons, Bool.or_eq_false_iff]
    refine ⟨?_, ih (fun c hc => hr c (List.mem_cons_of_mem _ hc))⟩
    cases hlt : lowerTake (p0 :: p') (d :: (r' ++ X)) with
    | false => rfl
    | true =>
      exact absurd (lowerTake_cons.mp hlt).1 (hr d (List.mem_cons_self _ _))

/-- `hasCI` of a nonempty pattern on the empty text is false. -/
theorem hasCI_nil {p0 : Char} {p' : List Char} :
    hasCI (p0 :: p') [] = false := by
  simp [hasCI, lowerTake]

/-- A strip pass whose opening pattern never occurs is the identity. -/
theorem stripTagGo_id {opn cls : List Char} :
    ∀ fuel l, hasCI opn l = false → stripTagGo opn cls fuel l = l := by
  intro fuel
  induction fuel with
  | zero => intro l _; rfl
  | succ f ih =>
    intro l h
    cases l with
    | nil => rfl
    | cons c rest =>
      have hne : lowerTake opn (c :: rest) = false := by
        rw [hasCI_cons, Bool.or_eq_false_iff] at h
        exact h.1
      simp [stripTagGo, hne, ih rest (hasCI_tail h)]

/-- The `<embed` strip pass is the identity when `<embed` never occurs. -/
theorem stripEmbedGo_id :
    ∀ fuel l, hasCI "<embed".data l = false → stripEmbedGo fuel l = l := by
  intro fuel
  induction fuel with
  | zero => intro l _; rfl
  | succ f ih =>
    intro l h
    cases l with
    | nil => rfl
    | cons c rest =>
      have hne : lowerTake "<embed".data (c :: rest) = false := by
        rw [hasCI_cons, Bool.or_eq_false_iff] at h
        exact h.1
      simp [stripEmbedGo, hne, ih rest (hasCI_tail h)]

/-- A `lowerTake`-prefix of `jsProtoGo` output whose pattern avoids `b`
reflects to the input (insertions start with `b`, copies are verbatim). -/
theorem jsProtoGo_reflect :
    ∀ fuel (X q : List Char), 'b' ∉ q →
      lowerTake q (jsProtoGo fuel X) = true → lowerTake q X = true := by
  intro fuel
  induction fuel with
  | zero => intro X q _ h; exact h
  | succ f ih =>
    intro X q hb h
    cases X with
    | nil => simpa using h
    | cons c rest =>
      by_cases hm : lowerTake "javascript:".data (c :: rest) = true
      · rw [show jsProtoGo (f + 1) (c :: rest) =
            "blocked:".data ++ jsProtoGo f ((c :: rest).drop 11) from by
          simp [jsProtoGo, hm]] at h
        cases q with
        | nil => simp [lowerTake]
        | cons q0 q' =>
          exfalso
          have h1 := (lowerTake_cons.mp h).1
          have : q0 = 'b' := by simpa using h1.symm
          exact hb (this ▸ List.mem_cons_self _ _)
      · rw [show jsProtoGo (f + 1) (c :: rest) =
            c :: jsProtoGo f rest from by simp [jsProtoGo, hm]] at h
        cases q with
        | nil => simp [lowerTake]
        | cons q0 q' =>
          rw [lowerTake_cons] at h ⊢
          exact ⟨h.1, ih rest q'
            (fun hq => hb (List.mem_cons_of_mem _ hq)) h.2⟩

/-- The `javascript:` replace pass leaves no `javascript:` occurrence. -/
theorem jsProtoGo_kill :
    ∀ fuel X, X.length < fuel →
      hasCI "javascript:".data (jsProtoGo fuel X) = false := by
  intro fuel
  induction fuel with
  | zero => intro X h; exact absurd h (by omega)
  | succ f ih =>
    intro X h
    cases X with
    | nil =>
      rw [show jsProtoGo (f + 1) [] = [] from rfl]
      decide
    | cons c rest =>
      by_cases hm : lowerTake "javascript:".data (c :: rest) = true
      · rw [show jsProtoGo (f + 1) (c :: rest) =
            "blocked:".data ++ jsProtoGo f ((c :: rest).drop 11) from by
          simp [jsProtoGo, hm]]
        refine hasCI_append_of_safeSeg (by decide) (ih _ ?_)
        simp only [List.length_drop, List.length_cons] at h ⊢
        omega
      · rw [show jsProtoGo (f + 1) (c :: rest) =
            c :: jsProtoGo f rest from by simp [jsProtoGo, hm]]
        rw [hasCI_cons, Bool.or_eq_false_iff]
        refine ⟨?_, ih rest (by simp at h ⊢; omega)⟩
        cases hlt : lowerTake "javascript:".data
            (c :: jsProtoGo f rest) with
        | false => rfl
        | true =>
          exfalso
          rw [show "javascript:".data = 'j' :: "avascript:".data from rfl,
            lowerTake_cons] at hlt
          have h2 := jsProtoGo_reflect f rest "avascript:".data
            (by decide) hlt.2
          exact hm (by
            rw [show "javascript:".data = 'j' :: "avascript:".data from rfl,
              lowerTake_cons]
            exact ⟨hlt.1, h2⟩)

/-- The `javascript:` replace pass cannot create an occurrence of a
pattern avoiding `b` whose occurrences were absent. -/
theorem jsProtoGo_preserve {p0 : Char} {p' : List Char}
    (hb : 'b' ∉ (p0 :: p'))
    (hs : safeSeg (p0 :: p') "blocked:".data = true) :
    ∀ fuel X, hasCI (p0 :: p') X = false →
      hasCI (p0 :: p') (jsProtoGo fuel X) = false := by
  intro fuel
  induction fuel with
  | zero => intro X hX; exact hX
  | succ f ih =>
    intro X hX
    cases X with
    | nil => exact hX
    | cons c rest =>
      by_cases hm : lowerTake "javascript:".data (c :: rest) = true
      · rw [show jsProtoGo (f + 1) (c :: rest) =
            "blocked:".data ++ jsProtoGo f ((c :: rest).drop 11) from by
          simp [jsProtoGo, hm]]
        exact hasCI_append_of_safeSeg hs (ih _ (hasCI_drop hX 11))
      · rw [show jsProtoGo (f + 1) (c :: rest) =
            c :: jsProtoGo f rest from by simp [jsProtoGo, hm]]
        rw [hasCI_cons, Bool.or_eq_false_iff]
        refine ⟨?_, ih rest (hasCI_tail hX)⟩
        cases hlt : lowerTake (p0 :: p') (c :: jsProtoGo f rest) with
        | false => rfl
        | true =>
          exfalso
          rw [lowerTake_cons] at hlt
          have h2 := jsProtoGo_reflect f rest p'
            (fun hq => hb (List.mem_cons_of_mem _ hq)) hlt.2
          have h3 : lowerTake (p0 :: p') (c :: rest) = true := by
            rw [lowerTake_cons]; exact ⟨hlt.1, h2⟩
          rw [hasCI_cons, Bool.or_eq_false_iff] at hX
          exact absurd h3 (by simp [hX.1])

/-- Unfolding `onEventGo` one step. -/
theorem onEventGo_succ_eq (fuel : Nat) (c : Char) (rest : List Char) :
    onEventGo (fuel + 1) (c :: rest) =
      if ((c = 'o' || c = 'O') &&
          rest.head?.elim false (fun d => d = 'n' || d = 'N')) = true then
        if rest.tail.takeWhile isWordChar = [] then c :: onEventGo fuel rest
        else
          match (rest.tail.drop
              (rest.tail.takeWhile isWordChar).length).dropWhile isSpaceJs with
          | '=' :: tail => "data-blocked-event=".data ++ onEventGo fuel tail
          | _ => c :: onEventGo fuel rest
      else c :: onEventGo fuel rest := rfl

/-- A case-insensitive `onerror=` occurrence at the head of the input
makes the `on\w+\s*=` scanner match there: the head pair is `on`, the
word run is nonempty, and after it (no whitespace) comes `=`. -/
theorem onEvent_match_of_occurrence {c : Char} {rest : List Char}
    (hlt : lowerTake "onerror=".data (c :: rest) = true) :
    ((c = 'o' || c = 'O') &&
        rest.head?.elim false (fun d => d = 'n' || d = 'N')) = true ∧
      rest.tail.takeWhile isWordChar ≠ [] ∧
      ∃ t, (rest.tail.drop
        (rest.tail.takeWhile isWordChar).length).dropWhile isSpaceJs =
          '=' :: t := by
  rw [show "onerror=".data =
    'o' :: 'n' :: 'e' :: 'r' :: 'r' :: 'o' :: 'r' :: '=' :: [] from rfl] at hlt
  rw [lowerTake_cons] at hlt
  obtain ⟨hc, hlt⟩ := hlt
  rcases rest with _ | ⟨c1, rest⟩
  · exact absurd (lowerTake_nil hlt) (by simp)
  rw [lowerTake_cons] at hlt
  obtain ⟨h1, hlt⟩ := hlt
  rcases rest with _ | ⟨c2, rest⟩
  · exact absurd (lowerTake_nil hlt) (by simp)
  rw [lowerTake_cons] at hlt
  obtain ⟨h2, hlt⟩ := hlt
  rcases rest with _ | ⟨c3, rest⟩
  · exact absurd (lowerTake_nil hlt) (by simp)
  rw [lowerTake_cons] at hlt
  obtain ⟨h3, hlt⟩ := hlt
  rcases rest with _ | ⟨c4, rest⟩
  · exact absurd (lowerTake_nil hlt) (by simp)
  rw [lowerTake_cons] at hlt
  obtain ⟨h4, hlt⟩ := hlt
  rcases rest with _ | ⟨c5, rest⟩
  · exact absurd (lowerTake_nil hlt) (by simp)
  rw [lowerTake_cons] at hlt
  obtain ⟨h5, hlt⟩ := hlt
  rcases rest with _ | ⟨c6, rest⟩
  · exact absurd (lowerTake_nil hlt) (by simp)
  rw [lowerTake_cons] at hlt
  obtain ⟨h6, hlt⟩ := hlt
  rcases rest with _ | ⟨c7, rest⟩
  · exact absurd (lowerTake_nil hlt) (by simp)
  rw [lowerTake_cons] at hlt
  obtain ⟨h7, _⟩ := hlt
  have hw2 : isWordChar c2 = true := isWordChar_of_toLower (by decide) (by decide) h2
  have hw3 : isWordChar c3 = true := isWordChar_of_toLower (by decide) (by decide) h3
  have hw4 : isWordChar c4 = true := isWordChar_of_toLower (by decide) (by decide) h4
  have hw5 : isWordChar c5 = true := isWordChar_of_toLower (by decide) (by decide) h5
  have hw6 : isWordChar c6 = true := isWordChar_of_toLower (by decide) (by decide) h6
  have heq7 : c7 = '=' := toLowerChar_eq_nonletter (by decide) h7
  subst heq7
  constructor
  · rcases toLower_eq_o hc with h | h <;> rcases toLower_eq_n h1 with h' | h' <;>
      simp [h, h']
  constructor
  · simp [List.takeWhile_cons, hw2]
  · refine ⟨rest, ?_⟩
    simp [List.takeWhile_cons, hw2, hw3, hw4, hw5, hw6,
      show isWordChar '=' = false from rfl,
      show isSpaceJs '=' = false from rfl, List.dropWhile]

/-- A `lowerTake`-prefix of `onEventGo` output whose pattern avoids `d`
reflects to the input. -/
theorem onEventGo_reflect :
    ∀ fuel (X q : List Char), 'd' ∉ q →
      lowerTake q (onEventGo fuel X) = true → lowerTake q X = true := by
  intro fuel
  induction fuel with
  | zero => intro X q _ h; exact h
  | succ f ih =>
    intro X q hd h
    cases X with
    | nil => simpa using h
    | cons c rest =>
      rw [onEventGo_succ_eq] at h
      split_ifs at h with h1 h2
      · cases q with
        | nil => simp [lowerTake]
        | cons q0 q' =>
          rw [lowerTake_cons] at h ⊢
          exact ⟨h.1, ih rest q'
            (fun hq => hd (List.mem_cons_of_mem _ hq)) h.2⟩
      · split at h
        · cases q with
          | nil => simp [lowerTake]
          | cons q0 q' =>
            exfalso
            have h1' := (lowerTake_cons.mp h).1
            have : q0 = 'd' := by simpa using h1'.symm
            exact hd (this ▸ List.mem_cons_self _ _)
        · cases q with
          | nil => simp [lowerTake]
          | cons q0 q' =>
            rw [lowerTake_cons] at h ⊢
            exact ⟨h.1, ih rest q'
              (fun hq => hd (List.mem_cons_of_mem _ hq)) h.2⟩
      · cases q with
        | nil => simp [lowerTake]
        | cons q0 q' =>
          rw [lowerTake_cons] at h ⊢
          exact ⟨h.1, ih rest q'
            (fun hq => hd (List.mem_cons_of_mem _ hq)) h.2⟩

/-- `dropWhile` never lengthens a list. -/
theorem length_dropWhile_le (q : Char → Bool) (l : List Char) :
    (l.dropWhile q).length ≤ l.length := by
  induction l with
  | nil => simp
  | cons c t ih =>
    rw [List.dropWhile_cons]
    split
    · exact le_trans ih (by simp)
    · simp

/-- The event-handler replace pass leaves no `onerror=` occurrence. -/
theorem onEventGo_kill :
    ∀ fuel X, X.length < fuel →
      hasCI "onerror=".data (onEventGo fuel X) = false := by
  intro fuel
  induction fuel with
  | zero => intro X h; exact absurd h (by omega)
  | succ f ih =>
    intro X h
    cases X with
    | nil =>
      rw [show onEventGo (f + 1) [] = [] from rfl]
      decide
    | cons c rest =>
      rw [onEventGo_succ_eq]
      split_ifs with h1 h2
      · rw [hasCI_cons, Bool.or_eq_false_iff]
        refine ⟨?_, ih rest (by simp at h ⊢; omega)⟩
        cases hlt : lowerTake "onerror=".data (c :: onEventGo f rest) with
        | false => rfl
        | true =>
          exfalso
          rw [show "onerror=".data = 'o' :: "nerror=".data from rfl,
            lowerTake_cons] at hlt
          have href := onEventGo_reflect f rest "nerror=".data
            (by decide) hlt.2
          have hocc : lowerTake "onerror=".data (c :: rest) = true := by
            rw [show "onerror=".data = 'o' :: "nerror=".data from rfl,
              lowerTake_cons]
            exact ⟨hlt.1, href⟩
          obtain ⟨_, hw, _⟩ := onEvent_match_of_occurrence hocc
          exact hw h2
      · split
        next tail heq =>
          refine hasCI_append_of_safeSeg (by decide) (ih tail ?_)
          have hlen1 : tail.length + 1 ≤
              (rest.tail.drop
                (rest.tail.takeWhile isWordChar).length).length := by
            calc tail.length + 1 = ('=' :: tail).length := by simp
              _ = _ := by rw [← heq]
              _ ≤ _ := length_dropWhile_le _ _
          have hwpos : 0 < (rest.tail.takeWhile isWordChar).length :=
            List.length_pos.mpr h2
          simp only [List.length_drop, List.length_tail,
            List.length_cons] at hlen1 h ⊢
          omega
        next hne =>
          rw [hasCI_cons, Bool.or_eq_false_iff]
          refine ⟨?_, ih rest (by simp at h ⊢; omega)⟩
          cases hlt : lowerTake "onerror=".data (c :: onEventGo f rest) with
          | false => rfl
          | true =>
            exfalso
            rw [show "onerror=".data = 'o' :: "nerror=".data from rfl,
              lowerTake_cons] at hlt
            have href := onEventGo_reflect f rest "nerror=".data
              (by decide) hlt.2
            have hocc : lowerTake "onerror=".data (c :: rest) = true := by
              rw [show "onerror=".data = 'o' :: "nerror=".data from rfl,
                lowerTake_cons]
              exact ⟨hlt.1, href⟩
            obtain ⟨_, _, t, hteq⟩ := onEvent_match_of_occurrence hocc
            exact hne t hteq
      · rw [hasCI_cons, Bool.or_eq_false_iff]
        refine ⟨?_, ih rest (by simp at h ⊢; omega)⟩
        cases hlt : lowerTake "onerror=".data (c :: onEventGo f rest) with
        | false => rfl
        | true =>
          exfalso
          rw [show "onerror=".data = 'o' :: "nerror=".data from rfl,
            lowerTake_cons] at hlt
          have href := onEventGo_reflect f rest "nerror=".data
            (by decide) hlt.2
          have hocc : lowerTake "onerror=".data (c :: rest) = true := by
            rw [show "onerror=".data = 'o' :: "nerror=".data from rfl,
              lowerTake_cons]
            exact ⟨hlt.1, href⟩
          obtain ⟨hpair, _, _⟩ := onEvent_match_of_occurrence hocc
          exact h1 hpair

/-- The event-handler replace pass cannot create an occurrence of a
pattern avoiding `d` whose occurrences were absent. -/
theorem onEventGo_preserve {p0 : Char} {p' : List Char}
    (hd : 'd' ∉ (p0 :: p'))
    (hs : safeSeg (p0 :: p') "data-blocked-event=".data = true) :
    ∀ fuel X, hasCI (p0 :: p') X = false →
      hasCI (p0 :: p') (onEventGo fuel X) = false := by
  intro fuel
  induction fuel with
  | zero => intro X hX; exact hX
  | succ f ih =>
    intro X hX
    cases X with
    | nil => exact hX
    | cons c rest =>
      have hcopy : lowerTake (p0 :: p') (c :: onEventGo f rest) = false →
          hasCI (p0 :: p') (c :: onEventGo f rest) = false := by
        intro hfst
        rw [hasCI_cons, Bool.or_eq_false_iff]
        exact ⟨hfst, ih rest (hasCI_tail hX)⟩
      have hfst : lowerTake (p0 :: p') (c :: onEventGo f rest) = false := by
        cases hlt : lowerTake (p0 :: p') (c :: onEventGo f rest) with
        | false => rfl
        | true =>
          exfalso
          rw [lowerTake_cons] at hlt
          have href := onEventGo_reflect f rest p'
            (fun hq => hd (List.mem_cons_of_mem _ hq)) hlt.2
          have h3 : lowerTake (p0 :: p') (c :: rest) = true := by
            rw [lowerTake_cons]; exact ⟨hlt.1, href⟩
          rw [hasCI_cons, Bool.or_eq_false_iff] at hX
          exact absurd h3 (by simp [hX.1])
      rw [onEventGo_succ_eq]
      split_ifs with h1 h2
      · exact hcopy hfst
      · split
        next tail heq =>
          refine hasCI_append_of_safeSeg hs (ih tail ?_)
          have h4 : hasCI (p0 :: p')
              ((rest.tail.drop
                (rest.tail.takeWhile isWordChar).length).dropWhile
                  isSpaceJs) = false := by
            refine hasCI_dropWhile (hasCI_drop ?_ _)
            rw [← List.drop_one]
            exact hasCI_drop (hasCI_tail hX) 1
          rw [heq] at h4
          exact hasCI_tail h4
        next _ => exact hcopy hfst
      · exact hcopy hfst

/-- On html free of the five dangerous tag openings, the fallback
sanitizer's strip passes are the identity, `onEventGo` then removes every
`onerror=` without creating `<script` or `javascript:` occurrences, and
`jsProtoGo` removes every `javascript:` without creating the others. -/
theorem sanitizeFallback_safe {H : List Char}
    (h1 : hasCI "<script".data H = false)
    (h2 : hasCI "<style".data H = false)
    (h3 : hasCI "<iframe".data H = false)
    (h4 : hasCI "<object".data H = false)
    (h5 : hasCI "<embed".data H = false) :
    hasCI "<script".data (sanitizeFallback H) = false ∧
    hasCI "onerror=".data (sanitizeFallback H) = false ∧
    hasCI "javascript:".data (sanitizeFallback H) = false := by
  unfold sanitizeFallback
  simp only [stripTagGo_id _ _ h1, stripTagGo_id _ _ h2,
    stripTagGo_id _ _ h3, stripTagGo_id _ _ h4, stripEmbedGo_id _ _ h5]
  refine ⟨?_, ?_, ?_⟩
  · exact jsProtoGo_preserve (by decide) (by decide) _ _
      (onEventGo_preserve (by decide) (by decide) _ _ h1)
  · exact jsProtoGo_preserve (by decide) (by decide) _ _
      (onEventGo_kill _ _ (Nat.lt_succ_self _))
  · exact jsProtoGo_kill _ _ (Nat.lt_succ_self _)

/-- The continuation windows guaranteed after every `<` the parser ever
emits: each is a fixed template fragment long enough to be inconsistent
with all of `script`, `style`, `iframe`, `object`, `embed`. -/
def ltWindows : List (List Char) :=
  ["/".data, "a".data, "b".data, "c".data, "d".data, "h".data, "l".data,
   "p".data, "t".data, "u".data, "sp".data, "str".data, "em>".data,
   "in".data, "im".data, "ol".data]

/-- Every `<` in the list is immediately followed by one of the
`ltWindows` fragments (in particular no trailing `<`). -/
def ltSafe : List Char → Bool
  | [] => true
  | c :: rest =>
    (if c = '<' then ltWindows.any (fun w => rest.take w.length = w)
     else true) && ltSafe rest

/-- `ltSafe` ignores the head when recursing. -/
theorem ltSafe_tail' {c : Char} {t : List Char}
    (h : ltSafe (c :: t) = true) : ltSafe t = true := by
  unfold ltSafe at h
  rw [Bool.and_eq_true] at h
  exact h.2

/-- A non-`<` head preserves `ltSafe`. -/
theorem ltSafe_cons_ne {c : Char} {t : List Char} (hc : c ≠ '<')
    (ht : ltSafe t = true) : ltSafe (c :: t) = true := by
  unfold ltSafe
  rw [if_neg hc, ht]
  rfl

/-- A `<` head with a window is `ltSafe`. -/
theorem ltSafe_cons_lt {t : List Char}
    (hw : ltWindows.any (fun w => t.take w.length = w) = true)
    (ht : ltSafe t = true) : ltSafe ('<' :: t) = true := by
  unfold ltSafe
  rw [if_pos rfl, hw, ht]
  rfl

/-- A `ltSafe` list starting with `<` exhibits a window. -/
theorem ltSafe_head_window {t : List Char}
    (h : ltSafe ('<' :: t) = true) :
    ltWindows.any (fun w => t.take w.length = w) = true := by
  unfold ltSafe at h
  rw [if_pos rfl, Bool.and_eq_true] at h
  exact h.1

/-- `ltSafe` is closed under concatenation: each window is fully contained
in its own summand. -/
theorem ltSafe_append {a b : List Char} (ha : ltSafe a = true)
    (hb : ltSafe b = true) : ltSafe (a ++ b) = true := by
  induction a with
  | nil => simpa using hb
  | cons c rest ih =>
    have ht := ih (ltSafe_tail' ha)
    rw [List.cons_append]
    by_cases hc : c = '<'
    · subst hc
      obtain ⟨w, hwmem, hwt⟩ := List.any_eq_true.mp (ltSafe_head_window ha)
      have hwt' := of_decide_eq_true hwt
      have hlen : w.length ≤ rest.length := by
        have := congrArg List.length hwt'
        simp [List.length_take] at this
        omega
      refine ltSafe_cons_lt (List.any_eq_true.mpr ⟨w, hwmem, ?_⟩) ht
      rw [List.take_append_of_le_length hlen]
      exact decide_eq_true hwt'
    · exact ltSafe_cons_ne hc ht

/-- A list without `<` is trivially `ltSafe`. -/
theorem ltSafe_of_not_mem {l : List Char} (h : '<' ∉ l) :
    ltSafe l = true := by
  induction l with
  | nil => rfl
  | cons c rest ih =>
    exact ltSafe_cons_ne (fun hc => h (hc ▸ List.mem_cons_self _ _))
      (ih fun hm => h (List.mem_cons_of_mem _ hm))

/-- The head of a `drop` is the indexed element. -/
theorem head?_drop (l : List Char) (n : Nat) :
    (l.drop n).head? = l[n]? := by
  induction l generalizing n with
  | nil => simp
  | cons c t ih =>
    cases n with
    | zero => simp
    | succ m =>
      rw [List.drop_succ_cons, List.getElem?_cons_succ]
      exact ih m

/-- Cutting a `ltSafe` list just before a character that occurs in no
window keeps it `ltSafe`: no window can straddle the cut. -/
theorem ltSafe_take_stop {l : List Char} {d : Char}
    (hd : ∀ w ∈ ltWindows, d ∉ w) :
    ∀ n, ltSafe l = true → (l.drop n).head? = some d →
      ltSafe (l.take n) = true := by
  induction l with
  | nil => intro n _ _; simp [ltSafe]
  | cons c rest ih =>
    intro n h hn
    cases n with
    | zero => simp [ltSafe]
    | succ m =>
      rw [List.drop_succ_cons] at hn
      rw [List.take_succ_cons]
      by_cases hc : c = '<'
      · subst hc
        obtain ⟨w, hwmem, hwt⟩ := List.any_eq_true.mp (ltSafe_head_window h)
        have hwt' := of_decide_eq_true hwt
        have hlen : w.length ≤ m := by
          by_contra hgt
          push_neg at hgt
          have hdw : d ∈ w := by
            rw [← hwt']
            have h1 : (rest.take w.length)[m]? = some d := by
              rw [List.getElem?_take_of_lt hgt, ← head?_drop]
              exact hn
            exact List.getElem?_mem h1
          exact hd w hwmem hdw
        refine ltSafe_cons_lt (List.any_eq_true.mpr ⟨w, hwmem, ?_⟩)
          (ih m (ltSafe_tail' h) hn)
        rw [List.take_take, min_eq_left hlen]
        exact decide_eq_true hwt'
      · exact ltSafe_cons_ne hc (ih m (ltSafe_tail' h) hn)

/-- `ltSafe` passes to suffixes. -/
theorem ltSafe_drop {l : List Char} (h : ltSafe l = true) (n : Nat) :
    ltSafe (l.drop n) = true := by
  induction l generalizing n with
  | nil => simpa using h
  | cons c t ih =>
    cases n with
    | zero => exact h
    | succ m => exact ih (ltSafe_tail' h) m

/-- The head of a nonempty `dropWhile` fails the predicate. -/
theorem dropWhile_head_not {P : Char → Bool} {l : List Char} {d : Char}
    {t : List Char} (h : l.dropWhile P = d :: t) : P d = false := by
  induction l with
  | nil => simp at h
  | cons c rest ih =>
    rw [List.dropWhile_cons] at h
    split at h
    · exact ih h
    · cases h' : P d
      · rfl
      · cases h
        simp_all

/-- `takeWhile` keeps `ltSafe` when every window character satisfies the
predicate (the cut cannot land inside a window). -/
theorem ltSafe_takeWhile {P : Char → Bool} {l : List Char}
    (hP : ∀ w ∈ ltWindows, ∀ ch ∈ w, P ch = true)
    (h : ltSafe l = true) : ltSafe (l.takeWhile P) = true := by
  cases hdw : l.dropWhile P with
  | nil =>
    have hl : l.takeWhile P = l := by
      have h0 := List.takeWhile_append_dropWhile P l
      rwa [hdw, List.append_nil] at h0
    rwa [hl]
  | cons d rest2 =>
    have hdP : P d = false := dropWhile_head_not hdw
    have hdwin : ∀ w ∈ ltWindows, d ∉ w := by
      intro w hw hdm
      rw [hP w hw d hdm] at hdP
      exact absurd hdP (by simp)
    have hl : l.takeWhile P ++ l.dropWhile P = l :=
      List.takeWhile_append_dropWhile P l
    have htake : l.take (l.takeWhile P).length = l.takeWhile P := by
      nth_rewrite 2 [← hl]
      exact List.take_left _ _
    have hdrop : (l.drop (l.takeWhile P).length).head? = some d := by
      nth_rewrite 2 [← hl]
      rw [List.drop_left, hdw]
      rfl
    have := ltSafe_take_stop hdwin (l.takeWhile P).length h hdrop
    rwa [htake] at this

/-- Generic bridge: a decidable all-windows check gives the pointwise
window-character fact. -/
theorem windows_avoid {d : Char}
    (hall : ltWindows.all (fun w => w.all (fun ch => !(ch = d))) = true) :
    ∀ w ∈ ltWindows, d ∉ w := by
  intro w hw hdm
  have h1 := List.all_eq_true.mp hall w hw
  have h2 := List.all_eq_true.mp h1 d hdm
  simp at h2

/-- Windows characters satisfy a decidably-checked predicate. -/
theorem windows_sat {P : Char → Bool}
    (hall : ltWindows.all (fun w => w.all P) = true) :
    ∀ w ∈ ltWindows, ∀ ch ∈ w, P ch = true := by
  intro w hw ch hch
  exact List.all_eq_true.mp (List.all_eq_true.mp hall w hw) ch hch

/-- `escChar` never emits `<`. -/
theorem lt_not_mem_escChar (c : Char) : '<' ∉ escChar c := by
  intro hmem
  unfold escChar at hmem
  split_ifs at hmem with h1 h2 h3 h4 h5
  · exact absurd hmem (by decide)
  · exact absurd hmem (by decide)
  · exact absurd hmem (by decide)
  · exact absurd hmem (by decide)
  · exact absurd hmem (by decide)
  · rw [List.mem_singleton] at hmem
    exact h2 hmem.symm

/-- `escList` never emits `<`. -/
theorem escList_no_lt (l : List Char) : '<' ∉ escList l := by
  induction l with
  | nil => simp [escList]
  | cons c t ih =>
    unfold escList
    rw [List.mem_append]
    rintro (h | h)
    · exact lt_not_mem_escChar c h
    · exact ih h

/-- Digits are not `<`. -/
theorem digitChar_ne_lt (d : Nat) : digitChar d ≠ '<' := by
  unfold digitChar
  split_ifs <;> decide

/-- `natDigitsAux` never emits `<`. -/
theorem natDigitsAux_no_lt (f n : Nat) : '<' ∉ natDigitsAux f n := by
  induction f generalizing n with
  | zero => simp [natDigitsAux]
  | succ f ih =>
    unfold natDigitsAux
    split_ifs
    · intro h
      rw [List.mem_singleton] at h
      exact digitChar_ne_lt _ h.symm
    · rw [List.mem_append]
      rintro (h | h)
      · exact ih _ h
      · rw [List.mem_singleton] at h
        exact digitChar_ne_lt _ h.symm

/-- `natRepr` never emits `<`. -/
theorem natRepr_no_lt (n : Nat) : '<' ∉ natRepr n := natDigitsAux_no_lt _ _

/-- Characters of `slugDashGo` output come from the input or are dashes. -/
theorem slugDashGo_mem {b : Bool} {l : List Char} {x : Char}
    (h : x ∈ slugDashGo b l) : x = '-' ∨ x ∈ l := by
  induction l generalizing b with
  | nil => simp [slugDashGo] at h
  | cons c t ih =>
    unfold slugDashGo at h
    split_ifs at h
    · rcases ih h with h' | h'
      · exact Or.inl h'
      · exact Or.inr (List.mem_cons_of_mem _ h')
    · rcases List.mem_cons.mp h with h' | h'
      · exact Or.inl h'
      · rcases ih h' with h'' | h''
        · exact Or.inl h''
        · exact Or.inr (List.mem_cons_of_mem _ h'')
    · rcases List.mem_cons.mp h with h' | h'
      · exact Or.inr (h' ▸ List.mem_cons_self _ _)
      · rcases ih h' with h'' | h''
        · exact Or.inl h''
        · exact Or.inr (List.mem_cons_of_mem _ h'')

/-- `slugify` never emits `<`. -/
theorem slugify_no_lt (l : List Char) : '<' ∉ slugify l := by
  intro h
  unfold slugify at h
  rw [List.mem_reverse] at h
  have h1 := (List.dropWhile_sublist _).mem h
  rw [List.mem_reverse] at h1
  have h2 := (List.dropWhile_sublist _).mem h1
  rcases slugDashGo_mem h2 with h3 | h3
  · exact absurd h3 (by decide)
  · have := (List.mem_filter.mp h3).2
    simp [isWordChar, isSpaceJs] at this

/-- No emoji glyph contains `<` (checked over the whole table). -/
theorem emoji_no_lt : emojiMap.all
    (fun e => !(e.2.data.contains '<')) = true := by decide

/-- Membership form of `emoji_no_lt`. -/
theorem emoji_no_lt_mem {e : String × String} (he : e ∈ emojiMap) :
    '<' ∉ e.2.data := by
  intro hm
  have h1 := List.all_eq_true.mp emoji_no_lt e he
  rw [Bool.not_eq_true'] at h1
  have h2 : e.2.data.contains '<' = true := List.elem_eq_true_of_mem hm
  rw [h1] at h2
  exact absurd h2 (by simp)

/-- A scanner that copies every character passing `P` preserves a
`P`-clean prefix verbatim. -/
theorem copy_of_step (S : Nat → List Char → List Char) (P : Char → Bool)
    (base : ∀ l, S 0 l = l)
    (step : ∀ fuel c t, P c = true → S (fuel + 1) (c :: t) = c :: S fuel t) :
    ∀ (w : List Char) (fuel : Nat) (y : List Char),
      (∀ ch ∈ w, P ch = true) → (S fuel (w ++ y)).take w.length = w := by
  intro w
  induction w with
  | nil => simp
  | cons a w' ih =>
    intro fuel y hw
    cases fuel with
    | zero =>
      rw [base]
      exact List.take_left _ _
    | succ f =>
      rw [List.cons_append, step f a _ (hw a (List.mem_cons_self _ _)),
        List.length_cons, List.take_succ_cons,
        ih f y (fun ch hch => hw ch (List.mem_cons_of_mem _ hch))]

/-- `mathBlockGo` copies a non-`$` head. -/
theorem mathBlockGo_step (fuel : Nat) (c : Char) (t : List Char)
    (hc : c ≠ '$') : mathBlockGo (fuel + 1) (c :: t) =
      c :: mathBlockGo fuel t := by simp [mathBlockGo, hc]

/-- `mathInlineGo` copies a non-`$` head. -/
theorem mathInlineGo_step (fuel : Nat) (c : Char) (t : List Char)
    (hc : c ≠ '$') : mathInlineGo (fuel + 1) (c :: t) =
      c :: mathInlineGo fuel t := by simp [mathInlineGo, hc]

/-- `imageGo` copies a non-`!` head. -/
theorem imageGo_step (fuel : Nat) (c : Char) (t : List Char)
    (hc : c ≠ '!') : imageGo (fuel + 1) (c :: t) =
      c :: imageGo fuel t := by simp [imageGo, hc]

/-- `linkGo` copies a non-`[` head. -/
theorem linkGo_step (fuel : Nat) (c : Char) (t : List Char)
    (hc : c ≠ '[') : linkGo (fuel + 1) (c :: t) =
      c :: linkGo fuel t := by simp [linkGo, hc]

/-- `autolinkGo` copies a non-`&` head. -/
theorem autolinkGo_step (fuel : Nat) (c : Char) (t : List Char)
    (hc : c ≠ '&') : autolinkGo (fuel + 1) (c :: t) =
      c :: autolinkGo fuel t := by
  have hbeq : ('&' == c) = false := beq_eq_false_iff_ne.mpr (Ne.symm hc)
  have h1 : "&lt;https://".data.isPrefixOf (c :: t) = false := by
    rw [show "&lt;https://".data = '&' :: "lt;https://".data from rfl]
    show (('&' == c) && _) = false
    rw [hbeq]
    rfl
  have h2 : "&lt;http://".data.isPrefixOf (c :: t) = false := by
    rw [show "&lt;http://".data = '&' :: "lt;http://".data from rfl]
    show (('&' == c) && _) = false
    rw [hbeq]
    rfl
  simp [autolinkGo, h1, h2]

/-- `pairGo` copies a non-delimiter head. -/
theorem pairGo_step (d : Char) (opn cls : List Char) (fuel : Nat)
    (c : Char) (t : List Char) (hc : c ≠ d) :
    pairGo d opn cls (fuel + 1) (c :: t) =
      c :: pairGo d opn cls fuel t := by simp [pairGo, hc]

/-- `codeGo` copies a non-delimiter head. -/
theorem codeGo_step (d : Char) (fuel : Nat) (c : Char) (t : List Char)
    (hc : c ≠ d) : codeGo d (fuel + 1) (c :: t) =
      c :: codeGo d fuel t := by simp [codeGo, hc]

/-- `emojiGo` copies a non-`:` head. -/
theorem emojiGo_step (fuel : Nat) (c : Char) (t : List Char)
    (hc : c ≠ ':') : emojiGo (fuel + 1) (c :: t) =
      c :: emojiGo fuel t := by simp [emojiGo, hc]

/-- `brGo` copies a non-space head. -/
theorem brGo_step (fuel : Nat) (c : Char) (t : List Char)
    (hc : c ≠ ' ') : brGo (fuel + 1) (c :: t) = c :: brGo fuel t := by
  simp [brGo, hc]

/-- `italGo` copies a delimiter-free prefix verbatim (the lookbehind state
does not matter on non-delimiter characters). -/
theorem italGo_copy (d : Char) :
    ∀ (w : List Char) (prev : Option Char) (fuel : Nat) (y : List Char),
      (∀ ch ∈ w, ch ≠ d) →
      (italGo d prev fuel (w ++ y)).take w.length = w := by
  intro w
  induction w with
  | nil => simp
  | cons a w' ih =>
    intro prev fuel y hw
    cases fuel with
    | zero =>
      rw [show italGo d prev 0 ((a :: w') ++ y) = (a :: w') ++ y from rfl]
      exact List.take_left _ _
    | succ f =>
      have ha : a ≠ d := hw a (List.mem_cons_self _ _)
      rw [List.cons_append,
        show italGo d prev (f + 1) (a :: (w' ++ y)) =
          a :: italGo d (some a) f (w' ++ y) from by simp [italGo, ha],
        List.length_cons, List.take_succ_cons,
        ih (some a) f y (fun ch hch => hw ch (List.mem_cons_of_mem _ hch))]

/-- Assembling a scanner's copy branch: the emitted head keeps its window
because the scanner copies window characters verbatim. -/
theorem ltSafe_cons_scan {c : Char} {rest rec : List Char}
    (h : ltSafe (c :: rest) = true) (hrec : ltSafe rec = true)
    (hcopy : c = '<' → ∀ w ∈ ltWindows,
      rest.take w.length = w → rec.take w.length = w) :
    ltSafe (c :: rec) = true := by
  by_cases hc : c = '<'
  · subst hc
    obtain ⟨w, hw, hwt⟩ := List.any_eq_true.mp (ltSafe_head_window h)
    exact ltSafe_cons_lt (List.any_eq_true.mpr
      ⟨w, hw, decide_eq_true (hcopy rfl w hw (of_decide_eq_true hwt))⟩) hrec
  · exact ltSafe_cons_ne hc hrec

/-- Lifting a head-copy characterization to window preservation. -/
theorem hcopy_of_copy {S : Nat → List Char → List Char} {P : Char → Bool}
    (base : ∀ l, S 0 l = l)
    (step : ∀ fuel c t, P c = true → S (fuel + 1) (c :: t) = c :: S fuel t)
    (hwin : ∀ w ∈ ltWindows, ∀ ch ∈ w, P ch = true)
    (fuel : Nat) (rest : List Char) :
    ∀ w ∈ ltWindows, rest.take w.length = w →
      (S fuel rest).take w.length = w := by
  intro w hw hwt
  have hsplit := List.take_append_drop w.length rest
  rw [hwt] at hsplit
  rw [← hsplit]
  exact copy_of_step S P base step w fuel _ (hwin w hw)

/-- Unfolding `mathBlockGo` at a doubled delimiter. -/
theorem mathBlockGo_dd (f : Nat) (after : List Char) :
    mathBlockGo (f + 1) ('$' :: '$' :: after) =
      (if after.takeWhile (· ≠ '$') = [] then
        '$' :: mathBlockGo f ('$' :: after)
      else
        match after.drop (after.takeWhile (· ≠ '$')).length with
        | '$' :: '$' :: tail =>
          mbTplA.data ++ escList (after.takeWhile (· ≠ '$')) ++
            tplMid.data ++ escList (after.takeWhile (· ≠ '$')) ++
            spanClose.data ++ mathBlockGo f tail
        | _ => '$' :: mathBlockGo f ('$' :: after)) := rfl

/-- The block-math pass preserves `ltSafe`: templates carry their own
windows, captures are window-respecting cuts of the input, copies keep
their windows. -/
theorem mathBlockGo_ltSafe :
    ∀ fuel l, ltSafe l = true → ltSafe (mathBlockGo fuel l) = true := by
  intro fuel
  induction fuel with
  | zero => intro l h; exact h
  | succ f ih =>
    intro l h
    cases l with
    | nil => exact h
    | cons c rest =>
      by_cases hc : c = '$'
      · subst hc
        have hcons : ∀ t, ltSafe t = true →
            ltSafe ('$' :: mathBlockGo f t) = true := fun t ht =>
          ltSafe_cons_ne (by decide) (ih t ht)
        cases rest with
        | nil =>
          rw [show mathBlockGo (f + 1) ['$'] = '$' :: mathBlockGo f []
            from rfl]
          exact hcons [] rfl
        | cons c1 after =>
          by_cases hc1 : c1 = '$'
          · subst hc1
            rw [mathBlockGo_dd]
            split_ifs with hrun
            · exact hcons _ (ltSafe_tail' h)
            · split
              next tail heq =>
                have htail : ltSafe tail = true := by
                  have h1 := ltSafe_drop (ltSafe_tail' (ltSafe_tail' h))
                    (after.takeWhile (· ≠ '$')).length
                  rw [heq] at h1
                  exact ltSafe_tail' (ltSafe_tail' h1)
                have hesc : ltSafe
                    (escList (after.takeWhile (· ≠ '$'))) = true :=
                  ltSafe_of_not_mem (escList_no_lt _)
                exact ltSafe_append (ltSafe_append (ltSafe_append
                  (ltSafe_append (ltSafe_append (by decide) hesc)
                    (by decide)) hesc) (by decide)) (ih tail htail)
              next => exact hcons _ (ltSafe_tail' h)
          · rw [show mathBlockGo (f + 1) ('$' :: c1 :: after) =
                '$' :: mathBlockGo f (c1 :: after) from by
              simp [mathBlockGo, hc1]]
            exact hcons _ (ltSafe_tail' h)
      · rw [mathBlockGo_step f c rest hc]
        refine ltSafe_cons_scan h (ih rest (ltSafe_tail' h)) ?_
        intro _ w hw hwt
        exact hcopy_of_copy (fun l => rfl)
          (fun fuel c t hp => mathBlockGo_step fuel c t
            (of_decide_eq_true hp))
          (windows_sat (by decide)) f rest w hw hwt

/-- Unfolding `mathInlineGo` at a delimiter. -/
theorem mathInlineGo_d (f : Nat) (rest : List Char) :
    mathInlineGo (f + 1) ('$' :: rest) =
      (if rest.takeWhile (fun d => d ≠ '$' && d ≠ '\n') = [] then
        '$' :: mathInlineGo f rest
      else
        match rest.drop
            (rest.takeWhile (fun d => d ≠ '$' && d ≠ '\n')).length with
        | '$' :: tail =>
          miTplA.data ++
            escList (rest.takeWhile (fun d => d ≠ '$' && d ≠ '\n')) ++
            tplMid.data ++
            escList (rest.takeWhile (fun d => d ≠ '$' && d ≠ '\n')) ++
            spanClose.data ++ mathInlineGo f tail
        | _ => '$' :: mathInlineGo f rest) := rfl

/-- The inline-math pass preserves `ltSafe`. -/
theorem mathInlineGo_ltSafe :
    ∀ fuel l, ltSafe l = true → ltSafe (mathInlineGo fuel l) = true := by
  intro fuel
  induction fuel with
  | zero => intro l h; exact h
  | succ f ih =>
    intro l h
    cases l with
    | nil => exact h
    | cons c rest =>
      by_cases hc : c = '$'
      · subst hc
        have hcons : ltSafe ('$' :: mathInlineGo f rest) = true :=
          ltSafe_cons_ne (by decide) (ih rest (ltSafe_tail' h))
        rw [mathInlineGo_d]
        split_ifs with hrun
        · exact hcons
        · split
          next tail heq =>
            have htail : ltSafe tail = true := by
              have h1 := ltSafe_drop (ltSafe_tail' h)
                (rest.takeWhile (fun d => d ≠ '$' && d ≠ '\n')).length
              rw [heq] at h1
              exact ltSafe_tail' h1
            have hesc : ltSafe (escList
                (rest.takeWhile (fun d => d ≠ '$' && d ≠ '\n'))) = true :=
              ltSafe_of_not_mem (escList_no_lt _)
            exact ltSafe_append (ltSafe_append (ltSafe_append
              (ltSafe_append (ltSafe_append (by decide) hesc)
                (by decide)) hesc) (by decide)) (ih tail htail)
          next => exact hcons
      · rw [mathInlineGo_step f c rest hc]
        refine ltSafe_cons_scan h (ih rest (ltSafe_tail' h)) ?_
        intro _ w hw hwt
        exact hcopy_of_copy (fun l => rfl)
          (fun fuel c t hp => mathInlineGo_step fuel c t
            (of_decide_eq_true hp))
          (windows_sat (by decide)) f rest w hw hwt

/-- Unfolding `imageGo` at a `![`. -/
theorem imageGo_bang (f : Nat) (after : List Char) :
    imageGo (f + 1) ('!' :: '[' :: after) =
      (match after.drop (after.takeWhile (· ≠ ']')).length with
      | ']' :: '(' :: after2 =>
        if after2.takeWhile (· ≠ ')') = [] then
          '!' :: imageGo f ('[' :: after)
        else
          match after2.drop (after2.takeWhile (· ≠ ')')).length with
          | ')' :: tail =>
            "<img src=\"".data ++ after2.takeWhile (· ≠ ')') ++
              "\" alt=\"".data ++ after.takeWhile (· ≠ ']') ++
              "\">".data ++ imageGo f tail
          | _ => '!' :: imageGo f ('[' :: after)
      | _ => '!' :: imageGo f ('[' :: after)) := rfl

/-- The image pass preserves `ltSafe`. -/
theorem imageGo_ltSafe :
    ∀ fuel l, ltSafe l = true → ltSafe (imageGo fuel l) = true := by
  intro fuel
  induction fuel with
  | zero => intro l h; exact h
  | succ f ih =>
    intro l h
    cases l with
    | nil => exact h
    | cons c rest =>
      by_cases hc : c = '!'
      · subst hc
        cases rest with
        | nil =>
          rw [show imageGo (f + 1) ['!'] = '!' :: imageGo f [] from rfl]
          exact ltSafe_cons_ne (by decide) (ih [] rfl)
        | cons c1 after =>
          by_cases hc1 : c1 = '['
          · subst hc1
            have hcons : ltSafe ('!' :: imageGo f ('[' :: after)) = true :=
              ltSafe_cons_ne (by decide) (ih _ (ltSafe_tail' h))
            rw [imageGo_bang]
            split
            next after2 heq1 =>
              have hafter2 : ltSafe after2 = true := by
                have h1 := ltSafe_drop (ltSafe_tail' (ltSafe_tail' h))
                  (after.takeWhile (· ≠ ']')).length
                rw [heq1] at h1
                exact ltSafe_tail' (ltSafe_tail' h1)
              split_ifs with hurl
              · exact hcons
              · split
                next tail heq2 =>
                  have htail : ltSafe tail = true := by
                    have h1 := ltSafe_drop hafter2
                      (after2.takeWhile (· ≠ ')')).length
                    rw [heq2] at h1
                    exact ltSafe_tail' h1
                  have hurlS : ltSafe (after2.takeWhile (· ≠ ')')) = true :=
                    ltSafe_takeWhile (windows_sat (by decide)) hafter2
                  have haltS : ltSafe (after.takeWhile (· ≠ ']')) = true :=
                    ltSafe_takeWhile (windows_sat (by decide))
                      (ltSafe_tail' (ltSafe_tail' h))
                  exact ltSafe_append (ltSafe_append (ltSafe_append
                    (ltSafe_append (ltSafe_append (by decide) hurlS)
                      (by decide)) haltS) (by decide)) (ih tail htail)
                next => exact hcons
            next => exact hcons
          · rw [show imageGo (f + 1) ('!' :: c1 :: after) =
                '!' :: imageGo f (c1 :: after) from by
              simp [imageGo, hc1]]
            exact ltSafe_cons_ne (by decide) (ih _ (ltSafe_tail' h))
      · rw [imageGo_step f c rest hc]
        refine ltSafe_cons_scan h (ih rest (ltSafe_tail' h)) ?_
        intro _ w hw hwt
        exact hcopy_of_copy (fun l => rfl)
          (fun fuel c t hp => imageGo_step fuel c t
            (of_decide_eq_true hp))
          (windows_sat (by decide)) f rest w hw hwt

/-- Unfolding `linkGo` at a `[` with nonempty text. -/
theorem linkGo_open (f : Nat) (rest : List Char) :
    linkGo (f + 1) ('[' :: rest) =
      (if rest.takeWhile (· ≠ ']') = [] then '[' :: linkGo f rest
      else
        match rest.drop (rest.takeWhile (· ≠ ']')).length with
        | ']' :: '(' :: after2 =>
          if after2.takeWhile (· ≠ ')') = [] then '[' :: linkGo f rest
          else
            match after2.drop (after2.takeWhile (· ≠ ')')).length with
            | ')' :: tail =>
              "<a href=\"".data ++ after2.takeWhile (· ≠ ')') ++
                "\" target=\"_blank\" rel=\"noopener\">".data ++
                rest.takeWhile (· ≠ ']') ++ "</a>".data ++ linkGo f tail
            | _ => '[' :: linkGo f rest
        | _ => '[' :: linkGo f rest) := rfl

/-- The link pass preserves `ltSafe`. -/
theorem linkGo_ltSafe :
    ∀ fuel l, ltSafe l = true → ltSafe (linkGo fuel l) = true := by
  intro fuel
  induction fuel with
  | zero => intro l h; exact h
  | succ f ih =>
    intro l h
    cases l with
    | nil => exact h
    | cons c rest =>
      by_cases hc : c = '['
      · subst hc
        have hcons : ltSafe ('[' :: linkGo f rest) = true :=
          ltSafe_cons_ne (by decide) (ih rest (ltSafe_tail' h))
        rw [linkGo_open]
        split_ifs with htxt
        · exact hcons
        · split
          next after2 heq1 =>
            have hafter2 : ltSafe after2 = true := by
              have h1 := ltSafe_drop (ltSafe_tail' h)
                (rest.takeWhile (· ≠ ']')).length
              rw [heq1] at h1
              exact ltSafe_tail' (ltSafe_tail' h1)
            split_ifs with hurl
            · exact hcons
            · split
              next tail heq2 =>
                have htail : ltSafe tail = true := by
                  have h1 := ltSafe_drop hafter2
                    (after2.takeWhile (· ≠ ')')).length
                  rw [heq2] at h1
                  exact ltSafe_tail' h1
                have hurlS : ltSafe (after2.takeWhile (· ≠ ')')) = true :=
                  ltSafe_takeWhile (windows_sat (by decide)) hafter2
                have htxtS : ltSafe (rest.takeWhile (· ≠ ']')) = true :=
                  ltSafe_takeWhile (windows_sat (by decide))
                    (ltSafe_tail' h)
                exact ltSafe_append (ltSafe_append (ltSafe_append
                  (ltSafe_append (ltSafe_append (by decide) hurlS)
                    (by decide)) htxtS) (by decide)) (ih tail htail)
              next => exact hcons
          next => exact hcons
      · rw [linkGo_step f c rest hc]
        refine ltSafe_cons_scan h (ih rest (ltSafe_tail' h)) ?_
        intro _ w hw hwt
        exact hcopy_of_copy (fun l => rfl)
          (fun fuel c t hp => linkGo_step fuel c t
            (of_decide_eq_true hp))
          (windows_sat (by decide)) f rest w hw hwt

/-- A successful `findClose2` is a decomposition of its input. -/
theorem findClose2_eq {d : Char} :
    ∀ {l cap tail : List Char}, findClose2 d l = some (cap, tail) →
      l = cap ++ d :: d :: tail := by
  intro l
  induction l with
  | nil => intro cap tail h; simp [findClose2] at h
  | cons c rest ih =>
    intro cap tail h
    unfold findClose2 at h
    split_ifs at h with hnl htake
    · rw [Option.some.injEq, Prod.mk.injEq] at h
      obtain ⟨hcap, htail⟩ := h
      subst hcap
      subst htail
      have hr : rest = [d, d] ++ rest.drop 2 := by
        conv_lhs => rw [← List.take_append_drop 2 rest]
        rw [htake]
      rw [List.singleton_append]
      exact congrArg (c :: ·) hr
    · split at h
      next cap2 tail2 hm =>
        rw [Option.some.injEq, Prod.mk.injEq] at h
        obtain ⟨hcap, htail⟩ := h
        subst hcap
        subst htail
        rw [List.cons_append]
        exact congrArg (c :: ·) (ih hm)
      next => simp at h

/-- Window characters never equal a delimiter outside every window. -/
theorem windows_ne_of_avoid {d : Char} (hdw : ∀ w ∈ ltWindows, d ∉ w) :
    ∀ w ∈ ltWindows, ∀ ch ∈ w, decide (ch ≠ d) = true :=
  fun w hw _ hch => decide_eq_true (fun he => hdw w hw (he ▸ hch))

/-- The doubled-delimiter passes (`**`, `__`, `~~`) preserve `ltSafe` for
any delimiter occurring in no window and any `ltSafe` replacement tags. -/
theorem pairGo_ltSafe (d : Char) (opn cls : List Char)
    (hdw : ∀ w ∈ ltWindows, d ∉ w) (hdlt : d ≠ '<')
    (hopn : ltSafe opn = true) (hcls : ltSafe cls = true) :
    ∀ fuel l, ltSafe l = true →
      ltSafe (pairGo d opn cls fuel l) = true := by
  intro fuel
  induction fuel with
  | zero => intro l h; exact h
  | succ f ih =>
    intro l h
    cases l with
    | nil => exact h
    | cons c rest =>
      by_cases hcd : c = d
      · subst hcd
        by_cases hh : rest.head? = some c
        · cases hfc : findClose2 c rest.tail with
          | some p =>
            obtain ⟨cap, tail⟩ := p
            rw [show pairGo c opn cls (f + 1) (c :: rest) =
                opn ++ cap ++ cls ++ pairGo c opn cls f tail from by
              simp [pairGo, hh, hfc]]
            have hdec := findClose2_eq hfc
            have hresttail : ltSafe rest.tail = true := by
              rw [← List.drop_one]
              exact ltSafe_drop (ltSafe_tail' h) 1
            have hcap : ltSafe cap = true := by
              have htk : rest.tail.take cap.length = cap := by
                rw [hdec]
                exact List.take_left _ _
              have hhd : (rest.tail.drop cap.length).head? = some c := by
                rw [hdec, List.drop_left]
                rfl
              have := ltSafe_take_stop hdw cap.length hresttail hhd
              rwa [htk] at this
            have htail : ltSafe tail = true := by
              have h1 := ltSafe_drop hresttail cap.length
              rw [hdec, List.drop_left] at h1
              exact ltSafe_tail' (ltSafe_tail' h1)
            exact ltSafe_append (ltSafe_append (ltSafe_append hopn hcap)
              hcls) (ih tail htail)
          | none =>
            rw [show pairGo c opn cls (f + 1) (c :: rest) =
                c :: pairGo c opn cls f rest from by simp [pairGo, hh, hfc]]
            exact ltSafe_cons_ne hdlt (ih rest (ltSafe_tail' h))
        · rw [show pairGo c opn cls (f + 1) (c :: rest) =
              c :: pairGo c opn cls f rest from by simp [pairGo, hh]]
          exact ltSafe_cons_ne hdlt (ih rest (ltSafe_tail' h))
      · rw [pairGo_step d opn cls f c rest hcd]
        refine ltSafe_cons_scan h (ih rest (ltSafe_tail' h)) ?_
        intro _ w hw hwt
        exact hcopy_of_copy (fun l => rfl)
          (fun fuel c t hp => pairGo_step d opn cls fuel c t
            (of_decide_eq_true hp))
          (windows_ne_of_avoid hdw) f rest w hw hwt

/-- Unfolding `italGo` at a delimiter with passing lookbehind. -/
theorem italGo_d (f : Nat) (prev : Option Char) (d : Char)
    (rest : List Char) (hlb : (!(prev.elim false isWordChar)) = true) :
    italGo d prev (f + 1) (d :: rest) =
      (if rest.takeWhile (· ≠ d) = [] then d :: italGo d (some d) f rest
       else
         match rest.drop (rest.takeWhile (· ≠ d)).length with
         | _ :: tail =>
           if notWordAhead tail = true then
             "<em>".data ++ rest.takeWhile (· ≠ d) ++ "</em>".data ++
               italGo d (some d) f tail
           else d :: italGo d (some d) f rest
         | [] => d :: italGo d (some d) f rest) := by
  simp [italGo, hlb]

/-- The italic passes preserve `ltSafe` (delimiters `*` and `_`). -/
theorem italGo_ltSafe (d : Char)
    (hdw : ∀ w ∈ ltWindows, d ∉ w) (hdlt : d ≠ '<') :
    ∀ fuel prev l, ltSafe l = true →
      ltSafe (italGo d prev fuel l) = true := by
  intro fuel
  induction fuel with
  | zero => intro prev l h; exact h
  | succ f ih =>
    intro prev l h
    cases l with
    | nil => exact h
    | cons c rest =>
      by_cases hcd : c = d
      · subst hcd
        have hcons : ltSafe (c :: italGo c (some c) f rest) = true :=
          ltSafe_cons_ne hdlt (ih _ rest (ltSafe_tail' h))
        by_cases hlb : (!(prev.elim false isWordChar)) = true
        · rw [italGo_d f prev c rest hlb]
          split_ifs with hrun
          · exact hcons
          · split
            next x tail heq =>
              split_ifs with hahead
              · have hrunS : ltSafe (rest.takeWhile (· ≠ c)) = true :=
                  ltSafe_takeWhile (windows_ne_of_avoid hdw)
                    (ltSafe_tail' h)
                have htail : ltSafe tail = true := by
                  have h1 := ltSafe_drop (ltSafe_tail' h)
                    (rest.takeWhile (· ≠ c)).length
                  rw [heq] at h1
                  exact ltSafe_tail' h1
                exact ltSafe_append (ltSafe_append (ltSafe_append
                  (by decide) hrunS) (by decide)) (ih _ tail htail)
              · exact hcons
            next => exact hcons
        · rw [show italGo c prev (f + 1) (c :: rest) =
              c :: italGo c (some c) f rest from by simp [italGo, hlb]]
          exact hcons
      · rw [show italGo d prev (f + 1) (c :: rest) =
            c :: italGo d (some c) f rest from by simp [italGo, hcd]]
        refine ltSafe_cons_scan h (ih _ rest (ltSafe_tail' h)) ?_
        intro _ w hw hwt
        have hsplit := List.take_append_drop w.length rest
        rw [hwt] at hsplit
        rw [← hsplit]
        exact italGo_copy d w (some c) f _ (fun ch hch he =>
          hdw w hw (he ▸ hch))

/-- Unfolding `codeGo` at a delimiter. -/
theorem codeGo_d (f : Nat) (d : Char) (rest : List Char) :
    codeGo d (f + 1) (d :: rest) =
      (if rest.takeWhile (· ≠ d) = [] then d :: codeGo d f rest
       else
         match rest.drop (rest.takeWhile (· ≠ d)).length with
         | _ :: tail =>
           "<code>".data ++ rest.takeWhile (· ≠ d) ++ "</code>".data ++
             codeGo d f tail
         | [] => d :: codeGo d f rest) := by
  simp [codeGo]

/-- The inline-code pass preserves `ltSafe`. -/
theorem codeGo_ltSafe (d : Char)
    (hdw : ∀ w ∈ ltWindows, d ∉ w) (hdlt : d ≠ '<') :
    ∀ fuel l, ltSafe l = true → ltSafe (codeGo d fuel l) = true := by
  intro fuel
  induction fuel with
  | zero => intro l h; exact h
  | succ f ih =>
    intro l h
    cases l with
    | nil => exact h
    | cons c rest =>
      by_cases hcd : c = d
      · subst hcd
        have hcons : ltSafe (c :: codeGo c f rest) = true :=
          ltSafe_cons_ne hdlt (ih rest (ltSafe_tail' h))
        rw [codeGo_d]
        split_ifs with hrun
        · exact hcons
        · split
          next x tail heq =>
            have hrunS : ltSafe (rest.takeWhile (· ≠ c)) = true :=
              ltSafe_takeWhile (windows_ne_of_avoid hdw) (ltSafe_tail' h)
            have htail : ltSafe tail = true := by
              have h1 := ltSafe_drop (ltSafe_tail' h)
                (rest.takeWhile (· ≠ c)).length
              rw [heq] at h1
              exact ltSafe_tail' h1
            exact ltSafe_append (ltSafe_append (ltSafe_append
              (by decide) hrunS) (by decide)) (ih tail htail)
          next => exact hcons
      · rw [codeGo_step d f c rest hcd]
        refine ltSafe_cons_scan h (ih rest (ltSafe_tail' h)) ?_
        intro _ w hw hwt
        exact hcopy_of_copy (fun l => rfl)
          (fun fuel c t hp => codeGo_step d fuel c t
            (of_decide_eq_true hp))
          (windows_ne_of_avoid hdw) f rest w hw hwt

/-- The autolink pass preserves `ltSafe`. -/
theorem autolinkGo_ltSafe :
    ∀ fuel l, ltSafe l = true → ltSafe (autolinkGo fuel l) = true := by
  intro fuel
  induction fuel with
  | zero => intro l h; exact h
  | succ f ih =>
    intro l h
    cases l with
    | nil => exact h
    | cons c rest =>
      by_cases hc : c = '&'
      · subst hc
        have hcons : ltSafe ('&' :: autolinkGo f rest) = true :=
          ltSafe_cons_ne (by decide) (ih rest (ltSafe_tail' h))
        by_cases hp1 : "&lt;https://".data.isPrefixOf ('&' :: rest) = true
        · have hrunS : ltSafe ((rest.drop 11).takeWhile (· ≠ '&')) = true :=
            ltSafe_takeWhile (windows_sat (by decide))
              (ltSafe_drop (ltSafe_tail' h) 11)
          rw [show autolinkGo (f + 1) ('&' :: rest) =
              (if (rest.drop 11).takeWhile (· ≠ '&') = [] then
                '&' :: autolinkGo f rest
              else
                match (rest.drop 11).drop
                    ((rest.drop 11).takeWhile (· ≠ '&')).length with
                | '&' :: 'g' :: 't' :: ';' :: tail =>
                  "<a href=\"".data ++
                    ("https://".data ++ (rest.drop 11).takeWhile (· ≠ '&')) ++
                    "\" target=\"_blank\" rel=\"noopener\">".data ++
                    ("https://".data ++ (rest.drop 11).takeWhile (· ≠ '&')) ++
                    "</a>".data ++ autolinkGo f tail
                | _ => '&' :: autolinkGo f rest)
            from by simp [autolinkGo, hp1]]
          split_ifs with hrun
          · exact hcons
          · split
            next tail heq =>
              have htail : ltSafe tail = true := by
                have h1 := ltSafe_drop (ltSafe_drop (ltSafe_tail' h) 11)
                  ((rest.drop 11).takeWhile (· ≠ '&')).length
                rw [heq] at h1
                exact ltSafe_tail' (ltSafe_tail' (ltSafe_tail'
                  (ltSafe_tail' h1)))
              exact ltSafe_append (ltSafe_append (ltSafe_append
                (ltSafe_append (ltSafe_append (by decide)
                  (ltSafe_append (by decide) hrunS)) (by decide))
                (ltSafe_append (by decide) hrunS)) (by decide))
                (ih tail htail)
            next => exact hcons
        · by_cases hp2 : "&lt;http://".data.isPrefixOf ('&' :: rest) = true
          · rw [Bool.not_eq_true] at hp1
            have hrunS : ltSafe ((rest.drop 10).takeWhile (· ≠ '&')) = true :=
              ltSafe_takeWhile (windows_sat (by decide))
                (ltSafe_drop (ltSafe_tail' h) 10)
            rw [show autolinkGo (f + 1) ('&' :: rest) =
                (if (rest.drop 10).takeWhile (· ≠ '&') = [] then
                  '&' :: autolinkGo f rest
                else
                  match (rest.drop 10).drop
                      ((rest.drop 10).takeWhile (· ≠ '&')).length with
                  | '&' :: 'g' :: 't' :: ';' :: tail =>
                    "<a href=\"".data ++
                      ("http://".data ++ (rest.drop 10).takeWhile (· ≠ '&')) ++
                      "\" target=\"_blank\" rel=\"noopener\">".data ++
                      ("http://".data ++ (rest.drop 10).takeWhile (· ≠ '&')) ++
                      "</a>".data ++ autolinkGo f tail
                  | _ => '&' :: autolinkGo f rest)
              from by simp [autolinkGo, hp1, hp2]]
            split_ifs with hrun
            · exact hcons
            · split
              next tail heq =>
                have htail : ltSafe tail = true := by
                  have h1 := ltSafe_drop (ltSafe_drop (ltSafe_tail' h) 10)
                    ((rest.drop 10).takeWhile (· ≠ '&')).length
                  rw [heq] at h1
                  exact ltSafe_tail' (ltSafe_tail' (ltSafe_tail'
                    (ltSafe_tail' h1)))
                exact ltSafe_append (ltSafe_append (ltSafe_append
                  (ltSafe_append (ltSafe_append (by decide)
                    (ltSafe_append (by decide) hrunS)) (by decide))
                  (ltSafe_append (by decide) hrunS)) (by decide))
                  (ih tail htail)
              next => exact hcons
          · rw [Bool.not_eq_true] at hp1 hp2
            rw [show autolinkGo (f + 1) ('&' :: rest) =
                '&' :: autolinkGo f rest from by
              simp [autolinkGo, hp1, hp2]]
            exact hcons
      · rw [autolinkGo_step f c rest hc]
        refine ltSafe_cons_scan h (ih rest (ltSafe_tail' h)) ?_
        intro _ w hw hwt
        exact hcopy_of_copy (fun l => rfl)
          (fun fuel c t hp => autolinkGo_step fuel c t
            (of_decide_eq_true hp))
          (windows_sat (by decide)) f rest w hw hwt

/-- Unfolding `emojiGo` at a colon. -/
theorem emojiGo_colon (f : Nat) (rest : List Char) :
    emojiGo (f + 1) (':' :: rest) =
      (if rest.takeWhile isEmojiNameChar = [] then ':' :: emojiGo f rest
       else
         match rest.drop (rest.takeWhile isEmojiNameChar).length with
         | ':' :: tail =>
           match emojiMap.find? (fun p => p.1 = String.mk
               ((rest.takeWhile isEmojiNameChar).map toLowerChar)) with
           | some p => p.2.data ++ emojiGo f tail
           | none =>
             ':' :: rest.takeWhile isEmojiNameChar ++ ':' :: emojiGo f tail
         | _ => ':' :: emojiGo f rest) := rfl

/-- The emoji pass preserves `ltSafe`: glyphs are `<`-free, kept names are
made of name characters. -/
theorem emojiGo_ltSafe :
    ∀ fuel l, ltSafe l = true → ltSafe (emojiGo fuel l) = true := by
  intro fuel
  induction fuel with
  | zero => intro l h; exact h
  | succ f ih =>
    intro l h
    cases l with
    | nil => exact h
    | cons c rest =>
      by_cases hc : c = ':'
      · subst hc
        have hcons : ltSafe (':' :: emojiGo f rest) = true :=
          ltSafe_cons_ne (by decide) (ih rest (ltSafe_tail' h))
        rw [emojiGo_colon]
        split_ifs with hrun
        · exact hcons
        · split
          next tail heq =>
            have htail : ltSafe tail = true := by
              have h1 := ltSafe_drop (ltSafe_tail' h)
                (rest.takeWhile isEmojiNameChar).length
              rw [heq] at h1
              exact ltSafe_tail' h1
            split
            next p hp =>
              exact ltSafe_append
                (ltSafe_of_not_mem
                  (emoji_no_lt_mem (List.mem_of_find?_eq_some hp)))
                (ih tail htail)
            next hp =>
              refine ltSafe_cons_ne (by decide) ?_
              refine ltSafe_append ?_
                (ltSafe_cons_ne (by decide) (ih tail htail))
              refine ltSafe_of_not_mem (fun hm => ?_)
              have h2 : isEmojiNameChar '<' = true :=
                List.mem_takeWhile_imp hm
              exact absurd h2 (by decide)
          next => exact hcons
      · rw [emojiGo_step f c rest hc]
        refine ltSafe_cons_scan h (ih rest (ltSafe_tail' h)) ?_
        intro _ w hw hwt
        exact hcopy_of_copy (fun l => rfl)
          (fun fuel c t hp => emojiGo_step fuel c t
            (of_decide_eq_true hp))
          (windows_sat (by decide)) f rest w hw hwt

/-- The trailing-break pass preserves `ltSafe` (`<br>` carries the `b`
window). -/
theorem brGo_ltSafe :
    ∀ fuel l, ltSafe l = true → ltSafe (brGo fuel l) = true := by
  intro fuel
  induction fuel with
  | zero => intro l h; exact h
  | succ f ih =>
    intro l h
    cases l with
    | nil => exact h
    | cons c rest =>
      by_cases hc : c = ' '
      · subst hc
        have hrt : ltSafe rest.tail = true := by
          rw [← List.drop_one]
          exact ltSafe_drop (ltSafe_tail' h) 1
        by_cases h1 : rest.head? = some ' '
        · by_cases h2 : rest.tail.head? = some '\n'
          · rw [show brGo (f + 1) (' ' :: rest) =
                "<br>".data ++ brGo f rest.tail from by
              simp [brGo, h1, h2]]
            exact ltSafe_append (by decide) (ih _ hrt)
          · by_cases h3 : rest.tail = []
            · rw [show brGo (f + 1) (' ' :: rest) =
                  "<br>".data ++ brGo f rest.tail from by
                simp [brGo, h1, h3]]
              exact ltSafe_append (by decide) (ih _ hrt)
            · have h2i : ¬rest[1]? = some '\n' := by
                rw [← head?_drop, List.drop_one]
                exact h2
              rw [show brGo (f + 1) (' ' :: rest) =
                  ' ' :: brGo f rest from by
                simp [brGo, h1, h2i, h3]]
              exact ltSafe_cons_ne (by decide) (ih rest (ltSafe_tail' h))
        · rw [show brGo (f + 1) (' ' :: rest) =
              ' ' :: brGo f rest from by simp [brGo, h1]]
          exact ltSafe_cons_ne (by decide) (ih rest (ltSafe_tail' h))
      · rw [brGo_step f c rest hc]
        refine ltSafe_cons_scan h (ih rest (ltSafe_tail' h)) ?_
        intro _ w hw hwt
        exact hcopy_of_copy (fun l => rfl)
          (fun fuel c t hp => brGo_step fuel c t
            (of_decide_eq_true hp))
          (windows_sat (by decide)) f rest w hw hwt

/-- The math passes preserve `ltSafe`. -/
theorem parseMathInlineL_ltSafe (l : List Char) (h : ltSafe l = true) :
    ltSafe (parseMathInlineL l) = true :=
  mathInlineGo_ltSafe _ _ (mathBlockGo_ltSafe _ _ h)

/-- The whole inline pipeline produces `ltSafe` output on any input: the
escape pass removes every raw `<`, and each later pass only introduces
`<` at the head of a known tag. -/
theorem parseInlineL_ltSafe (l : List Char) :
    ltSafe (parseInlineL l) = true := by
  unfold parseInlineL
  split_ifs with h0
  · rfl
  · exact brGo_ltSafe _ _ (emojiGo_ltSafe _ _ (codeGo_ltSafe '`'
      (windows_avoid (by decide)) (by decide) _ _ (pairGo_ltSafe '~' _ _
      (windows_avoid (by decide)) (by decide) (by decide) (by decide) _ _
      (italGo_ltSafe '_' (windows_avoid (by decide)) (by decide) _ _ _
      (italGo_ltSafe '*' (windows_avoid (by decide)) (by decide) _ _ _
      (pairGo_ltSafe '_' _ _ (windows_avoid (by decide)) (by decide)
        (by decide) (by decide) _ _
      (pairGo_ltSafe '*' _ _ (windows_avoid (by decide)) (by decide)
        (by decide) (by decide) _ _
      (autolinkGo_ltSafe _ _ (linkGo_ltSafe _ _ (imageGo_ltSafe _ _
      (parseMathInlineL_ltSafe _
        (ltSafe_of_not_mem (escList_no_lt l)))))))))))))

/-- `lineAttr` never emits `<`. -/
theorem lineAttr_no_lt (o : Option Nat) : '<' ∉ lineAttr o := by
  cases o with
  | none => simp [lineAttr]
  | some n =>
    intro hm
    unfold lineAttr at hm
    rw [List.mem_append, List.mem_append] at hm
    rcases hm with (hm | hm) | hm
    · exact absurd hm (by decide)
    · exact natRepr_no_lt n hm
    · exact absurd hm (by decide)

/-- `renderCodeBlock` output is `ltSafe` when the fence language carries no
`<` (the language is a `\w*` capture, so this always holds at call sites). -/
theorem renderCodeBlock_ltSafe (code lang : List Char) (line : Option Nat)
    (hlang : '<' ∉ lang) :
    ltSafe (renderCodeBlock code lang line) = true := by
  unfold renderCodeBlock
  have hlgc : ltSafe (if lang = [] then [] else
      "language-".data ++ lang) = true := by
    split_ifs with h
    · rfl
    · exact ltSafe_append (by decide) (ltSafe_of_not_mem hlang)
  have hlbl : ltSafe (if lang = [] then [] else
      "<span class=\"code-language\">".data ++ lang ++
        "</span>".data) = true := by
    split_ifs with h
    · rfl
    · exact ltSafe_append (ltSafe_append (by decide)
        (ltSafe_of_not_mem hlang)) (by decide)
  exact ltSafe_append (ltSafe_append (ltSafe_append (ltSafe_append
    (ltSafe_append (ltSafe_append (ltSafe_append (ltSafe_append
      (by decide) (ltSafe_of_not_mem (lineAttr_no_lt line))) (by decide))
      hlbl) (by decide)) hlgc) (by decide))
    (ltSafe_of_not_mem (escList_no_lt code))) (by decide)

/-- `renderMermaid` output is `ltSafe`. -/
theorem renderMermaid_ltSafe (code : List Char) (line : Option Nat)
    (mid : Nat) : ltSafe (renderMermaid code line mid).1 = true := by
  unfold renderMermaid
  exact ltSafe_append (ltSafe_append (ltSafe_append (ltSafe_append
    (ltSafe_append (ltSafe_append (ltSafe_append (ltSafe_append
      (by decide) (ltSafe_of_not_mem (natRepr_no_lt (mid + 1))))
      (by decide)) (ltSafe_of_not_mem (escList_no_lt code))) (by decide))
    (ltSafe_of_not_mem (lineAttr_no_lt line))) (by decide))
    (ltSafe_of_not_mem (escList_no_lt code))) (by decide)

/-- `alignOf` yields one of three fixed words, never containing `<`. -/
theorem alignOf_no_lt (cell : List Char) : '<' ∉ alignOf cell := by
  simp only [alignOf]
  split_ifs <;> decide

/-- All alignments of a separator row are `<`-free. -/
theorem alignsOf_no_lt (row : List Char) :
    ∀ a ∈ alignsOf row, '<' ∉ a := by
  intro a ha
  unfold alignsOf at ha
  obtain ⟨cell, _, rfl⟩ := List.mem_map.mp ha
  exact alignOf_no_lt cell

/-- `alignAttr` never emits `<` when the alignments are `<`-free. -/
theorem alignAttr_no_lt (aligns : List (List Char)) (j : Nat)
    (h : ∀ a ∈ aligns, '<' ∉ a) : '<' ∉ alignAttr aligns j := by
  unfold alignAttr
  split
  next a ha =>
    intro hm
    rw [List.mem_append, List.mem_append] at hm
    rcases hm with (hm | hm) | hm
    · exact absurd hm (by decide)
    · exact h a (List.getElem?_mem ha) hm
    · exact absurd hm (by decide)
  next => simp

/-- The table cell loop emits `ltSafe` markup for the two concrete tags. -/
theorem cellsRender_ltSafe (tag : List Char) (aligns : List (List Char))
    (htag : tag = "th".data ∨ tag = "td".data)
    (ha : ∀ a ∈ aligns, '<' ∉ a) :
    ∀ cells j, ltSafe (cellsRender tag aligns cells j) = true := by
  intro cells
  induction cells with
  | nil => intro j; rfl
  | cons c cs ih =>
    intro j
    rcases htag with h | h <;> subst h <;>
      exact ltSafe_append (ltSafe_append (ltSafe_append (ltSafe_append
        (ltSafe_append (ltSafe_append (ltSafe_append (by decide)
          (ltSafe_of_not_mem (alignAttr_no_lt _ _ ha))) (by decide))
        (parseInlineL_ltSafe c)) (by decide)) (by decide)) (by decide))
        (ih (j + 1))

/-- The table row loop emits `ltSafe` markup. -/
theorem renderTableGo_ltSafe (allRows : List (List Char)) :
    ∀ rows i isHeader aligns, (∀ a ∈ aligns, '<' ∉ a) →
      ltSafe (renderTableGo allRows rows i isHeader aligns) = true := by
  intro rows
  induction rows with
  | nil => intro i isHeader aligns _; rfl
  | cons row rest ih =>
    intro i isHeader aligns ha
    by_cases hsep : testTableSeparator row = true
    · rw [show renderTableGo allRows (row :: rest) i isHeader aligns =
          renderTableGo allRows rest (i + 1) false (alignsOf row) from by
        simp [renderTableGo, hsep]]
      exact ih _ _ _ (alignsOf_no_lt row)
    · rw [Bool.not_eq_true] at hsep
      rw [show renderTableGo allRows (row :: rest) i isHeader aligns =
          (if isHeader then "<thead><tr>".data
           else if i = 2 ||
               (i = 1 && !testTableSeparator (allRows[1]?.getD [])) then
             "<tbody>".data
           else []) ++ "<tr>".data ++
          cellsRender (if isHeader then "th".data else "td".data) aligns
            ((splitChar '|' (row.drop 1).dropLast).map trimJs) 0 ++
          "</tr>".data ++
          (if isHeader && testTableSeparator (allRows[i + 1]?.getD [])
           then "</thead>".data else []) ++
          renderTableGo allRows rest (i + 1) isHeader aligns from by
        simp [renderTableGo, hsep]]
      have hpre : ltSafe (if isHeader then "<thead><tr>".data
          else if i = 2 ||
              (i = 1 && !testTableSeparator (allRows[1]?.getD [])) then
            "<tbody>".data
          else []) = true := by
        split_ifs <;> decide
      have hpost : ltSafe
          (if isHeader && testTableSeparator (allRows[i + 1]?.getD [])
           then "</thead>".data else []) = true := by
        split_ifs <;> decide
      have htag : (if isHeader then "th".data else "td".data) = "th".data ∨
          (if isHeader then "th".data else "td".data) = "td".data := by
        split_ifs
        · exact Or.inl rfl
        · exact Or.inr rfl
      exact ltSafe_append (ltSafe_append (ltSafe_append (ltSafe_append
        (ltSafe_append hpre (by decide))
        (cellsRender_ltSafe _ aligns htag ha _ 0)) (by decide)) hpost)
        (ih _ _ _ ha)

/-- `renderTable` output is `ltSafe`. -/
theorem renderTable_ltSafe (rows : List (List Char)) (line : Option Nat) :
    ltSafe (renderTable rows line) = true := by
  unfold renderTable
  split_ifs with h
  · rfl
  · exact ltSafe_append (ltSafe_append (ltSafe_append (ltSafe_append
      (by decide) (ltSafe_of_not_mem (lineAttr_no_lt line))) (by decide))
      (renderTableGo_ltSafe rows rows 0 true [] (by simp)))
      (by decide)

/-- The list item loop emits `ltSafe` markup. -/
theorem listItemsHtml_ltSafe (type : LType) :
    ∀ items, ltSafe (listItemsHtml type items) = true := by
  intro items
  induction items with
  | nil => rfl
  | cons it rest ih =>
    rw [show listItemsHtml type (it :: rest) =
        (if type = LType.task then
          "<li class=\"task-list-item\"><input type=\"checkbox\"".data ++
            (if it.checked then " checked".data else []) ++
            " disabled> ".data ++ parseInlineL it.content ++ "</li>".data
        else "<li>".data ++ parseInlineL it.content ++ "</li>".data) ++
          listItemsHtml type rest from rfl]
    refine ltSafe_append ?_ ih
    split_ifs with ht hc
    · exact ltSafe_append (ltSafe_append (ltSafe_append (ltSafe_append
        (by decide) (by decide)) (by decide)) (parseInlineL_ltSafe _))
        (by decide)
    · exact ltSafe_append (ltSafe_append (ltSafe_append (ltSafe_append
        (by decide) (by decide)) (by decide)) (parseInlineL_ltSafe _))
        (by decide)
    · exact ltSafe_append (ltSafe_append (by decide)
        (parseInlineL_ltSafe _)) (by decide)

/-- `flushList` output is `ltSafe` for any pending items. -/
theorem flushList_ltSafe (inList : Bool) (items : List LItem)
    (type : LType) : ltSafe (flushList inList items type) = true := by
  unfold flushList
  split_ifs with h1 h2
  · rfl
  · split
    next it hh =>
      exact ltSafe_append (ltSafe_append (ltSafe_append (ltSafe_append
        (ltSafe_append (ltSafe_append (by decide)
          (ltSafe_of_not_mem (lineAttr_no_lt _))) (by decide))
        (listItemsHtml_ltSafe type items)) (by decide)) (by decide))
        (by decide)
    next hh =>
      exact ltSafe_append (ltSafe_append (ltSafe_append (ltSafe_append
        (ltSafe_append (ltSafe_append (by decide) (by decide))
          (by decide))
        (listItemsHtml_ltSafe type items)) (by decide)) (by decide))
        (by decide)
  · split
    next it hh =>
      exact ltSafe_append (ltSafe_append (ltSafe_append (ltSafe_append
        (ltSafe_append (ltSafe_append (by decide)
          (ltSafe_of_not_mem (lineAttr_no_lt _))) (by decide))
        (listItemsHtml_ltSafe type items)) (by decide)) (by decide))
        (by decide)
    next hh =>
      exact ltSafe_append (ltSafe_append (ltSafe_append (ltSafe_append
        (ltSafe_append (ltSafe_append (by decide) (by decide))
          (by decide))
        (listItemsHtml_ltSafe type items)) (by decide)) (by decide))
        (by decide)

/-- The code-fence start guard forces a word-character language, so the
captured language never contains `<`. -/
theorem codeFenceLang_no_lt {line : List Char}
    (h : testCodeBlockStart line = true) : '<' ∉ codeFenceLang line := by
  intro hm
  unfold testCodeBlockStart at h
  rw [Bool.and_eq_true] at h
  have h2 := List.all_eq_true.mp h.2 '<' hm
  exact absurd h2 (by decide)

set_option maxHeartbeats 1600000 in
/-- Block-loop invariant: from any state whose accumulated html is
`ltSafe` and whose pending fence language is `<`-free, the loop returns
`ltSafe` html (every branch appends only `ltSafe` fragments, and nested
blockquote parses start from the empty state). -/
theorem pbGo_ltSafe :
    ∀ fuel lines i st, ltSafe st.html = true → '<' ∉ st.codeBlockLang →
      ltSafe (pbGo fuel lines i st).1 = true := by
  intro fuel
  induction fuel with
  | zero => intro lines i st hh _; exact hh
  | succ f ih =>
    intro lines i st hh hl
    have hIfC : ltSafe (if st.inCodeBlock then
        renderCodeBlock st.codeBlockContent st.codeBlockLang
          st.pst.currentBlockStartLine else []) = true := by
      split_ifs
      · exact renderCodeBlock_ltSafe _ _ _ hl
      · rfl
    have hIfT : ltSafe (if st.inTable then
        renderTable st.tableRows st.pst.currentBlockStartLine
        else []) = true := by
      split_ifs
      · exact renderTable_ltSafe _ _
      · rfl
    cases hline : lines[i]? with
    | none =>
      by_cases hBq : st.inBlockquote = true
      · by_cases hbc : st.blockquoteContent = []
        · rw [show pbGo (f + 1) lines i st =
              (st.html ++
                (if st.inCodeBlock then
                  renderCodeBlock st.codeBlockContent st.codeBlockLang
                    st.pst.currentBlockStartLine else []) ++
                (if st.inTable then
                  renderTable st.tableRows st.pst.currentBlockStartLine
                  else []) ++
                flushList st.inList st.listItems st.listType, st.pst)
            from by simp [pbGo, hline, hBq, hbc]]
          exact ltSafe_append (ltSafe_append (ltSafe_append hh hIfC) hIfT)
            (flushList_ltSafe _ _ _)
        · cases hpb : pbGo f (splitChar '\n' st.blockquoteContent) 0
              (initBState st.pst) with
          | mk inner pstI =>
            rw [show pbGo (f + 1) lines i st =
                (st.html ++
                  (if st.inCodeBlock then
                    renderCodeBlock st.codeBlockContent st.codeBlockLang
                      st.pst.currentBlockStartLine else []) ++
                  (if st.inTable then
                    renderTable st.tableRows st.pst.currentBlockStartLine
                    else []) ++
                  "<blockquote".data ++
                  lineAttr st.pst.currentBlockStartLine ++ ">".data ++
                  inner ++ "</blockquote>".data ++
                  flushList st.inList st.listItems st.listType, pstI)
              from by simp [pbGo, hline, hBq, hbc, hpb]]
            have hinner : ltSafe inner = true := by
              have h0 := ih (splitChar '\n' st.blockquoteContent) 0
                (initBState st.pst) rfl (by simp [initBState])
              rw [hpb] at h0
              exact h0
            exact ltSafe_append (ltSafe_append (ltSafe_append
              (ltSafe_append (ltSafe_append (ltSafe_append (ltSafe_append
                (ltSafe_append hh hIfC) hIfT) (by decide))
                (ltSafe_of_not_mem (lineAttr_no_lt _))) (by decide))
              hinner) (by decide)) (flushList_ltSafe _ _ _)
      · rw [Bool.not_eq_true] at hBq
        rw [show pbGo (f + 1) lines i st =
            (st.html ++
              (if st.inCodeBlock then
                renderCodeBlock st.codeBlockContent st.codeBlockLang
                  st.pst.currentBlockStartLine else []) ++
              (if st.inTable then
                renderTable st.tableRows st.pst.currentBlockStartLine
                else []) ++
              flushList st.inList st.listItems st.listType, st.pst)
          from by simp [pbGo, hline, hBq]]
        exact ltSafe_append (ltSafe_append (ltSafe_append hh hIfC) hIfT)
          (flushList_ltSafe _ _ _)
    | some line =>
      by_cases g1 : (testCodeBlockStart line && !st.inCodeBlock) = true
      · have hStart : testCodeBlockStart line = true :=
          ((Bool.and_eq_true _ _).mp g1).1
        by_cases hBq : st.inBlockquote = true
        · by_cases hbc : st.blockquoteContent = []
          · rw [show pbGo (f + 1) lines i st = pbGo f lines (i + 1)
                { st with
                  html := st.html ++ [] ++
                    flushList st.inList st.listItems st.listType,
                  inBlockquote := false, blockquoteContent := [],
                  inList := false, listItems := [],
                  inCodeBlock := true, codeBlockLang := codeFenceLang line,
                  codeBlockContent := [],
                  pst := { st.pst with currentBlockStartLine := some i } }
              from by simp [pbGo, hline, g1, hBq, hbc]]
            exact ih _ _ _ (ltSafe_append (ltSafe_append hh rfl)
              (flushList_ltSafe _ _ _)) (codeFenceLang_no_lt hStart)
          · cases hpb : pbGo f (splitChar '\n' st.blockquoteContent) 0
                (initBState st.pst) with
            | mk inner pstI =>
              rw [show pbGo (f + 1) lines i st = pbGo f lines (i + 1)
                  { st with
                    html := st.html ++
                      ("<blockquote>".data ++ inner ++
                        "</blockquote>".data) ++
                      flushList st.inList st.listItems st.listType,
                    inBlockquote := false, blockquoteContent := [],
                    inList := false, listItems := [],
                    inCodeBlock := true,
                    codeBlockLang := codeFenceLang line,
                    codeBlockContent := [],
                    pst := { pstI with currentBlockStartLine := some i } }
                from by simp [pbGo, hline, g1, hBq, hbc, hpb]]
              have hinner : ltSafe inner = true := by
                have h0 := ih (splitChar '\n' st.blockquoteContent) 0
                  (initBState st.pst) rfl (by simp [initBState])
                rw [hpb] at h0
                exact h0
              exact ih _ _ _ (ltSafe_append (ltSafe_append hh
                (ltSafe_append (ltSafe_append (by decide) hinner)
                  (by decide))) (flushList_ltSafe _ _ _))
                (codeFenceLang_no_lt hStart)
        · rw [Bool.not_eq_true] at hBq
          rw [show pbGo (f + 1) lines i st = pbGo f lines (i + 1)
              { st with
                html := st.html ++ [] ++
                  flushList st.inList st.listItems st.listType,
                inBlockquote := false, blockquoteContent := [],
                inList := false, listItems := [],
                inCodeBlock := true, codeBlockLang := codeFenceLang line,
                codeBlockContent := [],
                pst := { st.pst with currentBlockStartLine := some i } }
            from by simp [pbGo, hline, g1, hBq]]
          exact ih _ _ _ (ltSafe_append (ltSafe_append hh rfl)
            (flushList_ltSafe _ _ _)) (codeFenceLang_no_lt hStart)
      · rw [Bool.not_eq_true] at g1
        by_cases g2 : (testCodeBlockEnd line && st.inCodeBlock) = true
        · rw [Bool.and_eq_true] at g2
          obtain ⟨hEnd, hIn⟩ := g2
          by_cases hm : st.codeBlockLang.map toLowerChar = "mermaid".data
          · cases hrm : renderMermaid (trimJs st.codeBlockContent)
                st.pst.currentBlockStartLine st.pst.mermaidId with
            | mk mh mid' =>
              rw [show pbGo (f + 1) lines i st = pbGo f lines (i + 1)
                  { st with
                    html := st.html ++ mh, inCodeBlock := false,
                    codeBlockLang := [], codeBlockContent := [],
                    pst := { st.pst with mermaidId := mid' } }
                from by simp [pbGo, hline, hEnd, hIn, hm, hrm]]
              have hmh := renderMermaid_ltSafe (trimJs st.codeBlockContent)
                st.pst.currentBlockStartLine st.pst.mermaidId
              rw [hrm] at hmh
              exact ih _ _ _ (ltSafe_append hh hmh) (by simp)
          · rw [show pbGo (f + 1) lines i st = pbGo f lines (i + 1)
                { st with
                  html := st.html ++ renderCodeBlock st.codeBlockContent
                    st.codeBlockLang st.pst.currentBlockStartLine,
                  inCodeBlock := false, codeBlockLang := [],
                  codeBlockContent := [] }
              from by simp [pbGo, hline, hEnd, hIn, hm]]
            exact ih _ _ _ (ltSafe_append hh
              (renderCodeBlock_ltSafe _ _ _ hl)) (by simp)
        · by_cases g3 : st.inCodeBlock = true
          · have hEnd : testCodeBlockEnd line = false := by
              rw [g3, Bool.and_true] at g2
              rwa [Bool.not_eq_true] at g2
            rw [show pbGo (f + 1) lines i st = pbGo f lines (i + 1)
                { st with
                  codeBlockContent := st.codeBlockContent ++
                    (if st.codeBlockContent = [] then [] else ['\n']) ++
                    line }
              from by simp [pbGo, hline, hEnd, g3]]
            exact ih _ _ _ hh hl
          · rw [Bool.not_eq_true] at g3
            have hSf : testCodeBlockStart line = false := by
              rw [g3] at g1
              simpa using g1
            by_cases g4 : testTable line = true
            · by_cases hBq : st.inBlockquote = true
              · by_cases hbc : st.blockquoteContent = []
                · by_cases hIT : st.inTable = true
                  · rw [show pbGo (f + 1) lines i st =
                        pbGo f lines (i + 1)
                        { st with
                          html := st.html ++ [] ++
                            flushList st.inList st.listItems st.listType,
                          inBlockquote := false, blockquoteContent := [],
                          inList := false, listItems := [],
                          tableRows := st.tableRows ++ [line],
                          pst := st.pst }
                      from by simp [pbGo, hline, hSf, g3, g4, hBq, hbc,
                        hIT]]
                    exact ih _ _ _ (ltSafe_append (ltSafe_append hh rfl)
                      (flushList_ltSafe _ _ _)) hl
                  · rw [Bool.not_eq_true] at hIT
                    rw [show pbGo (f + 1) lines i st =
                        pbGo f lines (i + 1)
                        { st with
                          html := st.html ++ [] ++
                            flushList st.inList st.listItems st.listType,
                          inBlockquote := false, blockquoteContent := [],
                          inList := false, listItems := [],
                          inTable := true, tableRows := [line],
                          pst := { st.pst with
                            currentBlockStartLine := some i } }
                      from by simp [pbGo, hline, hSf, g3, g4, hBq, hbc,
                        hIT]]
                    exact ih _ _ _ (ltSafe_append (ltSafe_append hh rfl)
                      (flushList_ltSafe _ _ _)) hl
                · cases hpb : pbGo f (splitChar '\n' st.blockquoteContent)
                      0 (initBState st.pst) with
                  | mk inner pstI =>
                    have hinner : ltSafe inner = true := by
                      have h0 := ih (splitChar '\n' st.blockquoteContent) 0
                        (initBState st.pst) rfl (by simp [initBState])
                      rw [hpb] at h0
                      exact h0
                    by_cases hIT : st.inTable = true
                    · rw [show pbGo (f + 1) lines i st =
                          pbGo f lines (i + 1)
                          { st with
                            html := st.html ++
                              ("<blockquote>".data ++ inner ++
                                "</blockquote>".data) ++
                              flushList st.inList st.listItems st.listType,
                            inBlockquote := false, blockquoteContent := [],
                            inList := false, listItems := [],
                            tableRows := st.tableRows ++ [line],
                            pst := pstI }
                        from by simp [pbGo, hline, hSf, g3, g4, hBq,
                          hbc, hpb, hIT]]
                      exact ih _ _ _ (ltSafe_append (ltSafe_append hh
                        (ltSafe_append (ltSafe_append (by decide) hinner)
                          (by decide))) (flushList_ltSafe _ _ _)) hl
                    · rw [Bool.not_eq_true] at hIT
                      rw [show pbGo (f + 1) lines i st =
                          pbGo f lines (i + 1)
                          { st with
                            html := st.html ++
                              ("<blockquote>".data ++ inner ++
                                "</blockquote>".data) ++
                              flushList st.inList st.listItems st.listType,
                            inBlockquote := false, blockquoteContent := [],
                            inList := false, listItems := [],
                            inTable := true, tableRows := [line],
                            pst := { pstI with
                              currentBlockStartLine := some i } }
                        from by simp [pbGo, hline, hSf, g3, g4, hBq,
                          hbc, hpb, hIT]]
                      exact ih _ _ _ (ltSafe_append (ltSafe_append hh
                        (ltSafe_append (ltSafe_append (by decide) hinner)
                          (by decide))) (flushList_ltSafe _ _ _)) hl
              · rw [Bool.not_eq_true] at hBq
                by_cases hIT : st.inTable = true
                · rw [show pbGo (f + 1) lines i st = pbGo f lines (i + 1)
                      { st with
                        html := st.html ++ [] ++
                          flushList st.inList st.listItems st.listType,
                        inBlockquote := false, blockquoteContent := [],
                        inList := false, listItems := [],
                        tableRows := st.tableRows ++ [line],
                        pst := st.pst }
                    from by simp [pbGo, hline, hSf, g3, g4, hBq, hIT]]
                  exact ih _ _ _ (ltSafe_append (ltSafe_append hh rfl)
                    (flushList_ltSafe _ _ _)) hl
                · rw [Bool.not_eq_true] at hIT
                  rw [show pbGo (f + 1) lines i st = pbGo f lines (i + 1)
                      { st with
                        html := st.html ++ [] ++
                          flushList st.inList st.listItems st.listType,
                        inBlockquote := false, blockquoteContent := [],
                        inList := false, listItems := [],
                        inTable := true, tableRows := [line],
                        pst := { st.pst with
                          currentBlockStartLine := some i } }
                    from by simp [pbGo, hline, hSf, g3, g4, hBq, hIT]]
                  exact ih _ _ _ (ltSafe_append (ltSafe_append hh rfl)
                    (flushList_ltSafe _ _ _)) hl
            · rw [Bool.not_eq_true] at g4
              have key25 : ∀ s : BState, bqMatch line = none →
                  ltSafe s.html = true → '<' ∉ s.codeBlockLang →
                  s.inCodeBlock = false → s.inTable = false →
                  s.inBlockquote = false →
                  ltSafe (pbGo (f + 1) lines i s).1 = true := by
                intro s hbq hh' hl' g3' hT' hB'
                cases hhm : headingMatch line with
                | some lc =>
                  obtain ⟨level, cap⟩ := lc
                  rw [show pbGo (f + 1) lines i s = pbGo f lines (i + 1)
                      { s with
                        html := s.html ++
                          flushList s.inList s.listItems s.listType ++
                          "<h".data ++ natRepr level ++ " id=\"".data ++
                          slugify cap ++ "\"".data ++ lineAttr (some i) ++
                          "><a class=\"heading-anchor\" href=\"#".data ++
                          slugify cap ++ "\">#</a>".data ++
                          parseInlineL cap ++ "</h".data ++
                          natRepr level ++ ">".data,
                        inList := false, listItems := [] }
                    from by simp [pbGo, hline, hSf, g3', g4, hT',
                      hB', hbq, hhm]]
                  exact ih _ _ _ (ltSafe_append (ltSafe_append
                    (ltSafe_append (ltSafe_append (ltSafe_append
                    (ltSafe_append (ltSafe_append (ltSafe_append
                    (ltSafe_append (ltSafe_append (ltSafe_append
                    (ltSafe_append (ltSafe_append (ltSafe_append hh'
                      (flushList_ltSafe _ _ _)) (by decide))
                      (ltSafe_of_not_mem (natRepr_no_lt _))) (by decide))
                      (ltSafe_of_not_mem (slugify_no_lt _))) (by decide))
                      (ltSafe_of_not_mem (lineAttr_no_lt _))) (by decide))
                      (ltSafe_of_not_mem (slugify_no_lt _))) (by decide))
                      (parseInlineL_ltSafe _)) (by decide))
                      (ltSafe_of_not_mem (natRepr_no_lt _))) (by decide))
                    hl'
                | none =>
                  by_cases hhr : testHr line = true
                  · rw [show pbGo (f + 1) lines i s = pbGo f lines (i + 1)
                        { s with
                          html := s.html ++
                            flushList s.inList s.listItems s.listType ++
                            "<hr".data ++ lineAttr (some i) ++ ">".data,
                          inList := false, listItems := [] }
                      from by simp [pbGo, hline, hSf, g3', g4, hT',
                        hB', hbq, hhm, hhr]]
                    exact ih _ _ _ (ltSafe_append (ltSafe_append
                      (ltSafe_append (ltSafe_append hh'
                        (flushList_ltSafe _ _ _)) (by decide))
                      (ltSafe_of_not_mem (lineAttr_no_lt _))) (by decide))
                      hl'
                  · rw [Bool.not_eq_true] at hhr
                    cases htk : taskMatch line with
                    | some t =>
                      obtain ⟨ind, m, cap⟩ := t
                      by_cases hc1 : s.inList = true
                      · by_cases hc2 : s.listType = LType.task
                        · rw [show pbGo (f + 1) lines i s =
                              pbGo f lines (i + 1)
                              { s with
                                html := s.html, inList := true,
                                listType := LType.task,
                                listItems := s.listItems ++ [{ indent := ind, content := cap, checked := toLowerChar m = 'x', line := i }] }
                            from by simp [pbGo, hline, hSf, g3', g4,
                              hT', hB', hbq, hhm, hhr, htk, hc1, hc2]]
                          exact ih _ _ _ hh' hl'
                        · rw [show pbGo (f + 1) lines i s =
                              pbGo f lines (i + 1)
                              { s with
                                html := s.html ++ flushList s.inList
                                  s.listItems s.listType,
                                inList := true, listType := LType.task,
                                listItems := [{ indent := ind, content := cap, checked := toLowerChar m = 'x', line := i }] }
                            from by simp [pbGo, hline, hSf, g3', g4,
                              hT', hB', hbq, hhm, hhr, htk, hc1, hc2]]
                          exact ih _ _ _ (ltSafe_append hh'
                            (flushList_ltSafe _ _ _)) hl'
                      · rw [show pbGo (f + 1) lines i s =
                            pbGo f lines (i + 1)
                            { s with
                              html := s.html ++ flushList s.inList
                                s.listItems s.listType,
                              inList := true, listType := LType.task,
                              listItems := [{ indent := ind, content := cap, checked := toLowerChar m = 'x', line := i }] }
                          from by simp [pbGo, hline, hSf, g3', g4,
                            hT', hB', hbq, hhm, hhr, htk, hc1]]
                        exact ih _ _ _ (ltSafe_append hh'
                          (flushList_ltSafe _ _ _)) hl'
                    | none =>
                      cases hul : ulMatch line with
                      | some t =>
                        obtain ⟨ind, cap⟩ := t
                        by_cases hc1 : s.inList = true
                        · by_cases hc2 : s.listType = LType.ul
                          · rw [show pbGo (f + 1) lines i s =
                                pbGo f lines (i + 1)
                                { s with
                                  html := s.html, inList := true,
                                  listType := LType.ul,
                                  listItems := s.listItems ++ [{ indent := ind, content := cap, line := i }] }
                              from by simp [pbGo, hline, hSf, g3',
                                g4, hT', hB', hbq, hhm, hhr, htk, hul,
                                hc1, hc2]]
                            exact ih _ _ _ hh' hl'
                          · rw [show pbGo (f + 1) lines i s =
                                pbGo f lines (i + 1)
                                { s with
                                  html := s.html ++ flushList s.inList
                                    s.listItems s.listType,
                                  inList := true, listType := LType.ul,
                                  listItems := [{ indent := ind, content := cap, line := i }] }
                              from by simp [pbGo, hline, hSf, g3',
                                g4, hT', hB', hbq, hhm, hhr, htk, hul,
                                hc1, hc2]]
                            exact ih _ _ _ (ltSafe_append hh'
                              (flushList_ltSafe _ _ _)) hl'
                        · rw [show pbGo (f + 1) lines i s =
                              pbGo f lines (i + 1)
                              { s with
                                html := s.html ++ flushList s.inList
                                  s.listItems s.listType,
                                inList := true, listType := LType.ul,
                                listItems := [{ indent := ind, content := cap, line := i }] }
                            from by simp [pbGo, hline, hSf, g3', g4,
                              hT', hB', hbq, hhm, hhr, htk, hul, hc1]]
                          exact ih _ _ _ (ltSafe_append hh'
                            (flushList_ltSafe _ _ _)) hl'
                      | none =>
                        cases hol : olMatch line with
                        | some t =>
                          obtain ⟨ind, num, cap⟩ := t
                          by_cases hc1 : s.inList = true
                          · by_cases hc2 : s.listType = LType.ol
                            · rw [show pbGo (f + 1) lines i s =
                                  pbGo f lines (i + 1)
                                  { s with
                                    html := s.html, inList := true,
                                    listType := LType.ol,
                                    listItems := s.listItems ++ [{ indent := ind, content := cap, number := num, line := i }] }
                                from by simp [pbGo, hline, hSf, g3',
                                  g4, hT', hB', hbq, hhm, hhr, htk, hul,
                                  hol, hc1, hc2]]
                              exact ih _ _ _ hh' hl'
                            · rw [show pbGo (f + 1) lines i s =
                                  pbGo f lines (i + 1)
                                  { s with
                                    html := s.html ++ flushList s.inList
                                      s.listItems s.listType,
                                    inList := true, listType := LType.ol,
                                    listItems := [{ indent := ind, content := cap, number := num, line := i }] }
                                from by simp [pbGo, hline, hSf, g3',
                                  g4, hT', hB', hbq, hhm, hhr, htk, hul,
                                  hol, hc1, hc2]]
                              exact ih _ _ _ (ltSafe_append hh'
                                (flushList_ltSafe _ _ _)) hl'
                          · rw [show pbGo (f + 1) lines i s =
                                pbGo f lines (i + 1)
                                { s with
                                  html := s.html ++ flushList s.inList
                                    s.listItems s.listType,
                                  inList := true, listType := LType.ol,
                                  listItems := [{ indent := ind, content := cap, number := num, line := i }] }
                              from by simp [pbGo, hline, hSf, g3',
                                g4, hT', hB', hbq, hhm, hhr, htk, hul,
                                hol, hc1]]
                            exact ih _ _ _ (ltSafe_append hh'
                              (flushList_ltSafe _ _ _)) hl'
                        | none =>
                          have key3 : ∀ s2 : BState,
                              ltSafe s2.html = true →
                              '<' ∉ s2.codeBlockLang →
                              s2.inCodeBlock = false →
                              s2.inTable = false →
                              s2.inBlockquote = false →
                              s2.inList = false →
                              ltSafe (pbGo (f + 1) lines i s2).1 =
                                true := by
                            intro s2 hh2 hl2 g32 hT2 hB2 hL2
                            by_cases hE : trimJs line = []
                            · rw [show pbGo (f + 1) lines i s2 =
                                  pbGo f lines (i + 1) s2 from by
                                simp [pbGo, hline, hSf, g32, g4,
                                  hT2, hB2, hbq, hhm, hhr, htk, hul, hol,
                                  hL2, hE]]
                              exact ih _ _ _ hh2 hl2
                            · cases hpc : paraCont (lines.drop (i + 1))
                                  with
                              | mk ext n =>
                                rw [show pbGo (f + 1) lines i s2 =
                                    pbGo f lines (i + 1 + n)
                                    { s2 with
                                      html := s2.html ++ "<p".data ++
                                        lineAttr (some i) ++ ">".data ++
                                        parseInlineL (line ++ ext) ++
                                        "</p>".data }
                                  from by simp [pbGo, hline, hSf, g32,
                                    g4, hT2, hB2, hbq, hhm, hhr,
                                    htk, hul, hol, hL2, hE, hpc]]
                                exact ih _ _ _ (ltSafe_append
                                  (ltSafe_append (ltSafe_append
                                  (ltSafe_append (ltSafe_append hh2
                                    (by decide))
                                    (ltSafe_of_not_mem (lineAttr_no_lt _)))
                                    (by decide))
                                  (parseInlineL_ltSafe _)) (by decide))
                                  hl2
                          by_cases hL : s.inList = true
                          · rw [show pbGo (f + 1) lines i s =
                                pbGo (f + 1) lines i
                                { s with
                                  html := s.html ++
                                    flushList true s.listItems s.listType,
                                  inList := false, listItems := [] }
                              from by simp [pbGo, hline, hSf, g3',
                                g4, hT', hB', hbq, hhm, hhr, htk, hul,
                                hol, hL]]
                            exact key3 _ (ltSafe_append hh'
                              (flushList_ltSafe _ _ _)) hl' g3'
                              hT' hB' rfl
                          · rw [Bool.not_eq_true] at hL
                            exact key3 s hh' hl' g3' hT' hB' hL
              have key5 : ∀ s : BState, ltSafe s.html = true →
                  '<' ∉ s.codeBlockLang → s.inCodeBlock = false →
                  s.inTable = false →
                  ltSafe (pbGo (f + 1) lines i s).1 = true := by
                intro s hh' hl' g3' hT'
                cases hbq : bqMatch line with
                | some cap =>
                  rw [show pbGo (f + 1) lines i s = pbGo f lines (i + 1)
                      { s with
                        html := s.html ++
                          flushList s.inList s.listItems s.listType,
                        inList := false, listItems := [],
                        inBlockquote := true,
                        blockquoteContent := s.blockquoteContent ++
                          (if s.blockquoteContent = [] then []
                           else ['\n']) ++ cap,
                        pst := if !s.inBlockquote then
                            { s.pst with currentBlockStartLine := some i }
                          else s.pst }
                    from by simp [pbGo, hline, hSf, g3', g4, hT',
                      hbq]]
                  exact ih _ _ _ (ltSafe_append hh'
                    (flushList_ltSafe _ _ _)) hl'
                | none =>
                  by_cases hB : s.inBlockquote = true
                  · by_cases hbc : s.blockquoteContent = []
                    · rw [show pbGo (f + 1) lines i s =
                          pbGo (f + 1) lines i
                          { s with
                            html := s.html ++ [],
                            inBlockquote := false,
                            blockquoteContent := [], pst := s.pst }
                        from by simp [pbGo, hline, hSf, g3', g4,
                          hT', hbq, hB, hbc]]
                      exact key25 _ hbq (ltSafe_append hh' rfl) hl' g3'
                        hT' rfl
                    · cases hpb : pbGo f
                          (splitChar '\n' s.blockquoteContent) 0
                          (initBState s.pst) with
                      | mk inner pstI =>
                        rw [show pbGo (f + 1) lines i s =
                            pbGo (f + 1) lines i
                            { s with
                              html := s.html ++ ("<blockquote".data ++
                                lineAttr s.pst.currentBlockStartLine ++
                                ">".data ++ inner ++
                                "</blockquote>".data),
                              inBlockquote := false,
                              blockquoteContent := [], pst := pstI }
                          from by simp [pbGo, hline, hSf, g3', g4,
                            hT', hbq, hB, hbc, hpb]]
                        have hinner : ltSafe inner = true := by
                          have h0 := ih
                            (splitChar '\n' s.blockquoteContent) 0
                            (initBState s.pst) rfl (by simp [initBState])
                          rw [hpb] at h0
                          exact h0
                        exact key25 _ hbq (ltSafe_append hh'
                          (ltSafe_append (ltSafe_append (ltSafe_append
                            (ltSafe_append (by decide)
                              (ltSafe_of_not_mem (lineAttr_no_lt _)))
                            (by decide)) hinner) (by decide))) hl'
                          g3' hT' rfl
                  · rw [Bool.not_eq_true] at hB
                    exact key25 s hbq hh' hl' g3' hT' hB
              by_cases hT : st.inTable = true
              · rw [show pbGo (f + 1) lines i st = pbGo (f + 1) lines i
                    { st with
                      html := st.html ++ renderTable st.tableRows
                        st.pst.currentBlockStartLine,
                      inTable := false, tableRows := [] }
                  from by simp [pbGo, hline, hSf, g3, g4, hT]]
                exact key5 _ (ltSafe_append hh (renderTable_ltSafe _ _))
                  hl g3 rfl
              · rw [Bool.not_eq_true] at hT
                exact key5 st hh hl g3 hT

/-- `ltSafe` rules out every case-insensitive occurrence of a pattern
`'<' :: tail` whose tail disagrees, case-insensitively, with every
window fragment. -/
theorem hasCI_false_of_ltSafe (p1 : Char) (pt : List Char)
    (hwin : ∀ w ∈ ltWindows,
      (w.take (min w.length (p1 :: pt).length)).map toLowerChar ≠
        (p1 :: pt).take (min w.length (p1 :: pt).length)) :
    ∀ H, ltSafe H = true → hasCI ('<' :: p1 :: pt) H = false := by
  intro H
  induction H with
  | nil => intro _; simp [hasCI, lowerTake]
  | cons c rest ih =>
    intro h
    rw [show hasCI ('<' :: p1 :: pt) (c :: rest) =
        (lowerTake ('<' :: p1 :: pt) (c :: rest) ||
          hasCI ('<' :: p1 :: pt) rest) from rfl,
      ih (ltSafe_tail' h), Bool.or_false]
    cases hlt : lowerTake ('<' :: p1 :: pt) (c :: rest) with
    | false => rfl
    | true =>
      exfalso
      unfold lowerTake at hlt
      rw [decide_eq_true_eq, List.length_cons, List.take_succ_cons,
        List.map_cons, List.cons_eq_cons] at hlt
      obtain ⟨hc, htail⟩ := hlt
      have hc' : c = '<' := toLowerChar_eq_nonletter (by decide) hc
      subst hc'
      obtain ⟨w, hwmem, hwt⟩ := List.any_eq_true.mp (ltSafe_head_window h)
      have hwt' := of_decide_eq_true hwt
      have hmin : min w.length (p1 :: pt).length ≤ w.length :=
        Nat.min_le_left _ _
      have hmin2 : min w.length (p1 :: pt).length ≤ (p1 :: pt).length :=
        Nat.min_le_right _ _
      have hk1 := congrArg
        (List.take (min w.length (p1 :: pt).length)) hwt'
      rw [List.take_take, Nat.min_eq_left hmin] at hk1
      have hk2 := congrArg
        (List.take (min w.length (p1 :: pt).length)) htail
      rw [← List.map_take, List.take_take, Nat.min_eq_left hmin2] at hk2
      apply hwin w hwmem
      rw [hk1] at hk2
      exact hk2

/-- Claim C1 (amended, fallback half): for every input string, the parse
output on the regex-strip fallback path (DOMPurify absent) contains no
case-insensitive occurrence of `<script`, `onerror=` or `javascript:`.
The block parser only emits `<` opening a known tag fragment (`ltSafe`),
so the four strip passes are identities, `on\w+\s*=` never matches across
the output, and `javascript:` never survives the replacement. -/
theorem parse_fallback_sanitized (s : String) :
    hasCI "<script".data (parse s).data = false ∧
    hasCI "onerror=".data (parse s).data = false ∧
    hasCI "javascript:".data (parse s).data = false := by
  rw [show parse s =
      (if s.data = [] then ""
       else if utf8Len s.data > 10 * 1024 * 1024 then
         "<div class=\"error\">Document exceeds maximum size (10MB)</div>"
       else
         ⟨sanitize none (parseBlocksL (normalizeNl s.data)
           { mermaidId := 0, currentBlockStartLine := none }).1⟩)
    from rfl]
  split_ifs with h0 hsz
  · exact ⟨by decide, by decide, by decide⟩
  · exact ⟨by decide, by decide, by decide⟩
  · have hsafe : ltSafe (parseBlocksL (normalizeNl s.data)
        { mermaidId := 0, currentBlockStartLine := none }).1 = true :=
      pbGo_ltSafe _ _ _ _ rfl (by simp [initBState])
    exact sanitizeFallback_safe
      (hasCI_false_of_ltSafe 's' "cript".data (by decide) _ hsafe)
      (hasCI_false_of_ltSafe 's' "tyle".data (by decide) _ hsafe)
      (hasCI_false_of_ltSafe 'i' "frame".data (by decide) _ hsafe)
      (hasCI_false_of_ltSafe 'o' "bject".data (by decide) _ hsafe)
      (hasCI_false_of_ltSafe 'e' "mbed".data (by decide) _ hsafe)

set_option maxRecDepth 8000 in
/-- Claim C1 (refuting the sanitizer-present half as stated): when the
sanitizer collaborator is available, `Parser.parse` guarantees nothing by
itself — with a collaborator that returns its input unchanged on benign
markup (as a text-preserving sanitizer does for plain text), the output of
parsing `javascript:x` still contains `javascript:`. -/
theorem parseWith_purifier_retains_javascript :
    hasCI "javascript:".data
      (parseWith (some (fun l => l)) "javascript:x").data = true := by
  decide

end MdParser
